import Mathlib

/-!
# Curvefs S3 client adaptor: address-space translation

A shallow embedding of `curvefs/src/client/s3/client_s3_adaptor.cpp`.

* `uint64_t` values are natural numbers below `2^64`; additions and
  subtractions of the source wrap modulo `2^64` (`add64`, `sub64`).
* `S3ChunkInfo` is a plain record, the chunk list a `List S3ChunkInfo`.
* The object store client, the chunk-id allocator and the version-bump
  service are injected as records of functions over a state (`S3Client`,
  `Services`); `MemWorld` is the in-memory instance of that state.
* Caller buffers are functions from byte index to byte value.
* Where a property speaks of the calls a function makes, the calls of the
  collaborators are recorded by `recClient` and `recServices`, and `WriteT`
  is `Write` with a ghost record of its calls of `UpdateInodeChunkInfo`
  (`WriteT_fst`: erasing the record gives `Write`); `planLoopT` is the plan
  loop of `Read` with a ghost record of its loop-head states and zero-fills
  (`planLoopT_fst`).
-/

namespace Curvefs

/-! ## Machine integers -/

/-- Modulus of `uint64_t` arithmetic. -/
def U64 : Nat := 18446744073709551616

/-- Wrapping `uint64_t` addition. -/
def add64 (a b : Nat) : Nat := (a + b) % U64

/-- Wrapping `uint64_t` subtraction. -/
def sub64 (a b : Nat) : Nat := (a + (U64 - b % U64)) % U64

/-! ## Data model -/

/-- Record `S3ChunkInfo` of the metaserver protocol (five `uint64` fields). -/
structure S3ChunkInfo where
  chunkid : Nat
  version : Nat
  offset : Nat
  len : Nat
  size : Nat
deriving DecidableEq, Repr

/-- All fields of a chunk record are `uint64_t` values. -/
def S3ChunkInfo.InRange (c : S3ChunkInfo) : Prop :=
  c.chunkid < U64 ∧ c.version < U64 ∧ c.offset < U64 ∧ c.len < U64 ∧ c.size < U64

/-- End of the byte range of a record, as the source computes it
(`offset() + len()` in `uint64_t`). -/
def S3ChunkInfo.endOff (c : S3ChunkInfo) : Nat := add64 c.offset c.len

/-- Byte `x` lies in the logical range `[offset, offset + len)` of a record. -/
def S3ChunkInfo.Covers (c : S3ChunkInfo) (x : Nat) : Prop :=
  c.offset ≤ x ∧ x < c.offset + c.len

instance (c : S3ChunkInfo) (x : Nat) : Decidable (c.Covers x) := by
  unfold S3ChunkInfo.Covers; exact inferInstance

/-! ## Interval algebra -/

/-- The overlap test written inline in `GetReadChunks` (and in `IsOverlap`):
`a.offset < b.offset + b.len && b.offset < a.offset + a.len`. -/
def overlaps (a b : S3ChunkInfo) : Bool :=
  decide (a.offset < b.endOff) && decide (b.offset < a.endOff)

/-- The body of `CutOverLapChunks(newChunk, old)` after its assertion: the
four geometric cases and the fragments pushed on `result`. -/
def cutFragments (newChunk old : S3ChunkInfo) : List S3ChunkInfo :=
  if newChunk.offset > old.offset ∧ newChunk.offset < add64 old.offset old.len then
    if add64 newChunk.offset newChunk.len ≥ add64 old.offset old.len then
      [{ chunkid := old.chunkid, version := old.version, offset := old.offset,
         len := sub64 newChunk.offset old.offset,
         size := sub64 newChunk.offset old.offset }]
    else
      [{ chunkid := old.chunkid, version := old.version, offset := old.offset,
         len := sub64 newChunk.offset old.offset,
         size := sub64 newChunk.offset old.offset },
       { chunkid := old.chunkid, version := old.version,
         offset := add64 newChunk.offset newChunk.len,
         len := sub64 (sub64 (add64 old.offset old.len) newChunk.offset) newChunk.len,
         size := sub64 (sub64 (add64 old.offset old.len) newChunk.offset) newChunk.len }]
  else if newChunk.offset ≤ old.offset ∧
      add64 newChunk.offset newChunk.len ≥ add64 old.offset old.len then
    []
  else
    [{ chunkid := old.chunkid, version := old.version,
       offset := add64 newChunk.offset newChunk.len,
       len := sub64 (sub64 (add64 old.offset old.len) newChunk.offset) newChunk.len,
       size := sub64 (sub64 (add64 old.offset old.len) newChunk.offset) newChunk.len }]

/-- `S3ClientAdaptor::CutOverLapChunks(newChunk, old)`. `none`: the assertion
`assert(newChunk.version() >= old.version())` at its head fails and the
program is aborted. -/
def CutOverLapChunks (newChunk old : S3ChunkInfo) : Option (List S3ChunkInfo) :=
  if newChunk.version ≥ old.version then some (cutFragments newChunk old) else none

/-! ## Read path: effective coverage -/

/-- `std::vector::erase(begin() + i)`; erasing at or past `end()` is undefined
behaviour of the source and yields `none`. -/
def eraseAt (chunks : List S3ChunkInfo) (i : Nat) : Option (List S3ChunkInfo) :=
  if i < chunks.length then some (chunks.eraseIdx i) else none

/-- Inner scan of `GetReadChunks` over `chunks[j..]`: every overlapped
position is pushed on `waitingDel`, and `addChunks` is *assigned* the cut of
the overlapped chunk. `none`: the assertion of `CutOverLapChunks` fails. -/
def scanOverlaps (tmp : S3ChunkInfo) :
    List S3ChunkInfo → Nat → List S3ChunkInfo → List Nat →
      Option (List S3ChunkInfo × List Nat)
  | [], _, addChunks, waitingDel => some (addChunks, waitingDel)
  | chunkTmp :: rest, j, addChunks, waitingDel =>
    if overlaps tmp chunkTmp then
      match CutOverLapChunks tmp chunkTmp with
      | none => none
      | some cut => scanOverlaps tmp rest (j + 1) cut (waitingDel ++ [j])
    else
      scanOverlaps tmp rest (j + 1) addChunks waitingDel

/-- The erase loop of `GetReadChunks`: the recorded positions are erased one
after the other from the (shrinking) vector. -/
def eraseAll : List S3ChunkInfo → List Nat → Option (List S3ChunkInfo)
  | chunks, [] => some chunks
  | chunks, i :: rest =>
    match eraseAt chunks i with
    | none => none
    | some chunks1 => eraseAll chunks1 rest

/-- One iteration of the outer loop of `GetReadChunks`. -/
def readChunksStep (chunks : List S3ChunkInfo) (tmp : S3ChunkInfo) :
    Option (List S3ChunkInfo) :=
  match scanOverlaps tmp chunks 0 [] [] with
  | none => none
  | some r =>
    match eraseAll chunks r.2 with
    | none => none
    | some chunks1 => some (chunks1 ++ r.1 ++ [tmp])

/-- Outer loop of `GetReadChunks` from working set `chunks`. -/
def readChunksFrom : List S3ChunkInfo → List S3ChunkInfo → Option (List S3ChunkInfo)
  | chunks, [] => some chunks
  | chunks, tmp :: rest =>
    match readChunksStep chunks tmp with
    | none => none
    | some chunks1 => readChunksFrom chunks1 rest

/-- `S3ClientAdaptor::GetReadChunks` on the chunk list of the inode. `none`:
an erase at or past `end()` (undefined behaviour) or a failed assertion of
`CutOverLapChunks`. -/
def GetReadChunks (s3ChunkInfoList : List S3ChunkInfo) : Option (List S3ChunkInfo) :=
  readChunksFrom [] s3ChunkInfoList

/-! ## Read path: sorting -/

/-- Inner loop of `SortByOffset`: `k` adjacent comparisons from the front. -/
def bubblePass : Nat → List S3ChunkInfo → List S3ChunkInfo
  | k + 1, a :: b :: rest =>
    if a.offset > b.offset then b :: bubblePass k (a :: rest)
    else a :: bubblePass k (b :: rest)
  | _, chunks => chunks

/-- Outer loop of `SortByOffset`: passes `i, i+1, ..., len - 2`, pass `i`
doing `len - 1 - i` comparisons; `todo` is the number of passes left. -/
def bubbleLoop : Nat → Nat → List S3ChunkInfo → List S3ChunkInfo
  | 0, _, chunks => chunks
  | todo + 1, i, chunks => bubbleLoop todo (i + 1) (bubblePass (chunks.length - 1 - i) chunks)

/-- `S3ClientAdaptor::SortByOffset`. -/
def SortByOffset (chunks : List S3ChunkInfo) : List S3ChunkInfo :=
  bubbleLoop (chunks.length - 1) 0 chunks

/-! ## Object store client and object names -/

/-- The injected object store client (`S3Client *client_`) over a store state
`σ`. `Upload` and `Append` return the `int` result and the new store state;
`Download` returns the negative `int` result as `Except.error`, or the bytes
it placed in the destination (its result is then their number). -/
structure S3Client (σ : Type) where
  Upload : σ → String → List Nat → Int × σ
  Append : σ → String → List Nat → Int × σ
  Download : σ → String → Nat → Nat → Except Int (List Nat)

/-- `S3ClientAdaptor::GenerateObjectName`: the three numbers in decimal,
joined by `_`. -/
def GenerateObjectName (chunkId blockIndex version : Nat) : String :=
  toString chunkId ++ "_" ++ toString blockIndex ++ "_" ++ toString version

/-! ## Read path: plan, execution, assembly -/

/-- A read request: the chunk record narrowed to the needed range and the
position in the caller's buffer. -/
structure S3ReadRequest where
  chunkInfo : S3ChunkInfo
  readOffset : Nat
deriving DecidableEq, Repr

/-- A read response: position in the caller's buffer, number of bytes and the
bytes fetched. -/
structure S3ReadResponse where
  readOffset : Nat
  bufLen : Nat
  dataBuf : List Nat
deriving DecidableEq, Repr

/-- Conversion of a `uint64_t` to `int` (32 bits, two's complement). -/
def toInt32 (n : Nat) : Int :=
  if n % 4294967296 < 2147483648 then ((n % 4294967296 : Nat) : Int)
  else ((n % 4294967296 : Nat) : Int) - 4294967296

/-- A `uint64_t` stored in an `int` and converted back to 64 bits unsigned
(sign extension), as in `int n = ...; readOffset += n;`. -/
def int32AsU64 (n : Nat) : Nat :=
  if n % 4294967296 < 2147483648 then n % 4294967296
  else n % 4294967296 + 18446744069414584320

/-- `memset(buf + pos, 0, n)` on a buffer given as a function of the index. -/
def memset (buf : Nat → Nat) (pos n : Nat) : Nat → Nat :=
  fun i => if pos ≤ i ∧ i < pos + n then 0 else buf i

/-- State of `Read` when its plan loop is left. -/
structure ReadPlan where
  readOffset : Nat
  buf : Nat → Nat
  requests : List S3ReadRequest

/-- The plan loop of `Read` (`while (length > 0)`), over the chunks
`sortChunks[i..]` that are still to be visited. -/
def planLoop : List S3ChunkInfo → Nat → Nat → Nat → (Nat → Nat) → List S3ReadRequest →
    ReadPlan
  | [], _, length, readOffset, buf, requests =>
    if length = 0 then ⟨readOffset, buf, requests⟩
    else ⟨readOffset, memset buf readOffset length, requests⟩
  | tmp :: rest, offset, length, readOffset, buf, requests =>
    if length = 0 then ⟨readOffset, buf, requests⟩
    else if add64 offset length ≤ tmp.offset then
      ⟨readOffset, memset buf readOffset length, requests⟩
    else if tmp.offset ≥ offset ∧ tmp.offset < add64 offset length then
      let n := int32AsU64 (sub64 tmp.offset offset)
      let buf1 := memset buf readOffset n
      let offset1 := tmp.offset
      let readOffset1 := add64 readOffset n
      let length1 := sub64 length n
      if add64 offset1 length1 ≤ add64 tmp.offset tmp.len then
        planLoop rest offset1 0 (add64 readOffset1 length1) buf1
          (requests ++ [⟨{ tmp with offset := offset1, len := length1 }, readOffset1⟩])
      else
        planLoop rest (add64 offset1 tmp.len) (sub64 length1 tmp.len)
          (add64 readOffset1 tmp.len) buf1 (requests ++ [⟨tmp, readOffset1⟩])
    else if tmp.offset < offset ∧ add64 tmp.offset tmp.len > offset then
      if add64 offset length ≤ add64 tmp.offset tmp.len then
        planLoop rest offset 0 (add64 readOffset length) buf
          (requests ++ [⟨{ tmp with offset := offset, len := length }, readOffset⟩])
      else
        planLoop rest (add64 tmp.offset tmp.len)
          (sub64 length (sub64 (add64 tmp.offset tmp.len) offset))
          (add64 readOffset (sub64 (add64 tmp.offset tmp.len) offset)) buf
          (requests ++ [⟨{ tmp with offset := offset,
                                    len := sub64 (add64 tmp.offset tmp.len) offset },
                         readOffset⟩])
    else
      planLoop rest offset length readOffset buf requests

/-- The per-block download loop of `handleReadRequest` for one request.
`none`: the loop did not finish within `fuel` iterations. -/
def downloadLoop {σ : Type} (client : S3Client σ) (st : σ) (blockSize chunkid version : Nat) :
    Nat → Nat → Nat → Nat → List Nat → Option (Except Int (List Nat))
  | 0, _, _, len, dataBuf => if len = 0 then some (.ok dataBuf) else none
  | fuel + 1, blockIndex, blockPos, len, dataBuf =>
    if len = 0 then some (.ok dataBuf)
    else
      let n := if add64 blockPos len > blockSize then sub64 blockSize blockPos else len
      match client.Download st (GenerateObjectName chunkid blockIndex version) blockPos n with
      | .error readLen => some (.error readLen)
      | .ok data =>
        downloadLoop client st blockSize chunkid version fuel (add64 blockIndex 1)
          (add64 blockPos n % blockSize) (sub64 len data.length) (dataBuf ++ data)

/-- `S3ClientAdaptor::handleReadRequest`. -/
def handleReadRequest {σ : Type} (client : S3Client σ) (st : σ) (blockSize chunkSize : Nat)
    (fuel : Nat) : List S3ReadRequest → List S3ReadResponse →
    Option (Except Int (List S3ReadResponse))
  | [], responses => some (.ok responses)
  | req :: rest, responses =>
    match downloadLoop client st blockSize req.chunkInfo.chunkid req.chunkInfo.version fuel
        (req.chunkInfo.offset % chunkSize / blockSize)
        (req.chunkInfo.offset % chunkSize % blockSize) req.chunkInfo.len [] with
    | none => none
    | some (.error readLen) => some (.error readLen)
    | some (.ok dataBuf) =>
      handleReadRequest client st blockSize chunkSize fuel rest
        (responses ++ [⟨req.readOffset, dataBuf.length, dataBuf⟩])

/-- What `strncpy(dst, src, n)` stores in the `n` bytes of `dst`: the bytes
of `src` up to its first zero byte, then zero bytes. -/
def strncpyBytes : List Nat → Nat → List Nat
  | _, 0 => []
  | [], n + 1 => List.replicate (n + 1) 0
  | c :: src, n + 1 => if c = 0 then List.replicate (n + 1) 0 else c :: strncpyBytes src n

/-- Store the bytes `data` in `buf` from position `pos` on. -/
def pokeBytes (buf : Nat → Nat) (pos : Nat) (data : List Nat) : Nat → Nat :=
  fun i => if pos ≤ i ∧ i < pos + data.length then data.getD (i - pos) 0 else buf i

/-- The assembly loop of `Read`: `strncpy(buf + readOffset, dataBuf, bufLen)`
for every response in order. -/
def assemble : List S3ReadResponse → (Nat → Nat) → (Nat → Nat)
  | [], buf => buf
  | r :: rest, buf => assemble rest (pokeBytes buf r.readOffset (strncpyBytes r.dataBuf r.bufLen))

/-- Record `Inode` of the metaserver protocol, the fields the adaptor uses. -/
structure Inode where
  fsid : Nat
  inodeid : Nat
  length : Nat
  version : Nat
  s3ChunkInfoList : List S3ChunkInfo
deriving DecidableEq, Repr

/-- `S3ClientAdaptor::Read`: the `int` result and the caller's buffer.
`none`: undefined behaviour or a failed assertion in `GetReadChunks`, or a
download loop that does not finish within `fuel` iterations. -/
def Read {σ : Type} (client : S3Client σ) (st : σ) (blockSize chunkSize : Nat) (fuel : Nat)
    (inode : Inode) (offset length : Nat) (buf : Nat → Nat) : Option (Int × (Nat → Nat)) :=
  match GetReadChunks inode.s3ChunkInfoList with
  | none => none
  | some chunks =>
    let plan := planLoop (SortByOffset chunks) offset length 0 buf []
    match handleReadRequest client st blockSize chunkSize fuel plan.requests [] with
    | none => none
    | some (.error ret) => some (ret, plan.buf)
    | some (.ok responses) => some (toInt32 plan.readOffset, assemble responses plan.buf)

/-! ## Write path -/

/-- The two RPC services behind `AllocS3ChunkId` and `UpdateInodeS3Version`,
over the state `σ` of the outside world. `AllocateS3Chunk st fsid` answers a
chunk id, or `none` for every failure (`CURVEFS_ERROR` other than `OK`);
`UpdateInodeS3Version st inodeid fsid` answers the new version, or the
non-zero `int` result of a failed call. -/
structure Services (σ : Type) where
  AllocateS3Chunk : σ → Nat → Option Nat × σ
  UpdateInodeS3Version : σ → Nat → Nat → Except Int Nat × σ

/-- `S3ClientAdaptor::IsOverlap`. -/
def IsOverlap (s3ChunkInfoList : List S3ChunkInfo) (offset length : Nat) : Bool :=
  s3ChunkInfoList.any fun tmp =>
    decide (offset < add64 tmp.offset tmp.len) && decide (tmp.offset < add64 offset length)

/-- `S3ClientAdaptor::IsAppendBlock` (its `length` argument is unused). -/
def IsAppendBlock (s3ChunkInfoList : List S3ChunkInfo) (blockSize offset : Nat) : Bool :=
  s3ChunkInfoList.any fun tmp =>
    decide (add64 tmp.offset tmp.len = offset) &&
      decide (tmp.offset / blockSize = offset / blockSize)

/-- The scan of `UpdateInodeChunkInfo`: the running `offset`, `len` and
`merge` are carried from entry to entry. -/
def mergeScan (chunkId version : Nat) :
    List S3ChunkInfo → Nat → Nat → Bool → List S3ChunkInfo × Nat × Nat × Bool
  | [], offset, len, merge => ([], offset, len, merge)
  | tmp :: rest, offset, len, merge =>
    if chunkId ≠ tmp.chunkid then
      let r := mergeScan chunkId version rest offset len merge
      (tmp :: r.1, r.2)
    else if version = tmp.version ∧ offset = add64 tmp.offset tmp.len then
      let r := mergeScan chunkId version rest tmp.offset (add64 len tmp.len) true
      ({ tmp with len := add64 len tmp.len } :: r.1, r.2)
    else
      let r := mergeScan chunkId version rest offset len merge
      (tmp :: r.1, r.2)

/-- `S3ClientAdaptor::UpdateInodeChunkInfo`. -/
def UpdateInodeChunkInfo (s3ChunkInfoList : List S3ChunkInfo)
    (chunkId version offset len : Nat) : List S3ChunkInfo :=
  let r := mergeScan chunkId version s3ChunkInfoList offset len false
  if r.2.2.2 then r.1
  else r.1 ++ [{ chunkid := chunkId, version := version, offset := r.2.1,
                 len := r.2.2.1, size := r.2.2.1 }]

/-- `S3ClientAdaptor::GetChunkId`: result code, the chunk id stored through
the pointer (if any) and the new state of the outside world. -/
def GetChunkId {σ : Type} (rpc : Services σ) (st : σ) (chunkSize : Nat) (inode : Inode)
    (index : Nat) : Int × Option Nat × σ :=
  if inode.length = 0 then
    match rpc.AllocateS3Chunk st inode.fsid with
    | (none, st1) => (-1, none, st1)
    | (some chunkId, st1) => (0, some chunkId, st1)
  else
    match inode.s3ChunkInfoList.find? (fun tmp => tmp.offset / chunkSize == index) with
    | some tmp => (0, some tmp.chunkid, st)
    | none =>
      match rpc.AllocateS3Chunk st inode.fsid with
      | (none, st1) => (-1, none, st1)
      | (some chunkId, st1) => (0, some chunkId, st1)

/-- The `n` bytes of the caller's buffer from position `pos` on. -/
def bufSlice (buf : Nat → Nat) (pos n : Nat) : List Nat :=
  (List.range n).map fun j => buf (pos + j)

/-- The block loop of `WriteChunk`; the result is the `uint64_t` it returns
(`2^64 - 1` for `return -1`). `none`: not finished within the fuel. -/
def writeChunkLoop {σ : Type} (client : S3Client σ) (blockSize chunkId version : Nat)
    (buf : Nat → Nat) : Nat → σ → Nat → Nat → Nat → Nat → Bool → Option (Nat × σ)
  | 0, st, _, _, length, writeOffset, _ => if length = 0 then some (writeOffset, st) else none
  | fuel + 1, st, blockIndex, blockPos, length, writeOffset, append =>
    if length = 0 then some (writeOffset, st)
    else
      let n := if add64 blockPos length > blockSize then sub64 blockSize blockPos else length
      let objectName := GenerateObjectName chunkId blockIndex version
      let r := if append then client.Append st objectName (bufSlice buf writeOffset n)
               else client.Upload st objectName (bufSlice buf writeOffset n)
      if r.1 < 0 then some (U64 - 1, r.2)
      else
        writeChunkLoop client blockSize chunkId version buf fuel r.2 (add64 blockIndex 1)
          (add64 blockPos n % blockSize) (sub64 length n) (add64 writeOffset n) false

/-- `S3ClientAdaptor::WriteChunk`; `buf` is the caller's buffer and `bufPos`
the position `buf + writeOffset` handed in by `Write`. -/
def WriteChunk {σ : Type} (client : S3Client σ) (st : σ) (blockSize chunkId version pos
    length : Nat) (buf : Nat → Nat) (bufPos : Nat) (append : Bool) : Option (Nat × σ) :=
  writeChunkLoop client blockSize chunkId version (fun j => buf (bufPos + j)) length st
    (pos / blockSize) (pos % blockSize) length 0 append

/-- The chunk loop of `Write` (`while (length > 0)`) followed by
`set_version` and the return. `none`: not finished within the fuel. -/
def writeLoop {σ : Type} (client : S3Client σ) (rpc : Services σ) (blockSize chunkSize : Nat)
    (buf : Nat → Nat) (version : Nat) :
    Nat → σ → Inode → Nat → Nat → Nat → Nat → Nat → Bool → Option (Int × Inode × σ)
  | 0, st, inode, _, _, length, _, totalWriteLen, _ =>
    if length = 0 then some (toInt32 totalWriteLen, { inode with version := version }, st)
    else none
  | fuel + 1, st, inode, index, chunkPos, length, writeOffset, totalWriteLen, append =>
    if length = 0 then some (toInt32 totalWriteLen, { inode with version := version }, st)
    else
      let n := if add64 chunkPos length > chunkSize then sub64 chunkSize chunkPos else length
      match GetChunkId rpc st chunkSize inode index with
      | (ret, none, st1) => some (ret, inode, st1)
      | (ret, some chunkId, st1) =>
        if ret < 0 then some (ret, inode, st1)
        else
          match WriteChunk client st1 blockSize chunkId version chunkPos n buf writeOffset
              append with
          | none => none
          | some (writeLen, st2) =>
            if writeLen ≥ 9223372036854775808 then some (toInt32 writeLen, inode, st2)
            else
              let chunks := UpdateInodeChunkInfo inode.s3ChunkInfoList chunkId version
                (add64 (index * chunkSize % U64) chunkPos) writeLen
              writeLoop client rpc blockSize chunkSize buf version fuel st2
                { inode with s3ChunkInfoList := chunks }
                (add64 index 1) (add64 chunkPos n % chunkSize) (sub64 length writeLen)
                (add64 writeOffset writeLen) (add64 totalWriteLen writeLen) false

/-- `S3ClientAdaptor::Write`. `uninit` is the indeterminate value the local
`version` holds when the version bump fails and leaves it unassigned. Result:
the `int` returned, the inode and the outside world afterwards. `none`: the
third branch reads `s3chunks(s3chunks_size() - 1)` of an empty chunk list
(undefined behaviour of the source), or the loop does not finish within the
fuel `length`. -/
def Write {σ : Type} (client : S3Client σ) (rpc : Services σ) (blockSize chunkSize : Nat)
    (st : σ) (inode : Inode) (offset length : Nat) (buf : Nat → Nat) (uninit : Nat) :
    Option (Int × Inode × σ) :=
  if inode.length = 0 then
    writeLoop client rpc blockSize chunkSize buf 0 length st inode
      (offset / chunkSize) (offset % chunkSize) length 0 0 false
  else if IsOverlap inode.s3ChunkInfoList offset length then
    match rpc.UpdateInodeS3Version st inode.inodeid inode.fsid with
    | (.ok version, st1) =>
      writeLoop client rpc blockSize chunkSize buf version length st1 inode
        (offset / chunkSize) (offset % chunkSize) length 0 0 false
    | (.error _, st1) =>
      writeLoop client rpc blockSize chunkSize buf uninit length st1 inode
        (offset / chunkSize) (offset % chunkSize) length 0 0 false
  else
    match inode.s3ChunkInfoList.getLast? with
    | none => none
    | some last =>
      writeLoop client rpc blockSize chunkSize buf last.version length st inode
        (offset / chunkSize) (offset % chunkSize) length 0 0
        (IsAppendBlock inode.s3ChunkInfoList blockSize offset)

/-! ## In-memory collaborators -/

/-- In-memory object store: object name to byte string. -/
abbrev MemStore := List (String × List Nat)

/-- Object `name` of the in-memory store. -/
def MemStore.get (st : MemStore) (name : String) : Option (List Nat) :=
  match st.find? (fun p => p.1 == name) with
  | some p => some p.2
  | none => none

/-- Replace (or create) object `name`. -/
def MemStore.put (st : MemStore) (name : String) (data : List Nat) : MemStore :=
  (name, data) :: st.filter (fun p => !(p.1 == name))

/-- The in-memory object store client: `Upload` replaces the object, `Append`
concatenates, `Download name off n` returns bytes `[off, off + n)` of the
object and fails when they do not all exist. -/
def memClient : S3Client MemStore where
  Upload := fun st name data => (0, st.put name data)
  Append := fun st name data => (0, st.put name ((st.get name).getD [] ++ data))
  Download := fun st name off n =>
    match st.get name with
    | none => .error (-1)
    | some obj => if off + n ≤ obj.length then .ok ((obj.drop off).take n) else .error (-1)

/-- A store operation issued through the client, as recorded by `worldClient`. -/
inductive StoreOp where
  | upload (name : String) (data : List Nat)
  | append (name : String) (data : List Nat)
deriving DecidableEq, Repr

/-- State of the in-memory outside world: the object store, the store
operations issued so far (oldest first), the next chunk id of the allocator
and the version counter of the metadata service. -/
structure MemWorld where
  store : MemStore
  log : List StoreOp
  nextChunk : Nat
  version : Nat
deriving DecidableEq, Repr

/-- The in-memory object store client on a `MemWorld`; every `Upload` and
`Append` is also recorded in `log`. -/
def worldClient : S3Client MemWorld where
  Upload := fun w name data =>
    (0, { w with store := w.store.put name data, log := w.log ++ [.upload name data] })
  Append := fun w name data =>
    (0, { w with store := w.store.put name ((w.store.get name).getD [] ++ data),
                 log := w.log ++ [.append name data] })
  Download := fun w name off n => memClient.Download w.store name off n

/-- In-memory services: the allocator hands out `nextChunk` and increments
it, the metadata service increments its version counter and answers it. -/
def worldServices : Services MemWorld where
  AllocateS3Chunk := fun w _ => (some w.nextChunk, { w with nextChunk := w.nextChunk + 1 })
  UpdateInodeS3Version := fun w _ _ => (.ok (w.version + 1), { w with version := w.version + 1 })

/-- Services whose version bump fails with result `-1`. -/
def failingBump : Services MemWorld where
  AllocateS3Chunk := worldServices.AllocateS3Chunk
  UpdateInodeS3Version := fun w _ _ => (.error (-1), w)

/-- The caller's buffer holding the bytes `data` from position 0 on. -/
def bufOf (data : List Nat) : Nat → Nat := fun i => data.getD i 0

/-! ## Invariants of the chunk list and runs of writes -/

/-- Every entry has positive length and a range that does not wrap past
`2^64` and lies in one class of `key`; entries with the same chunk id lie in
the same class. With `key x = x / chunkSize` the classes are the chunks. -/
structure ChunkListInv (key : Nat → Nat) (l : List S3ChunkInfo) : Prop where
  shape : ∀ e ∈ l, 0 < e.len ∧ e.offset + e.len < U64 ∧
    key e.offset = key (e.offset + e.len - 1)
  ids : ∀ e ∈ l, ∀ f ∈ l, e.chunkid = f.chunkid → key e.offset = key f.offset

/-- Bookkeeping of issued chunk ids: `issued st k` says that id `k` has been
issued in world state `st`; an allocation issues the id it answers and no
call of a collaborator withdraws an issued id. -/
structure IssuedMono {σ : Type} (client : S3Client σ) (rpc : Services σ)
    (issued : σ → Nat → Prop) : Prop where
  alloc_issued : ∀ st fsid k st1, rpc.AllocateS3Chunk st fsid = (some k, st1) → issued st1 k
  alloc_mono : ∀ st fsid r st1 j, rpc.AllocateS3Chunk st fsid = (r, st1) →
    issued st j → issued st1 j
  bump_mono : ∀ st a b r st1 j, rpc.UpdateInodeS3Version st a b = (r, st1) →
    issued st j → issued st1 j
  upload_mono : ∀ st name data j, issued st j → issued (client.Upload st name data).2 j
  append_mono : ∀ st name data j, issued st j → issued (client.Append st name data).2 j

/-- The allocator answers ids never issued before. -/
structure FreshAlloc {σ : Type} (client : S3Client σ) (rpc : Services σ)
    (issued : σ → Nat → Prop) : Prop where
  mono : IssuedMono client rpc issued
  fresh : ∀ st fsid k st1, rpc.AllocateS3Chunk st fsid = (some k, st1) → ¬ issued st k

/-- The chunks of size `chunkSize` refine the classes of `key`. -/
def KeyOfChunk (chunkSize : Nat) (key : Nat → Nat) : Prop :=
  ∀ index x, index * chunkSize ≤ x → x < index * chunkSize + chunkSize →
    key x = key (index * chunkSize)

/-- Either `key` does not tell offsets apart, or allocated ids are fresh. -/
def KeyTrivialOrFresh {σ : Type} (rpc : Services σ) (issued : σ → Nat → Prop)
    (key : Nat → Nat) : Prop :=
  (∀ x y, key x = key y) ∨
    ∀ st fsid k st1, rpc.AllocateS3Chunk st fsid = (some k, st1) → ¬ issued st k

/-- The version-bump service, called in state `st` for `inode`, answers a
version strictly greater than the inode's current one. -/
def BumpsAbove {σ : Type} (rpc : Services σ) (st : σ) (inode : Inode) : Prop :=
  ∃ v st1, rpc.UpdateInodeS3Version st inode.inodeid inode.fsid = (.ok v, st1) ∧
    inode.version < v

/-- The inode after the caller has set `inode.length` to the highest written
end. -/
def setLength (inode : Inode) (offset length : Nat) : Inode :=
  { inode with length := max inode.length (offset + length) }

/-- Inode and world reachable from a fresh inode (length 0, version 0, empty
chunk list) by successful `Write` calls (non-negative result), the caller
setting `inode.length` after each of them and the version-bump service
answering a version above the inode's current one. -/
inductive Reach {σ : Type} (client : S3Client σ) (rpc : Services σ)
    (blockSize chunkSize : Nat) : Inode → σ → Prop where
  | fresh (fsid inodeid : Nat) (st : σ) :
    Reach client rpc blockSize chunkSize ⟨fsid, inodeid, 0, 0, []⟩ st
  | write (inode : Inode) (st : σ) (offset length : Nat) (buf : Nat → Nat) (uninit : Nat)
      (ret : Int) (inode1 : Inode) (st1 : σ) :
    Reach client rpc blockSize chunkSize inode st →
    0 < length → length < 9223372036854775808 → offset + length < U64 →
    BumpsAbove rpc st inode →
    Write client rpc blockSize chunkSize st inode offset length buf uninit =
      some (ret, inode1, st1) →
    0 ≤ ret →
    Reach client rpc blockSize chunkSize (setLength inode1 offset length) st1

/-- Invariant of an inode under successful writes, in world state `st`. -/
structure InodeInv {σ : Type} (key : Nat → Nat) (issued : σ → Nat → Prop) (inode : Inode)
    (st : σ) : Prop where
  chunks : ChunkListInv key inode.s3ChunkInfoList
  issuedIds : ∀ e ∈ inode.s3ChunkInfoList, issued st e.chunkid
  versions : ∀ e ∈ inode.s3ChunkInfoList, e.version ≤ inode.version
  fresh : inode.length = 0 → inode.s3ChunkInfoList = [] ∧ inode.version = 0
  last : inode.length ≠ 0 →
    ∃ e, inode.s3ChunkInfoList.getLast? = some e ∧ e.version = inode.version

/-- Entry `f` is entry `e` with the same chunk id, version and offset and a
length at least as long. -/
def Grown (e f : S3ChunkInfo) : Prop :=
  f.chunkid = e.chunkid ∧ f.version = e.version ∧ f.offset = e.offset ∧ e.len ≤ f.len

/-- The in-memory world before anything has happened. -/
def freshWorld : MemWorld := ⟨[], [], 0, 0⟩

/-- A fresh inode: length 0, version 0, empty chunk list. -/
def freshInode : Inode := ⟨1, 1, 0, 0, []⟩

/-- The bytes of `"ABCDEFGHIJ"`. -/
def abcBytes : List Nat := [65, 66, 67, 68, 69, 70, 71, 72, 73, 74]

/-- The in-memory world after `Write(inode, 0, 10, "ABCDEFGHIJ")` on the fresh
inode with `B = 4`, `C = 16`. -/
def abcWorld : MemWorld :=
  ⟨[("0_2_0", [73, 74]), ("0_1_0", [69, 70, 71, 72]), ("0_0_0", [65, 66, 67, 68])],
   [.upload "0_0_0" [65, 66, 67, 68], .upload "0_1_0" [69, 70, 71, 72],
    .upload "0_2_0" [73, 74]], 1, 0⟩

/-- The inode after that write, the caller having set its length to 10. -/
def abcInode : Inode := ⟨1, 1, 10, 0, [⟨0, 0, 0, 10, 10⟩]⟩

/-- The range of `w` lies in the range of an entry of `l` with the same chunk
id and version (and so does not wrap when the entries do not). -/
def SubRange (l : List S3ChunkInfo) (w : S3ChunkInfo) : Prop :=
  ∃ e ∈ l, e.offset ≤ w.offset ∧ w.offset + w.len ≤ e.offset + e.len ∧
    w.chunkid = e.chunkid ∧ w.version = e.version

/-- A planned request lies in the window part `[readOffset, readOffset +
length)` of the buffer, at the buffer position of its logical offset, inside
one of the chunks, with that chunk's id and version. -/
def ReqOk (chunks : List S3ChunkInfo) (offset readOffset length : Nat) (r : S3ReadRequest) :
    Prop :=
  readOffset ≤ r.readOffset ∧ r.readOffset + r.chunkInfo.len ≤ readOffset + length ∧
  r.chunkInfo.offset + readOffset = offset + r.readOffset ∧
  ∃ c ∈ chunks, c.offset ≤ r.chunkInfo.offset ∧
    r.chunkInfo.offset + r.chunkInfo.len ≤ c.offset + c.len ∧
    r.chunkInfo.chunkid = c.chunkid ∧ r.chunkInfo.version = c.version

/-- Buffer index `i` lies in the part of the buffer a request is planned for. -/
def InRequest (r : S3ReadRequest) (i : Nat) : Prop :=
  r.readOffset ≤ i ∧ i < r.readOffset + r.chunkInfo.len

/-- A `Download` never places more bytes than it was asked for. -/
def DownloadBounded {σ : Type} (client : S3Client σ) : Prop :=
  ∀ st name off n data, client.Download st name off n = .ok data → data.length ≤ n

/-- Response `resp` answers request `req`: same buffer position, and as many
bytes as the request is long. -/
def Answers (req : S3ReadRequest) (resp : S3ReadResponse) : Prop :=
  resp.readOffset = req.readOffset ∧ resp.bufLen = req.chunkInfo.len ∧
    resp.dataBuf.length = req.chunkInfo.len

/-- Value of a string of decimal digits. -/
def digitsVal (l : List Char) : Nat := l.foldl (fun a c => 10 * a + (c.toNat - 48)) 0

/-- The byte at position `p` of a chunk, as the objects of `(chunkid, version)`
in the in-memory store hold it: byte `p % B` of the object of block `p / B`. -/
def objByteChunk (st : MemStore) (blockSize chunkid version p : Nat) : Option Nat :=
  (st.get (GenerateObjectName chunkid (p / blockSize) version)).bind
    fun obj => obj[p % blockSize]?

/-- The byte at logical offset `x` of the inode as the objects of `(chunkid,
version)` hold it. -/
def objByte (st : MemStore) (blockSize chunkSize chunkid version x : Nat) : Option Nat :=
  objByteChunk st blockSize chunkid version (x % chunkSize)

/-- Consecutive writes to the in-memory world: the byte strings `datas` are
written one after the other, the first at offset `cur`, each where the one
before ended; the caller sets `inode.length` after each write. `none` when a
write does not return or returns a negative result. -/
def writeSeq (blockSize chunkSize : Nat) :
    List (List Nat) → Nat → Inode → MemWorld → Option (Inode × MemWorld)
  | [], _, inode, w => some (inode, w)
  | data :: rest, cur, inode, w =>
    match Write worldClient worldServices blockSize chunkSize w inode cur data.length
        (bufOf data) 0 with
    | some (ret, inode1, w1) =>
      if 0 ≤ ret then
        writeSeq blockSize chunkSize rest (cur + data.length) (setLength inode1 cur data.length) w1
      else none
    | none => none

/-- Shape of a chunk-list entry written by `Write`: non-empty, not wrapping,
inside one chunk. -/
def EntryShape (chunkSize : Nat) (c : S3ChunkInfo) : Prop :=
  0 < c.len ∧ c.offset + c.len < U64 ∧
    c.offset / chunkSize = (c.offset + c.len - 1) / chunkSize

/-- Two records with disjoint ranges. -/
def Apart (a b : S3ChunkInfo) : Prop :=
  a.offset + a.len ≤ b.offset ∨ b.offset + b.len ≤ a.offset

/-- State of the working set `ws` of `GetReadChunks` once the entries `first`
of one write and then the entries `done` of a later write were processed:
`ws` holds the entries of `done` and, of `first`, what `done` left
uncovered. -/
structure OverInv (chunkSize : Nat) (first done ws : List S3ChunkInfo) : Prop where
  dshape : ∀ d ∈ done, EntryShape chunkSize d
  disj : ws.Pairwise Apart
  kind : ∀ c ∈ ws, c ∈ done ∨
    ((∃ a ∈ first, a.offset ≤ c.offset ∧ c.offset + c.len ≤ a.offset + a.len ∧
        c.chunkid = a.chunkid ∧ c.version = a.version) ∧ 0 < c.len ∧
      (∀ d ∈ done, Apart c d) ∧
      (c ∈ first ∨ ∃ d ∈ done, c.offset / chunkSize = d.offset / chunkSize))
  cover : ∀ x, ((∃ a ∈ first, a.Covers x) ∨ (∃ d ∈ done, d.Covers x)) → ∃ c ∈ ws, c.Covers x

/-- The read plan in the words of the specification, for one chunk: when the
chunk `c` meets the window `[offset, offset + length)`, the request narrowed
to `[max(chunkStart, offset), min(chunkEnd, offset + length))`, placed in the
buffer at `ro` plus the distance of its start from the window's start; `ro` is
the buffer position of the window's start. -/
def intersectRequest (offset length ro : Nat) (c : S3ChunkInfo) : Option S3ReadRequest :=
  if max c.offset offset < min (c.offset + c.len) (offset + length) then
    some ⟨{ c with offset := max c.offset offset,
                   len := min (c.offset + c.len) (offset + length) - max c.offset offset },
          ro + (max c.offset offset - offset)⟩
  else none

/-- Consecutive writes through any client and services: each element of the
list is the length and the caller's buffer of one write; the first write
starts at `cur`, each later one where the one before ended, and the caller
sets `inode.length` after each write. `none` when a write does not return or
returns a negative result. -/
def writeRun {σ : Type} (client : S3Client σ) (rpc : Services σ) (blockSize chunkSize : Nat)
    (uninit : Nat) : List (Nat × (Nat → Nat)) → Nat → Inode → σ → Option (Inode × σ)
  | [], _, inode, st => some (inode, st)
  | w :: rest, cur, inode, st =>
    match Write client rpc blockSize chunkSize st inode cur w.1 w.2 uninit with
    | some (ret, inode1, st1) =>
      if 0 ≤ ret then
        writeRun client rpc blockSize chunkSize uninit rest (cur + w.1)
          (setLength inode1 cur w.1) st1
      else none
    | none => none

/-! ## Instrumentation: recorded calls -/

/-- The arguments of one call `UpdateInodeChunkInfo(list, chunkId, version,
offset, len)` made by `Write`. -/
structure MergeCall where
  chunkId : Nat
  version : Nat
  offset : Nat
  len : Nat
deriving DecidableEq, Repr

/-- The loop of `Write` (`writeLoop`) with a ghost record of its calls of
`UpdateInodeChunkInfo`: the same loop, and `calls` grows by the arguments of
each call. -/
def writeLoopT {σ : Type} (client : S3Client σ) (rpc : Services σ) (blockSize chunkSize : Nat)
    (buf : Nat → Nat) (version : Nat) :
    Nat → σ → Inode → Nat → Nat → Nat → Nat → Nat → Bool → List MergeCall →
      Option ((Int × Inode × σ) × List MergeCall)
  | 0, st, inode, _, _, length, _, totalWriteLen, _, calls =>
    if length = 0 then some ((toInt32 totalWriteLen, { inode with version := version }, st), calls)
    else none
  | fuel + 1, st, inode, index, chunkPos, length, writeOffset, totalWriteLen, append, calls =>
    if length = 0 then some ((toInt32 totalWriteLen, { inode with version := version }, st), calls)
    else
      let n := if add64 chunkPos length > chunkSize then sub64 chunkSize chunkPos else length
      match GetChunkId rpc st chunkSize inode index with
      | (ret, none, st1) => some ((ret, inode, st1), calls)
      | (ret, some chunkId, st1) =>
        if ret < 0 then some ((ret, inode, st1), calls)
        else
          match WriteChunk client st1 blockSize chunkId version chunkPos n buf writeOffset
              append with
          | none => none
          | some (writeLen, st2) =>
            if writeLen ≥ 9223372036854775808 then some ((toInt32 writeLen, inode, st2), calls)
            else
              let chunks := UpdateInodeChunkInfo inode.s3ChunkInfoList chunkId version
                (add64 (index * chunkSize % U64) chunkPos) writeLen
              writeLoopT client rpc blockSize chunkSize buf version fuel st2
                { inode with s3ChunkInfoList := chunks }
                (add64 index 1) (add64 chunkPos n % chunkSize) (sub64 length writeLen)
                (add64 writeOffset writeLen) (add64 totalWriteLen writeLen) false
                (calls ++ [⟨chunkId, version, add64 (index * chunkSize % U64) chunkPos,
                  writeLen⟩])

/-- `Write` with the ghost record of its calls of `UpdateInodeChunkInfo`
(`writeLoopT` in place of `writeLoop`). -/
def WriteT {σ : Type} (client : S3Client σ) (rpc : Services σ) (blockSize chunkSize : Nat)
    (st : σ) (inode : Inode) (offset length : Nat) (buf : Nat → Nat) (uninit : Nat) :
    Option ((Int × Inode × σ) × List MergeCall) :=
  if inode.length = 0 then
    writeLoopT client rpc blockSize chunkSize buf 0 length st inode
      (offset / chunkSize) (offset % chunkSize) length 0 0 false []
  else if IsOverlap inode.s3ChunkInfoList offset length then
    match rpc.UpdateInodeS3Version st inode.inodeid inode.fsid with
    | (.ok version, st1) =>
      writeLoopT client rpc blockSize chunkSize buf version length st1 inode
        (offset / chunkSize) (offset % chunkSize) length 0 0 false []
    | (.error _, st1) =>
      writeLoopT client rpc blockSize chunkSize buf uninit length st1 inode
        (offset / chunkSize) (offset % chunkSize) length 0 0 false []
  else
    match inode.s3ChunkInfoList.getLast? with
    | none => none
    | some last =>
      writeLoopT client rpc blockSize chunkSize buf last.version length st inode
        (offset / chunkSize) (offset % chunkSize) length 0 0
        (IsAppendBlock inode.s3ChunkInfoList blockSize offset) []

/-- The chunk list after the recorded calls of `UpdateInodeChunkInfo` have
been applied to `l` in order. -/
def mergeAll (l : List S3ChunkInfo) (calls : List MergeCall) : List S3ChunkInfo :=
  calls.foldl (fun acc c => UpdateInodeChunkInfo acc c.chunkId c.version c.offset c.len) l

/-- The list `slices` of `(offset, len)` ranges cuts `[offset, offset +
length)` at the multiples of `chunkSize`: the ranges are non-empty and
consecutive from `offset`, each lies in one chunk, each but the last ends at a
multiple of `chunkSize`, and their lengths sum to `length`. -/
def SlicesOf (chunkSize : Nat) : Nat → Nat → List (Nat × Nat) → Prop
  | _, length, [] => length = 0
  | offset, length, s :: rest =>
    s.1 = offset ∧ 0 < s.2 ∧ s.2 ≤ length ∧
      s.1 / chunkSize = (s.1 + s.2 - 1) / chunkSize ∧
      (s.2 < length → (s.1 + s.2) % chunkSize = 0) ∧
      SlicesOf chunkSize (offset + s.2) (length - s.2) rest

/-- A call of a collaborator together with its result: `Upload` and `Append`
with the `int` they return, the chunk-id allocation with the id it answers
(`none` when it fails), the version bump with the version it answers (`none`
when it fails). -/
inductive Call where
  | upload (name : String) (data : List Nat) (ret : Int)
  | append (name : String) (data : List Nat) (ret : Int)
  | alloc (fsid : Nat) (id : Option Nat)
  | bump (inodeid fsid : Nat) (version : Option Nat)
deriving DecidableEq, Repr

/-- The call is an `Upload` or `Append` that returned a negative result. -/
def Call.storeFailed : Call → Bool
  | .upload _ _ ret => decide (ret < 0)
  | .append _ _ ret => decide (ret < 0)
  | _ => false

/-- The call is a chunk-id allocation that failed. -/
def Call.allocFailed : Call → Bool
  | .alloc _ none => true
  | _ => false

/-- The call is an `Upload` or `Append` on an object of chunk `chunkId` at
version `version`. -/
def StoreCallOf (chunkId version : Nat) (op : Call) : Prop :=
  ∃ blockIndex data ret,
    op = .upload (GenerateObjectName chunkId blockIndex version) data ret ∨
    op = .append (GenerateObjectName chunkId blockIndex version) data ret

/-- The call is one the loop of `Write` makes at version `version`: a store
call on an object of that version, or a chunk-id allocation. -/
def LoopCallOf (version : Nat) (op : Call) : Prop :=
  (∃ chunkId, StoreCallOf chunkId version op) ∨ ∃ fsid id, op = .alloc fsid id

/-- Any object store client, with every `Upload` and `Append` recorded, with
its result, in a list carried next to the client's own state. -/
def recClient {σ : Type} (client : S3Client σ) : S3Client (σ × List Call) where
  Upload := fun s name data =>
    ((client.Upload s.1 name data).1,
      ((client.Upload s.1 name data).2, s.2 ++ [.upload name data (client.Upload s.1 name data).1]))
  Append := fun s name data =>
    ((client.Append s.1 name data).1,
      ((client.Append s.1 name data).2, s.2 ++ [.append name data (client.Append s.1 name data).1]))
  Download := fun s name off n => client.Download s.1 name off n

/-- Any services, with every call recorded, with its result, in the same
list. -/
def recServices {σ : Type} (rpc : Services σ) : Services (σ × List Call) where
  AllocateS3Chunk := fun s fsid =>
    ((rpc.AllocateS3Chunk s.1 fsid).1,
      ((rpc.AllocateS3Chunk s.1 fsid).2, s.2 ++ [.alloc fsid (rpc.AllocateS3Chunk s.1 fsid).1]))
  UpdateInodeS3Version := fun s inodeid fsid =>
    ((rpc.UpdateInodeS3Version s.1 inodeid fsid).1,
      ((rpc.UpdateInodeS3Version s.1 inodeid fsid).2,
        s.2 ++ [.bump inodeid fsid
          (match (rpc.UpdateInodeS3Version s.1 inodeid fsid).1 with
            | .ok v => some v
            | .error _ => none)]))

/-- No recorded call of the list is a failed store call or a failed
allocation. -/
def AllOk (ops : List Call) : Prop :=
  ∀ op ∈ ops, op.storeFailed = false ∧ op.allocFailed = false

/-- The last recorded call of the list is a failed store call or a failed
allocation, and no call before it is. -/
def FailsLast (ops : List Call) : Prop :=
  ∃ init last, ops = init ++ [last] ∧ (last.storeFailed = true ∨ last.allocFailed = true) ∧
    AllOk init

/-- An object store client that accepts a given number of `Upload` and
`Append` calls and fails every later one; its state is the number of calls it
will still accept. -/
def budgetClient : S3Client Nat where
  Upload := fun s _ _ => if s = 0 then (-1, 0) else (0, s - 1)
  Append := fun s _ _ => if s = 0 then (-1, 0) else (0, s - 1)
  Download := fun _ _ _ _ => .error (-1)

/-- Services that never fail and leave the state alone: every allocation
answers chunk id 0, every version bump answers version 1. -/
def constServices : Services Nat where
  AllocateS3Chunk := fun s _ => (some 0, s)
  UpdateInodeS3Version := fun s _ _ => (.ok 1, s)

/-- The store request of a recorded call: the operation without its result;
`none` for a call that is not `Upload` or `Append`. -/
def Call.storeOp : Call → Option StoreOp
  | .upload name data _ => some (.upload name data)
  | .append name data _ => some (.append name data)
  | _ => none

/-- Block slicing of a chunk write in the words of the specification: one
store operation for each block index `i` from `pos / B` to
`(pos + length - 1) / B`, in ascending order, on the object
`GenerateObjectName(chunkId, i, version)`; its payload is the bytes written to
the positions of `[pos, pos + length)` that lie in block `i`, taken from `buf`
where `buf[wo]` is the byte for position `pos`; the first operation is an
`Append` when `append` is set, every other one an `Upload`. -/
def blockOps (blockSize chunkId version pos length : Nat) (buf : Nat → Nat) (wo : Nat)
    (append : Bool) : List StoreOp :=
  if length = 0 then []
  else
    (List.range ((pos + length - 1) / blockSize - pos / blockSize + 1)).map fun j =>
      if j = 0 ∧ append = true then
        .append (GenerateObjectName chunkId (pos / blockSize + j) version)
          (bufSlice buf (wo + (max pos ((pos / blockSize + j) * blockSize) - pos))
            (min (pos + length) ((pos / blockSize + j + 1) * blockSize) -
              max pos ((pos / blockSize + j) * blockSize)))
      else
        .upload (GenerateObjectName chunkId (pos / blockSize + j) version)
          (bufSlice buf (wo + (max pos ((pos / blockSize + j) * blockSize) - pos))
            (min (pos + length) ((pos / blockSize + j + 1) * blockSize) -
              max pos ((pos / blockSize + j) * blockSize)))

/-- The plan loop of `Read` (`planLoop`) with two ghost records: `heads`
grows by `(readOffset, length)` at every evaluation of the loop condition
`while (length > 0)`, and `fills` by `(position, n)` at every
`memset(buf + position, 0, n)`. -/
def planLoopT : List S3ChunkInfo → Nat → Nat → Nat → (Nat → Nat) → List S3ReadRequest →
    List (Nat × Nat) → List (Nat × Nat) → ReadPlan × List (Nat × Nat) × List (Nat × Nat)
  | [], _, length, readOffset, buf, requests, heads, fills =>
    if length = 0 then (⟨readOffset, buf, requests⟩, heads ++ [(readOffset, length)], fills)
    else (⟨readOffset, memset buf readOffset length, requests⟩,
      heads ++ [(readOffset, length)], fills ++ [(readOffset, length)])
  | tmp :: rest, offset, length, readOffset, buf, requests, heads, fills =>
    if length = 0 then (⟨readOffset, buf, requests⟩, heads ++ [(readOffset, length)], fills)
    else if add64 offset length ≤ tmp.offset then
      (⟨readOffset, memset buf readOffset length, requests⟩,
        heads ++ [(readOffset, length)], fills ++ [(readOffset, length)])
    else if tmp.offset ≥ offset ∧ tmp.offset < add64 offset length then
      let n := int32AsU64 (sub64 tmp.offset offset)
      let buf1 := memset buf readOffset n
      let offset1 := tmp.offset
      let readOffset1 := add64 readOffset n
      let length1 := sub64 length n
      if add64 offset1 length1 ≤ add64 tmp.offset tmp.len then
        planLoopT rest offset1 0 (add64 readOffset1 length1) buf1
          (requests ++ [⟨{ tmp with offset := offset1, len := length1 }, readOffset1⟩])
          (heads ++ [(readOffset, length)]) (fills ++ [(readOffset, n)])
      else
        planLoopT rest (add64 offset1 tmp.len) (sub64 length1 tmp.len)
          (add64 readOffset1 tmp.len) buf1 (requests ++ [⟨tmp, readOffset1⟩])
          (heads ++ [(readOffset, length)]) (fills ++ [(readOffset, n)])
    else if tmp.offset < offset ∧ add64 tmp.offset tmp.len > offset then
      if add64 offset length ≤ add64 tmp.offset tmp.len then
        planLoopT rest offset 0 (add64 readOffset length) buf
          (requests ++ [⟨{ tmp with offset := offset, len := length }, readOffset⟩])
          (heads ++ [(readOffset, length)]) fills
      else
        planLoopT rest (add64 tmp.offset tmp.len)
          (sub64 length (sub64 (add64 tmp.offset tmp.len) offset))
          (add64 readOffset (sub64 (add64 tmp.offset tmp.len) offset)) buf
          (requests ++ [⟨{ tmp with offset := offset,
                                    len := sub64 (add64 tmp.offset tmp.len) offset },
                         readOffset⟩])
          (heads ++ [(readOffset, length)]) fills
    else
      planLoopT rest offset length readOffset buf requests (heads ++ [(readOffset, length)])
        fills

/-- The calls recorded while `Write` writes one chunk slice completely: the
chunk-id allocation of `GetChunkId` when it makes one, answering the chunk id
of the slice, and then the block operations of the slice (`blockOps`), each
returning a non-negative result. `c` holds the arguments of the call of
`UpdateInodeChunkInfo` made for the slice; the write starts at offset `pos0`,
where the caller's bytes are taken from `buf[wo0]` on, and `a0` tells whether
its first block operation is an `Append`. -/
def SliceCalls (blockSize chunkSize : Nat) (buf : Nat → Nat) (fsid wo0 pos0 : Nat) (a0 : Bool)
    (c : MergeCall) (seg : List Call) : Prop :=
  ∃ al st, seg = al ++ st ∧ (al = [] ∨ al = [Call.alloc fsid (some c.chunkId)]) ∧
    (∀ op ∈ st, op.storeFailed = false) ∧
    st.map Call.storeOp =
      (blockOps blockSize c.chunkId c.version (c.offset % chunkSize) c.len buf
        (wo0 + (c.offset - pos0)) (a0 && decide (c.offset = pos0))).map some

/-- State of the chunk list `l` and the in-memory store after writes at version
0 that do not overlap: `wr x` says that offset `x` has been written, `val x`
is the byte written there. The entries cover exactly the written offsets; in
every block the written offsets are an initial part of the block; the object
of a block holds the written bytes of the block and nothing else. -/
structure RtInv (blockSize chunkSize : Nat) (wr : Nat → Prop) (val : Nat → Nat)
    (l : List S3ChunkInfo) (w : MemWorld) : Prop where
  ver : ∀ e ∈ l, e.version = 0
  shape : ∀ e ∈ l, EntryShape chunkSize e
  ids : ∀ e ∈ l, ∀ f ∈ l,
    (e.chunkid = f.chunkid ↔ e.offset / chunkSize = f.offset / chunkSize)
  issued : ∀ e ∈ l, e.chunkid < w.nextChunk
  sound : ∀ e ∈ l, ∀ x, e.Covers x → wr x
  cover : ∀ x, wr x → ∃ e ∈ l, e.Covers x
  pre : ∀ x y, wr x → y ≤ x → y / blockSize = x / blockSize → wr y
  bytes : ∀ e ∈ l, ∀ x, wr x → x / chunkSize = e.offset / chunkSize →
    objByte w.store blockSize chunkSize e.chunkid 0 x = some (val x)
  tight : ∀ e ∈ l, ∀ x y, x / chunkSize = e.offset / chunkSize →
    y / blockSize = x / blockSize → wr y → ¬ wr x →
    objByte w.store blockSize chunkSize e.chunkid 0 x = none

theorem add64_eq {a b : Nat} (h : a + b < U64) : add64 a b = a + b := by
  unfold add64; exact Nat.mod_eq_of_lt h

theorem sub64_eq {a b : Nat} (h : b ≤ a) (ha : a < U64) : sub64 a b = a - b := by
  unfold sub64 U64 at *; omega

/-! ### The scan of `UpdateInodeChunkInfo` -/

theorem mergeScan_spec (key : Nat → Nat) (chunkId version index : Nat) :
    ∀ (l : List S3ChunkInfo) (offset len : Nat) (merge : Bool),
      0 < len → offset + len < U64 → key offset = index →
      key (offset + len - 1) = index →
      (∀ e ∈ l, 0 < e.len ∧ e.offset + e.len < U64 ∧
        key e.offset = key (e.offset + e.len - 1)) →
      (∀ e ∈ l, e.chunkid = chunkId → key e.offset = index) →
      List.Forall₂ Grown l (mergeScan chunkId version l offset len merge).1 ∧
      (∀ e ∈ (mergeScan chunkId version l offset len merge).1,
        0 < e.len ∧ e.offset + e.len < U64 ∧
        key e.offset = key (e.offset + e.len - 1)) ∧
      ((mergeScan chunkId version l offset len merge).2.2.2 = false →
        merge = false ∧ (mergeScan chunkId version l offset len merge).1 = l ∧
        (mergeScan chunkId version l offset len merge).2.1 = offset ∧
        (mergeScan chunkId version l offset len merge).2.2.1 = len) ∧
      ((mergeScan chunkId version l offset len merge).2.2.2 = true →
        merge = true ∨ ∃ e ∈ (mergeScan chunkId version l offset len merge).1,
          e.chunkid = chunkId ∧ e.version = version ∧ e.offset ≤ offset ∧
          offset + len ≤ e.offset + e.len) := by
  intro l
  induction l with
  | nil =>
    intro offset len merge _ _ _ _ _ _
    simp [mergeScan]
  | cons tmp rest ih =>
    intro offset len merge h1 h2 h3 h4 hl hid
    have htmp := hl tmp (List.mem_cons_self _ _)
    have hrest : ∀ e ∈ rest, 0 < e.len ∧ e.offset + e.len < U64 ∧
        key e.offset = key (e.offset + e.len - 1) :=
      fun e he => hl e (List.mem_cons_of_mem _ he)
    have hidr : ∀ e ∈ rest, e.chunkid = chunkId → key e.offset = index :=
      fun e he => hid e (List.mem_cons_of_mem _ he)
    have hG : Grown tmp tmp := ⟨rfl, rfl, rfl, le_refl _⟩
    unfold mergeScan
    split_ifs with c1 c2
    · obtain ⟨a, b, c, d⟩ := ih offset len merge h1 h2 h3 h4 hrest hidr
      refine ⟨List.Forall₂.cons hG a, ?_, ?_, ?_⟩
      · intro e he
        rcases List.mem_cons.1 he with h | h
        · subst h; exact htmp
        · exact b e h
      · intro hf
        obtain ⟨m1, m2, m3, m4⟩ := c hf
        exact ⟨m1, by simp only [m2], m3, m4⟩
      · intro ht
        rcases d ht with h | ⟨e, he, hc⟩
        · exact Or.inl h
        · exact Or.inr ⟨e, List.mem_cons_of_mem _ he, hc⟩
    · obtain ⟨cv, co⟩ := c2
      have hcid : tmp.chunkid = chunkId := by
        by_contra hne; exact c1 (fun h => hne h.symm)
      have hto : key tmp.offset = index := hid tmp (List.mem_cons_self _ _) hcid
      have hoff : offset = tmp.offset + tmp.len := by
        rw [co]; unfold add64; exact Nat.mod_eq_of_lt htmp.2.1
      have hlen : add64 len tmp.len = len + tmp.len := by
        unfold add64; apply Nat.mod_eq_of_lt; omega
      have hend : tmp.offset + (len + tmp.len) - 1 = offset + len - 1 := by omega
      obtain ⟨a, b, c, d⟩ := ih tmp.offset (add64 len tmp.len) true
        (by rw [hlen]; omega) (by rw [hlen]; omega) hto
        (by rw [hlen, hend]; exact h4) hrest hidr
      refine ⟨List.Forall₂.cons ⟨rfl, rfl, rfl, ?_⟩ a, ?_, ?_, ?_⟩
      · simp only [hlen]; omega
      · intro e he
        rcases List.mem_cons.1 he with h | h
        · subst h
          simp only [hlen]
          refine ⟨by omega, by omega, ?_⟩
          rw [hend, h4]; exact hto
        · exact b e h
      · intro hf
        have := (c hf).1
        exact absurd this (by simp)
      · intro _
        refine Or.inr ⟨_, List.mem_cons_self _ _, hcid, cv.symm, ?_, ?_⟩
        · simp only; omega
        · simp only [hlen]; omega
    · obtain ⟨a, b, c, d⟩ := ih offset len merge h1 h2 h3 h4 hrest hidr
      refine ⟨List.Forall₂.cons hG a, ?_, ?_, ?_⟩
      · intro e he
        rcases List.mem_cons.1 he with h | h
        · subst h; exact htmp
        · exact b e h
      · intro hf
        obtain ⟨m1, m2, m3, m4⟩ := c hf
        exact ⟨m1, by simp only [m2], m3, m4⟩
      · intro ht
        rcases d ht with h | ⟨e, he, hc⟩
        · exact Or.inl h
        · exact Or.inr ⟨e, List.mem_cons_of_mem _ he, hc⟩

theorem getLast_of_mem {α : Type} {l : List α} {a : α} (h : a ∈ l) :
    ∃ e, l.getLast? = some e := by
  cases hl : l.getLast? with
  | none =>
    rw [List.getLast?_eq_none_iff] at hl
    rw [hl] at h
    cases h
  | some e => exact ⟨e, rfl⟩

theorem forall2_mem_right {α β : Type} {R : α → β → Prop} {l : List α} {m : List β}
    (h : List.Forall₂ R l m) : ∀ b ∈ m, ∃ a ∈ l, R a b := by
  induction h with
  | nil => intro b hb; cases hb
  | cons hab _ ih =>
    intro b hb
    rcases List.mem_cons.1 hb with h | h
    · subst h; exact ⟨_, List.mem_cons_self _ _, hab⟩
    · obtain ⟨a, ha, hr⟩ := ih b h
      exact ⟨a, List.mem_cons_of_mem _ ha, hr⟩

theorem forall2_mem_left {α β : Type} {R : α → β → Prop} {l : List α} {m : List β}
    (h : List.Forall₂ R l m) : ∀ a ∈ l, ∃ b ∈ m, R a b := by
  induction h with
  | nil => intro a ha; cases ha
  | cons hab _ ih =>
    intro a ha
    rcases List.mem_cons.1 ha with h | h
    · subst h; exact ⟨_, List.mem_cons_self _ _, hab⟩
    · obtain ⟨b, hb, hr⟩ := ih a h
      exact ⟨b, List.mem_cons_of_mem _ hb, hr⟩

theorem forall2_getLast {α β : Type} {R : α → β → Prop} {l : List α} {m : List β}
    (h : List.Forall₂ R l m) : ∀ a, l.getLast? = some a → ∃ b, m.getLast? = some b ∧ R a b := by
  induction h with
  | nil => intro a ha; simp at ha
  | @cons x y xs ys hab hrest ih =>
    intro a ha
    cases hrest with
    | nil =>
      simp only [List.getLast?_singleton, Option.some.injEq] at ha
      subst ha
      exact ⟨y, by simp, hab⟩
    | @cons x2 y2 xs2 ys2 h2 hr2 =>
      rw [List.getLast?_cons_cons] at ha
      obtain ⟨b, hb, hr⟩ := ih a ha
      exact ⟨b, by rw [List.getLast?_cons_cons]; exact hb, hr⟩

/-! ### `UpdateInodeChunkInfo` keeps the chunk-list invariants -/

theorem UpdateInodeChunkInfo_inv (key : Nat → Nat) (chunkId version offset len : Nat)
    (l : List S3ChunkInfo) (h1 : 0 < len) (h2 : offset + len < U64)
    (h3 : key offset = key (offset + len - 1))
    (hl : ChunkListInv key l)
    (hid : ∀ e ∈ l, e.chunkid = chunkId → key e.offset = key offset) :
    ChunkListInv key (UpdateInodeChunkInfo l chunkId version offset len) ∧
    (∀ e ∈ UpdateInodeChunkInfo l chunkId version offset len,
      (e.chunkid = chunkId ∧ e.version = version) ∨ ∃ f ∈ l, Grown f e) ∧
    (∀ x, (∃ e ∈ l, e.Covers x) →
      ∃ e ∈ UpdateInodeChunkInfo l chunkId version offset len, e.Covers x) ∧
    (∀ x, offset ≤ x → x < offset + len →
      ∃ e ∈ UpdateInodeChunkInfo l chunkId version offset len, e.Covers x) ∧
    (((∀ e ∈ l, e.version ≠ version) ∨ ∃ e, l.getLast? = some e ∧ e.version = version) →
      ∃ e, (UpdateInodeChunkInfo l chunkId version offset len).getLast? = some e ∧
        e.version = version) := by
  obtain ⟨a, b, c, d⟩ := mergeScan_spec key chunkId version (key offset) l
    offset len false h1 h2 rfl h3.symm hl.shape hid
  have hcov : ∀ x, (∃ e ∈ l, e.Covers x) →
      ∃ e ∈ (mergeScan chunkId version l offset len false).1, e.Covers x := by
    rintro x ⟨e, he, hx⟩
    obtain ⟨f, hf, hg⟩ := forall2_mem_left a e he
    refine ⟨f, hf, ?_⟩
    unfold S3ChunkInfo.Covers at *
    obtain ⟨_, _, g3, g4⟩ := hg
    omega
  have hids : ∀ e ∈ (mergeScan chunkId version l offset len false).1,
      ∀ f ∈ (mergeScan chunkId version l offset len false).1,
      e.chunkid = f.chunkid → key e.offset = key f.offset := by
    intro e he f hf hef
    obtain ⟨e0, he0, ge⟩ := forall2_mem_right a e he
    obtain ⟨f0, hf0, gf⟩ := forall2_mem_right a f hf
    rw [ge.2.2.1, gf.2.2.1]
    exact hl.ids e0 he0 f0 hf0 (by rw [← ge.1, ← gf.1]; exact hef)
  unfold UpdateInodeChunkInfo
  simp only
  cases hm : (mergeScan chunkId version l offset len false).2.2.2 with
  | true =>
    simp only [if_true]
    refine ⟨⟨b, hids⟩, ?_, hcov, ?_, ?_⟩
    · intro e he
      exact Or.inr (forall2_mem_right a e he)
    · intro x hx1 hx2
      rcases d hm with h | ⟨e, he, _, _, h5, h6⟩
      · cases h
      · exact ⟨e, he, by unfold S3ChunkInfo.Covers; omega⟩
    · rintro (hno | ⟨e, he, hv⟩)
      · rcases d hm with h | ⟨e, he, _, hv, _, _⟩
        · cases h
        · obtain ⟨e0, he0, g⟩ := forall2_mem_right a e he
          exact absurd (g.2.1.symm.trans hv) (hno e0 he0)
      · obtain ⟨f, hf, g⟩ := forall2_getLast a e he
        exact ⟨f, hf, g.2.1.trans hv⟩
  | false =>
    obtain ⟨_, c2, c3, c4⟩ := c hm
    simp only [Bool.false_eq_true, if_false, c2, c3, c4]
    rw [c2] at hids
    refine ⟨⟨?_, ?_⟩, ?_, ?_, ?_, ?_⟩
    · intro e he
      rcases List.mem_append.1 he with h | h
      · exact hl.shape e h
      · simp only [List.mem_singleton] at h
        subst h
        exact ⟨h1, h2, h3⟩
    · intro e he f hf hef
      rcases List.mem_append.1 he with h | h <;> rcases List.mem_append.1 hf with k | k
      · exact hl.ids e h f k hef
      · simp only [List.mem_singleton] at k
        subst k
        exact hid e h hef
      · simp only [List.mem_singleton] at h
        subst h
        exact (hid f k hef.symm).symm
      · simp only [List.mem_singleton] at h k
        subst h; subst k; rfl
    · intro e he
      rcases List.mem_append.1 he with h | h
      · exact Or.inr ⟨e, h, rfl, rfl, rfl, le_refl _⟩
      · simp only [List.mem_singleton] at h
        subst h
        exact Or.inl ⟨rfl, rfl⟩
    · rintro x ⟨e, he, hx⟩
      exact ⟨e, List.mem_append_left _ he, hx⟩
    · intro x hx1 hx2
      exact ⟨_, List.mem_append_right _ (List.mem_singleton_self _), ⟨hx1, hx2⟩⟩
    · intro _
      exact ⟨⟨chunkId, version, offset, len, len⟩, by simp, rfl⟩

/-! ### `WriteChunk` -/

theorem writeChunkLoop_ret {σ : Type} (client : S3Client σ) (rpc : Services σ)
    (issued : σ → Nat → Prop) (hfa : IssuedMono client rpc issued)
    (blockSize chunkId version : Nat) (buf : Nat → Nat) (hB : 0 < blockSize) :
    ∀ (fuel : Nat) (st : σ) (blockIndex blockPos length writeOffset : Nat) (append : Bool)
      (w : Nat) (st1 : σ),
      (length ≠ 0 → blockPos < blockSize ∧ blockPos + length < U64) →
      writeOffset + length < U64 →
      writeChunkLoop client blockSize chunkId version buf fuel st blockIndex blockPos length
        writeOffset append = some (w, st1) →
      (w = U64 - 1 ∨ w = writeOffset + length) ∧ ∀ j, issued st j → issued st1 j := by
  intro fuel
  induction fuel with
  | zero =>
    intro st blockIndex blockPos length writeOffset append w st1 _ _ h
    unfold writeChunkLoop at h
    split_ifs at h with h0
    simp only [Option.some.injEq, Prod.mk.injEq] at h
    obtain ⟨rfl, rfl⟩ := h
    subst h0
    exact ⟨Or.inr rfl, fun _ hj => hj⟩
  | succ fuel ih =>
    intro st blockIndex blockPos length writeOffset append w st1 hpos hwo h
    unfold writeChunkLoop at h
    by_cases h0 : length = 0
    · simp only [h0, if_true, Option.some.injEq, Prod.mk.injEq] at h
      obtain ⟨rfl, rfl⟩ := h
      subst h0
      exact ⟨Or.inr rfl, fun _ hj => hj⟩
    · simp only [h0, if_false] at h
      obtain ⟨hbp, hsum⟩ := hpos h0
      have hn : (if add64 blockPos length > blockSize then sub64 blockSize blockPos else length)
          ≤ length ∧
          (length - (if add64 blockPos length > blockSize then sub64 blockSize blockPos
            else length) ≠ 0 →
            blockPos + (if add64 blockPos length > blockSize then sub64 blockSize blockPos
              else length) = blockSize) := by
        rw [add64_eq hsum]
        split_ifs with hc
        · rw [sub64_eq (le_of_lt hbp) (by omega)]
          omega
        · omega
      generalize (if add64 blockPos length > blockSize then sub64 blockSize blockPos
        else length) = n at h hn
      have hmono : ∀ j, issued st j → issued
          (if append = true then
            client.Append st (GenerateObjectName chunkId blockIndex version)
              (bufSlice buf writeOffset n)
          else
            client.Upload st (GenerateObjectName chunkId blockIndex version)
              (bufSlice buf writeOffset n)).2 j := by
        intro j hj
        cases append
        · exact hfa.upload_mono _ _ _ _ hj
        · exact hfa.append_mono _ _ _ _ hj
      generalize (if append = true then
            client.Append st (GenerateObjectName chunkId blockIndex version)
              (bufSlice buf writeOffset n)
          else
            client.Upload st (GenerateObjectName chunkId blockIndex version)
              (bufSlice buf writeOffset n)) = r at h hmono
      by_cases hneg : r.1 < 0
      · simp only [hneg, if_true, Option.some.injEq, Prod.mk.injEq] at h
        obtain ⟨rfl, rfl⟩ := h
        exact ⟨Or.inl rfl, hmono⟩
      · simp only [hneg, if_false] at h
        obtain ⟨hn1, hn2⟩ := hn
        have hlen : sub64 length n = length - n := sub64_eq hn1 (by omega)
        have hwo2 : add64 writeOffset n = writeOffset + n := add64_eq (by omega)
        have hbn : add64 blockPos n = blockPos + n := add64_eq (by omega)
        rw [hlen, hwo2, hbn] at h
        obtain ⟨r1, r2⟩ := ih _ _ _ _ _ _ _ _ (by
          intro hne
          have := hn2 hne
          rw [this, Nat.mod_self]
          exact ⟨hB, by omega⟩) (by omega) h
        refine ⟨?_, fun j hj => r2 j (hmono j hj)⟩
        rcases r1 with r1 | r1
        · exact Or.inl r1
        · exact Or.inr (by omega)

theorem WriteChunk_ret {σ : Type} (client : S3Client σ) (rpc : Services σ)
    (issued : σ → Nat → Prop) (hfa : IssuedMono client rpc issued)
    (blockSize chunkId version pos length : Nat) (buf : Nat → Nat) (bufPos : Nat)
    (append : Bool) (st : σ) (w : Nat) (st1 : σ) (hB : 0 < blockSize)
    (hpos : pos + length < U64)
    (h : WriteChunk client st blockSize chunkId version pos length buf bufPos append =
      some (w, st1)) :
    (w = U64 - 1 ∨ w = length) ∧ ∀ j, issued st j → issued st1 j := by
  unfold WriteChunk at h
  have := writeChunkLoop_ret client rpc issued hfa blockSize chunkId version _ hB _ _ _ _ _ _ _
    _ _ (fun _ => ⟨Nat.mod_lt _ hB, by have := Nat.mod_le pos blockSize; omega⟩)
    (by omega) h
  simpa using this

/-! ### `GetChunkId` -/

theorem range_of_div (c index x : Nat) (hc : 0 < c) (h : x / c = index) :
    index * c ≤ x ∧ x < index * c + c := by
  subst h
  have h1 := Nat.div_add_mod' x c
  have h2 := Nat.mod_lt x hc
  omega

theorem GetChunkId_spec {σ : Type} (client : S3Client σ) (rpc : Services σ)
    (issued : σ → Nat → Prop) (hfa : IssuedMono client rpc issued) (chunkSize : Nat)
    (key : Nat → Nat) (hC : 0 < chunkSize) (hkey : KeyOfChunk chunkSize key)
    (hfresh : KeyTrivialOrFresh rpc issued key)
    (st : σ) (inode : Inode) (index : Nat) (ret : Int) (cid : Option Nat) (st1 : σ)
    (hl : ChunkListInv key inode.s3ChunkInfoList)
    (hiss : ∀ e ∈ inode.s3ChunkInfoList, issued st e.chunkid)
    (h : GetChunkId rpc st chunkSize inode index = (ret, cid, st1)) :
    (∀ j, issued st j → issued st1 j) ∧ (cid = none → ret = -1) ∧
    (∀ k, cid = some k → ret = 0 ∧ issued st1 k ∧
      ∀ e ∈ inode.s3ChunkInfoList, e.chunkid = k → key e.offset = key (index * chunkSize)) := by
  have halloc : ∀ r : Option Nat × σ, rpc.AllocateS3Chunk st inode.fsid = r →
      (match r with
        | (none, st2) => ((-1 : Int), (none : Option Nat), st2)
        | (some chunkId, st2) => (0, some chunkId, st2)) = (ret, cid, st1) →
      (∀ j, issued st j → issued st1 j) ∧ (cid = none → ret = -1) ∧
      (∀ k, cid = some k → ret = 0 ∧ issued st1 k ∧
        ∀ e ∈ inode.s3ChunkInfoList, e.chunkid = k →
          key e.offset = key (index * chunkSize)) := by
    rintro ⟨r, st2⟩ hr hm
    cases r with
    | none =>
      simp only [Prod.mk.injEq] at hm
      obtain ⟨rfl, rfl, rfl⟩ := hm
      exact ⟨fun j hj => hfa.alloc_mono _ _ _ _ j hr hj, fun _ => rfl, fun k hk => by cases hk⟩
    | some c =>
      simp only [Prod.mk.injEq] at hm
      obtain ⟨rfl, rfl, rfl⟩ := hm
      refine ⟨fun j hj => hfa.alloc_mono _ _ _ _ j hr hj, (fun hk => by cases hk), ?_⟩
      intro k hk
      cases hk
      refine ⟨rfl, hfa.alloc_issued _ _ _ _ hr, ?_⟩
      intro e he hek
      rcases hfresh with ht | hf
      · exact ht _ _
      · exact absurd (hek ▸ hiss e he) (hf _ _ _ _ hr)
  unfold GetChunkId at h
  by_cases h0 : inode.length = 0
  · simp only [h0, if_true] at h
    exact halloc _ rfl h
  · simp only [h0, if_false] at h
    cases hf : inode.s3ChunkInfoList.find? (fun tmp => tmp.offset / chunkSize == index) with
    | none =>
      simp only [hf] at h
      exact halloc _ rfl h
    | some tmp =>
      simp only [hf, Prod.mk.injEq] at h
      obtain ⟨rfl, rfl, rfl⟩ := h
      have hmem := List.mem_of_find?_eq_some hf
      have hp := List.find?_some hf
      simp only [beq_iff_eq] at hp
      refine ⟨fun _ hj => hj, (fun hk => by cases hk), ?_⟩
      intro k hk
      cases hk
      refine ⟨rfl, hiss tmp hmem, ?_⟩
      intro e he hek
      rw [hl.ids e he tmp hmem hek]
      obtain ⟨r1, r2⟩ := range_of_div chunkSize index tmp.offset hC hp
      exact hkey index tmp.offset r1 r2

theorem div_eq_of_range (c index x : Nat) (h1 : index * c ≤ x) (h2 : x < index * c + c) :
    x / c = index := by
  apply Nat.div_eq_of_lt_le h1
  rw [Nat.succ_mul]
  exact h2

theorem toInt32_minus_one : toInt32 (U64 - 1) = -1 := by
  decide

/-! ### The chunk loop of `Write` -/

theorem writeLoop_inv {σ : Type} (client : S3Client σ) (rpc : Services σ)
    (issued : σ → Nat → Prop) (hfa : IssuedMono client rpc issued)
    (blockSize chunkSize : Nat) (key : Nat → Nat) (buf : Nat → Nat) (version : Nat)
    (hB : 0 < blockSize) (hC : 0 < chunkSize) (hkey : KeyOfChunk chunkSize key)
    (hfresh : KeyTrivialOrFresh rpc issued key) :
    ∀ (fuel : Nat) (st : σ) (inode : Inode) (index chunkPos length writeOffset total : Nat)
      (append : Bool) (ret : Int) (inode1 : Inode) (st1 : σ),
      (length ≠ 0 → chunkPos < chunkSize ∧ index * chunkSize + chunkPos + length < U64 ∧
        length < 9223372036854775808) →
      total + length < U64 →
      ChunkListInv key inode.s3ChunkInfoList →
      (∀ e ∈ inode.s3ChunkInfoList, issued st e.chunkid) →
      writeLoop client rpc blockSize chunkSize buf version fuel st inode index chunkPos length
        writeOffset total append = some (ret, inode1, st1) →
      ChunkListInv key inode1.s3ChunkInfoList ∧
      (∀ e ∈ inode1.s3ChunkInfoList, issued st1 e.chunkid) ∧
      (∀ e ∈ inode1.s3ChunkInfoList,
        e.version = version ∨ ∃ f ∈ inode.s3ChunkInfoList, f.version = e.version) ∧
      (∀ x, (∃ e ∈ inode.s3ChunkInfoList, e.Covers x) →
        ∃ e ∈ inode1.s3ChunkInfoList, e.Covers x) ∧
      inode1.length = inode.length ∧ inode1.fsid = inode.fsid ∧
      inode1.inodeid = inode.inodeid ∧
      ((ret = -1 ∧ inode1.version = inode.version) ∨
       (ret = toInt32 (total + length) ∧ inode1.version = version ∧
        (∀ x, index * chunkSize + chunkPos ≤ x → x < index * chunkSize + chunkPos + length →
          ∃ e ∈ inode1.s3ChunkInfoList, e.Covers x) ∧
        (((length ≠ 0 ∧ ∀ e ∈ inode.s3ChunkInfoList, e.version ≠ version) ∨
            ∃ e, inode.s3ChunkInfoList.getLast? = some e ∧ e.version = version) →
          ∃ e, inode1.s3ChunkInfoList.getLast? = some e ∧ e.version = version))) := by
  have hexit : ∀ (st : σ) (inode : Inode) (lo total : Nat) (ret : Int)
      (inode1 : Inode) (st1 : σ),
      some (toInt32 total, { inode with version := version }, st) = some (ret, inode1, st1) →
      ChunkListInv key inode.s3ChunkInfoList →
      (∀ e ∈ inode.s3ChunkInfoList, issued st e.chunkid) →
      ChunkListInv key inode1.s3ChunkInfoList ∧
      (∀ e ∈ inode1.s3ChunkInfoList, issued st1 e.chunkid) ∧
      (∀ e ∈ inode1.s3ChunkInfoList,
        e.version = version ∨ ∃ f ∈ inode.s3ChunkInfoList, f.version = e.version) ∧
      (∀ x, (∃ e ∈ inode.s3ChunkInfoList, e.Covers x) →
        ∃ e ∈ inode1.s3ChunkInfoList, e.Covers x) ∧
      inode1.length = inode.length ∧ inode1.fsid = inode.fsid ∧
      inode1.inodeid = inode.inodeid ∧
      ((ret = -1 ∧ inode1.version = inode.version) ∨
       (ret = toInt32 (total + 0) ∧ inode1.version = version ∧
        (∀ x, lo ≤ x → x < lo + 0 →
          ∃ e ∈ inode1.s3ChunkInfoList, e.Covers x) ∧
        ((((0 : Nat) ≠ 0 ∧ ∀ e ∈ inode.s3ChunkInfoList, e.version ≠ version) ∨
            ∃ e, inode.s3ChunkInfoList.getLast? = some e ∧ e.version = version) →
          ∃ e, inode1.s3ChunkInfoList.getLast? = some e ∧ e.version = version))) := by
    intro st inode lo total ret inode1 st1 h hl hiss
    simp only [Option.some.injEq, Prod.mk.injEq] at h
    obtain ⟨rfl, rfl, rfl⟩ := h
    refine ⟨hl, hiss, fun e he => Or.inr ⟨e, he, rfl⟩, fun x hx => hx, rfl, rfl, rfl,
      Or.inr ⟨rfl, rfl, ?_, ?_⟩⟩
    · intro x h1 h2; omega
    · rintro (⟨h, _⟩ | h)
      · exact absurd rfl h
      · exact h
  have herr : ∀ (st : σ) (inode : Inode) (lo length total : Nat),
      ChunkListInv key inode.s3ChunkInfoList →
      (∀ e ∈ inode.s3ChunkInfoList, issued st e.chunkid) →
      ChunkListInv key inode.s3ChunkInfoList ∧
      (∀ e ∈ inode.s3ChunkInfoList, issued st e.chunkid) ∧
      (∀ e ∈ inode.s3ChunkInfoList,
        e.version = version ∨ ∃ f ∈ inode.s3ChunkInfoList, f.version = e.version) ∧
      (∀ x, (∃ e ∈ inode.s3ChunkInfoList, e.Covers x) →
        ∃ e ∈ inode.s3ChunkInfoList, e.Covers x) ∧
      inode.length = inode.length ∧ inode.fsid = inode.fsid ∧
      inode.inodeid = inode.inodeid ∧
      ((((-1 : Int)) = -1 ∧ inode.version = inode.version) ∨
       ((-1 : Int) = toInt32 (total + length) ∧ inode.version = version ∧
        (∀ x, lo ≤ x → x < lo + length →
          ∃ e ∈ inode.s3ChunkInfoList, e.Covers x) ∧
        (((length ≠ 0 ∧ ∀ e ∈ inode.s3ChunkInfoList, e.version ≠ version) ∨
            ∃ e, inode.s3ChunkInfoList.getLast? = some e ∧ e.version = version) →
          ∃ e, inode.s3ChunkInfoList.getLast? = some e ∧ e.version = version))) := by
    intro st inode lo length total hl hiss
    exact ⟨hl, hiss, fun e he => Or.inr ⟨e, he, rfl⟩, fun x hx => hx, rfl, rfl, rfl,
      Or.inl ⟨rfl, rfl⟩⟩
  intro fuel
  induction fuel with
  | zero =>
    intro st inode index chunkPos length writeOffset total append ret inode1 st1 _ _ hl hiss h
    unfold writeLoop at h
    by_cases h0 : length = 0
    · subst h0
      simp only [if_true] at h
      exact hexit st inode (index * chunkSize + chunkPos) total ret inode1 st1 h hl hiss
    · simp [h0] at h
  | succ fuel ih =>
    intro st inode index chunkPos length writeOffset total append ret inode1 st1 hpre htot hl
      hiss h
    unfold writeLoop at h
    by_cases h0 : length = 0
    · subst h0
      simp only [if_true] at h
      exact hexit st inode (index * chunkSize + chunkPos) total ret inode1 st1 h hl hiss
    · simp only [h0, if_false] at h
      obtain ⟨hcp, hsum, hlt⟩ := hpre h0
      have hmul : index * chunkSize + chunkPos + length < U64 := hsum
      generalize hbase : index * chunkSize = base at hmul hsum
      have hn : 0 < (if add64 chunkPos length > chunkSize then sub64 chunkSize chunkPos
            else length) ∧
          (if add64 chunkPos length > chunkSize then sub64 chunkSize chunkPos else length)
            ≤ length ∧
          chunkPos + (if add64 chunkPos length > chunkSize then sub64 chunkSize chunkPos
            else length) ≤ chunkSize ∧
          (length - (if add64 chunkPos length > chunkSize then sub64 chunkSize chunkPos
            else length) ≠ 0 →
            chunkPos + (if add64 chunkPos length > chunkSize then sub64 chunkSize chunkPos
              else length) = chunkSize) := by
        rw [add64_eq (by omega)]
        split_ifs with hc
        · rw [sub64_eq (le_of_lt hcp) (by omega)]
          omega
        · omega
      generalize (if add64 chunkPos length > chunkSize then sub64 chunkSize chunkPos
        else length) = n at h hn
      obtain ⟨hn0, hn1, hn2, hn3⟩ := hn
      rcases hg : GetChunkId rpc st chunkSize inode index with ⟨r, cid, stg⟩
      obtain ⟨g1, g2, g3⟩ := GetChunkId_spec client rpc issued hfa chunkSize key hC hkey hfresh st inode
        index r cid stg hl hiss hg
      rw [hg] at h
      cases cid with
      | none =>
        simp only [Option.some.injEq, Prod.mk.injEq] at h
        obtain ⟨rfl, rfl, rfl⟩ := h
        rw [g2 rfl]
        exact herr stg inode (base + chunkPos) length total hl (fun e he => g1 _ (hiss e he))
      | some chunkId =>
        obtain ⟨rfl, g4, g5⟩ := g3 chunkId rfl
        simp only [lt_self_iff_false, if_false] at h
        cases hw : WriteChunk client stg blockSize chunkId version chunkPos n buf writeOffset
            append with
        | none => simp [hw] at h
        | some p =>
          obtain ⟨writeLen, st2⟩ := p
          simp only [hw] at h
          obtain ⟨w1, w2⟩ := WriteChunk_ret client rpc issued hfa blockSize chunkId version
            chunkPos n buf writeOffset append stg writeLen st2 hB (by omega) hw
          by_cases hbig : writeLen ≥ 9223372036854775808
          · simp only [hbig, if_true, Option.some.injEq, Prod.mk.injEq] at h
            obtain ⟨rfl, rfl, rfl⟩ := h
            have hwl : writeLen = U64 - 1 := by
              rcases w1 with w1 | w1
              · exact w1
              · omega
            rw [hwl, toInt32_minus_one]
            exact herr st2 inode (base + chunkPos) length total hl
              (fun e he => w2 _ (g1 _ (hiss e he)))
          · simp only [hbig, if_false] at h
            have hwl : writeLen = n := by
              rcases w1 with w1 | w1
              · unfold U64 at w1; omega
              · exact w1
            subst hwl
            have hoff : add64 (index * chunkSize % U64) chunkPos = base + chunkPos := by
              rw [hbase, Nat.mod_eq_of_lt (by omega), add64_eq (by omega)]
            rw [hoff] at h
            have hd1 : key (base + chunkPos) = key base := by
              have := hkey index (base + chunkPos) (by omega) (by omega)
              rw [hbase] at this; exact this
            have hd2 : key (base + chunkPos + writeLen - 1) = key base := by
              have := hkey index (base + chunkPos + writeLen - 1) (by omega) (by omega)
              rw [hbase] at this; exact this
            obtain ⟨u1, u2, u3, u4, u5⟩ := UpdateInodeChunkInfo_inv key chunkId version
              (base + chunkPos) writeLen inode.s3ChunkInfoList hn0 (by omega)
              (by rw [hd1, hd2]) hl
              (by intro e he hc; rw [hd1, ← hbase]; exact g5 e he hc)
            have hidx : index ≤ base := by
              rw [← hbase]; exact Nat.le_mul_of_pos_right _ hC
            have hi1 : add64 index 1 = index + 1 := add64_eq (by omega)
            have hnext : (index + 1) * chunkSize = base + chunkSize := by
              rw [Nat.add_mul, hbase, Nat.one_mul]
            rw [hi1, sub64_eq hn1 (by omega), add64_eq (show chunkPos + writeLen < U64 by omega),
              add64_eq (show total + writeLen < U64 by omega)] at h
            obtain ⟨i1, i2, i3, i4, i5, i6, i7, i8⟩ := ih st2 _
              (index + 1) ((chunkPos + writeLen) % chunkSize) (length - writeLen)
              (add64 writeOffset writeLen) (total + writeLen) false ret inode1 st1
              (by
                intro hne
                have := hn3 hne
                rw [this, Nat.mod_self]
                refine ⟨hC, ?_, by omega⟩
                rw [hnext]; omega)
              (by omega) u1
              (by
                intro e he
                rcases u2 e he with ⟨hc, _⟩ | ⟨f, hf, gf⟩
                · rw [hc]; exact w2 _ g4
                · rw [gf.1]; exact w2 _ (g1 _ (hiss f hf)))
              h
            refine ⟨i1, i2, ?_, fun x hx => i4 x (u3 x hx), i5, i6, i7, ?_⟩
            · intro e he
              rcases i3 e he with hv | ⟨f, hf, hfv⟩
              · exact Or.inl hv
              · rcases u2 f hf with ⟨_, hv⟩ | ⟨g, hg, gg⟩
                · exact Or.inl (hfv ▸ hv)
                · exact Or.inr ⟨g, hg, by rw [← hfv, gg.2.1]⟩
            · rcases i8 with ⟨e1, e2⟩ | ⟨e1, e2, e3, e4⟩
              · exact Or.inl ⟨e1, e2⟩
              · refine Or.inr ⟨?_, e2, ?_, ?_⟩
                · rw [e1]; congr 1; omega
                · intro x hx1 hx2
                  by_cases hxs : x < base + chunkPos + writeLen
                  · exact i4 x (u4 x hx1 hxs)
                  · have hne : length - writeLen ≠ 0 := by omega
                    have hcs := hn3 hne
                    apply e3 x
                    · rw [hnext, hcs, Nat.mod_self]; omega
                    · rw [hnext, hcs, Nat.mod_self]; omega
                · intro hq
                  apply e4
                  right
                  apply u5
                  rcases hq with ⟨_, hq⟩ | hq
                  · exact Or.inl hq
                  · exact Or.inr hq

/-! ### One successful `Write` -/

theorem writeLoop_top {σ : Type} (client : S3Client σ) (rpc : Services σ)
    (issued : σ → Nat → Prop) (hfa : IssuedMono client rpc issued)
    (blockSize chunkSize : Nat) (key : Nat → Nat) (buf : Nat → Nat) (version : Nat)
    (hB : 0 < blockSize) (hC : 0 < chunkSize) (hkey : KeyOfChunk chunkSize key)
    (hfresh : KeyTrivialOrFresh rpc issued key)
    (inode : Inode) (st0 st : σ) (hinv : InodeInv key issued inode st0)
    (hst : ∀ j, issued st0 j → issued st j)
    (offset length : Nat) (append : Bool) (ret : Int) (inode1 : Inode) (st1 : σ)
    (hlen : 0 < length) (hl63 : length < 9223372036854775808) (hoff : offset + length < U64)
    (hv : inode.version ≤ version)
    (hq : (∀ e ∈ inode.s3ChunkInfoList, e.version ≠ version) ∨
      ∃ e, inode.s3ChunkInfoList.getLast? = some e ∧ e.version = version)
    (hw : writeLoop client rpc blockSize chunkSize buf version length st inode
      (offset / chunkSize) (offset % chunkSize) length 0 0 append = some (ret, inode1, st1))
    (hret : 0 ≤ ret) :
    InodeInv key issued (setLength inode1 offset length) st1 ∧ inode1.version = version ∧
    (∀ x, offset ≤ x → x < offset + length → ∃ e ∈ inode1.s3ChunkInfoList, e.Covers x) ∧
    (∀ x, (∃ e ∈ inode.s3ChunkInfoList, e.Covers x) →
      ∃ e ∈ inode1.s3ChunkInfoList, e.Covers x) ∧
    ret = toInt32 length ∧ inode1.fsid = inode.fsid ∧ inode1.inodeid = inode.inodeid := by
  have hdm := Nat.div_add_mod' offset chunkSize
  obtain ⟨i1, i2, i3, i4, i5, i6, i7, i8⟩ := writeLoop_inv client rpc issued hfa blockSize
    chunkSize key buf version hB hC hkey hfresh length st inode (offset / chunkSize)
    (offset % chunkSize) length 0 0 append ret inode1 st1
    (fun _ => ⟨Nat.mod_lt _ hC, by omega, hl63⟩) (by omega) hinv.chunks
    (fun e he => hst _ (hinv.issuedIds e he)) hw
  rcases i8 with ⟨e1, _⟩ | ⟨e1, e2, e3, e4⟩
  · omega
  · have hlast := e4 (by
      rcases hq with hq | hq
      · exact Or.inl ⟨by omega, hq⟩
      · exact Or.inr hq)
    refine ⟨⟨i1, i2, ?_, ?_, ?_⟩, e2, ?_, i4, by simpa using e1, i6, i7⟩
    · intro e he
      show e.version ≤ inode1.version
      rw [e2]
      rcases i3 e he with h | ⟨f, hf, hfv⟩
      · omega
      · have := hinv.versions f hf
        omega
    · intro h0
      unfold setLength at h0
      simp only at h0
      omega
    · intro _
      exact hlast.imp fun e he => ⟨he.1, he.2.trans e2.symm⟩
    · intro x h1 h2
      exact e3 x (by omega) (by omega)

theorem IsOverlap_of_overlap (l : List S3ChunkInfo) (offset length : Nat)
    (hl : ∀ e ∈ l, e.offset + e.len < U64) (hoff : offset + length < U64)
    (h : ∃ e ∈ l, offset < e.offset + e.len ∧ e.offset < offset + length) :
    IsOverlap l offset length = true := by
  obtain ⟨e, he, h1, h2⟩ := h
  unfold IsOverlap
  rw [List.any_eq_true]
  refine ⟨e, he, ?_⟩
  rw [add64_eq (hl e he), add64_eq hoff]
  simp [h1, h2]

theorem Write_step {σ : Type} (client : S3Client σ) (rpc : Services σ)
    (issued : σ → Nat → Prop) (hfa : IssuedMono client rpc issued)
    (blockSize chunkSize : Nat) (key : Nat → Nat)
    (hB : 0 < blockSize) (hC : 0 < chunkSize) (hkey : KeyOfChunk chunkSize key)
    (hfresh : KeyTrivialOrFresh rpc issued key)
    (inode : Inode) (st : σ) (hinv : InodeInv key issued inode st)
    (offset length : Nat) (buf : Nat → Nat) (uninit : Nat) (ret : Int) (inode1 : Inode)
    (st1 : σ)
    (hlen : 0 < length) (hl63 : length < 9223372036854775808) (hoff : offset + length < U64)
    (hbump : BumpsAbove rpc st inode)
    (hw : Write client rpc blockSize chunkSize st inode offset length buf uninit =
      some (ret, inode1, st1))
    (hret : 0 ≤ ret) :
    InodeInv key issued (setLength inode1 offset length) st1 ∧
    inode.version ≤ inode1.version ∧
    ((∃ e ∈ inode.s3ChunkInfoList, offset < e.offset + e.len ∧ e.offset < offset + length) →
      inode.version < inode1.version) ∧
    (∀ x, offset ≤ x → x < offset + length → ∃ e ∈ inode1.s3ChunkInfoList, e.Covers x) ∧
    (∀ x, (∃ e ∈ inode.s3ChunkInfoList, e.Covers x) →
      ∃ e ∈ inode1.s3ChunkInfoList, e.Covers x) ∧
    ret = toInt32 length := by
  unfold Write at hw
  by_cases h0 : inode.length = 0
  · simp only [h0, if_true] at hw
    obtain ⟨hnil, hv0⟩ := hinv.fresh h0
    obtain ⟨a, b, c, d, e, _⟩ := writeLoop_top client rpc issued hfa blockSize chunkSize key
      buf 0 hB hC hkey hfresh inode st st hinv (fun _ h => h) offset length false ret inode1
      st1 hlen hl63 hoff (by omega) (Or.inl (by rw [hnil]; intro e he; cases he)) hw hret
    refine ⟨a, by omega, ?_, c, d, e⟩
    rintro ⟨e, he, _⟩
    rw [hnil] at he
    cases he
  · simp only [h0, if_false] at hw
    by_cases hov : IsOverlap inode.s3ChunkInfoList offset length = true
    · simp only [hov, if_true] at hw
      obtain ⟨v, stb, hb, hvlt⟩ := hbump
      rw [hb] at hw
      simp only at hw
      obtain ⟨a, b, c, d, e, _⟩ := writeLoop_top client rpc issued hfa blockSize chunkSize key
        buf v hB hC hkey hfresh inode st stb hinv
        (fun j h => hfa.bump_mono _ _ _ _ _ j hb h) offset length false ret inode1
        st1 hlen hl63 hoff (by omega)
        (Or.inl (by intro e he; have := hinv.versions e he; omega)) hw hret
      exact ⟨a, by omega, fun _ => by omega, c, d, e⟩
    · simp only [hov, if_false] at hw
      obtain ⟨el, hel, helv⟩ := hinv.last h0
      rw [hel] at hw
      simp only at hw
      rw [helv] at hw
      obtain ⟨a, b, c, d, e, _⟩ := writeLoop_top client rpc issued hfa blockSize chunkSize key
        buf inode.version hB hC hkey hfresh inode st st hinv (fun _ h => h) offset length _ ret
        inode1 st1 hlen hl63 hoff (le_refl _) (Or.inr ⟨el, hel, helv⟩) hw hret
      refine ⟨a, by omega, ?_, c, d, e⟩
      intro hex
      exact absurd (IsOverlap_of_overlap _ _ _
        (fun e he => (hinv.chunks.shape e he).2.1) hoff hex) hov

theorem Reach_inv {σ : Type} (client : S3Client σ) (rpc : Services σ)
    (issued : σ → Nat → Prop) (hfa : IssuedMono client rpc issued)
    (blockSize chunkSize : Nat) (key : Nat → Nat)
    (hB : 0 < blockSize) (hC : 0 < chunkSize) (hkey : KeyOfChunk chunkSize key)
    (hfresh : KeyTrivialOrFresh rpc issued key)
    (inode : Inode) (st : σ) (h : Reach client rpc blockSize chunkSize inode st) :
    InodeInv key issued inode st := by
  induction h with
  | fresh fsid inodeid st =>
    exact ⟨⟨(fun e he => nomatch he), (fun e he => nomatch he)⟩, (fun e he => nomatch he),
      (fun e he => nomatch he), fun _ => ⟨rfl, rfl⟩, fun h => absurd rfl h⟩
  | write inode st offset length buf uninit ret inode1 st1 _ hlen hl63 hoff hbump hw hret ih =>
    exact (Write_step client rpc issued hfa blockSize chunkSize key hB hC hkey hfresh inode st
      ih offset length buf uninit ret inode1 st1 hlen hl63 hoff hbump hw hret).1

/-! ### Read path: the working set lies inside the chunk list -/

theorem cut_subRange (new old : S3ChunkInfo) (hnew : new.offset + new.len < U64)
    (hold : old.offset + old.len < U64) (hov : overlaps new old = true) :
    ∀ f ∈ cutFragments new old, old.offset ≤ f.offset ∧
      f.offset + f.len ≤ old.offset + old.len ∧ f.chunkid = old.chunkid ∧
      f.version = old.version := by
  unfold overlaps S3ChunkInfo.endOff at hov
  rw [add64_eq hnew, add64_eq hold] at hov
  simp only [Bool.and_eq_true, decide_eq_true_eq] at hov
  unfold cutFragments
  rw [add64_eq hnew, add64_eq hold]
  simp only [sub64, U64] at *
  intro f hf
  split_ifs at hf with c1 c2 c3
  · simp only [List.mem_singleton] at hf
    subst hf
    refine ⟨le_refl _, ?_, rfl, rfl⟩
    simp only
    omega
  · simp only [List.mem_cons, List.mem_singleton, List.not_mem_nil, or_false] at hf
    rcases hf with hf | hf <;> subst hf <;> refine ⟨?_, ?_, rfl, rfl⟩ <;> simp only <;> omega
  · cases hf
  · simp only [List.mem_singleton] at hf
    subst hf
    refine ⟨?_, ?_, rfl, rfl⟩ <;> simp only <;> omega

theorem scanOverlaps_add (tmp : S3ChunkInfo) :
    ∀ (chunks : List S3ChunkInfo) (j : Nat) (addChunks : List S3ChunkInfo)
      (waitingDel : List Nat),
      ∀ r, scanOverlaps tmp chunks j addChunks waitingDel = some r → ∀ f ∈ r.1,
        f ∈ addChunks ∨ ∃ c ∈ chunks, overlaps tmp c = true ∧ f ∈ cutFragments tmp c := by
  intro chunks
  induction chunks with
  | nil =>
    intro j a w r hr f hf
    simp only [scanOverlaps, Option.some.injEq] at hr
    subst hr
    exact Or.inl hf
  | cons c rest ih =>
    intro j a w r hr f hf
    unfold scanOverlaps at hr
    by_cases hc : overlaps tmp c = true
    · simp only [hc, if_true] at hr
      unfold CutOverLapChunks at hr
      by_cases hv : tmp.version ≥ c.version
      · simp only [hv, if_true] at hr
        rcases ih _ _ _ r hr f hf with h | ⟨d, hd, h⟩
        · exact Or.inr ⟨c, List.mem_cons_self _ _, hc, h⟩
        · exact Or.inr ⟨d, List.mem_cons_of_mem _ hd, h⟩
      · simp [hv] at hr
    · simp only [hc, if_false] at hr
      rcases ih _ _ _ r hr f hf with h | ⟨d, hd, h⟩
      · exact Or.inl h
      · exact Or.inr ⟨d, List.mem_cons_of_mem _ hd, h⟩

theorem eraseAll_subset :
    ∀ (idxs : List Nat) (chunks out : List S3ChunkInfo),
      eraseAll chunks idxs = some out → ∀ x ∈ out, x ∈ chunks := by
  intro idxs
  induction idxs with
  | nil =>
    intro chunks out h x hx
    simp only [eraseAll, Option.some.injEq] at h
    subst h
    exact hx
  | cons i rest ih =>
    intro chunks out h x hx
    unfold eraseAll eraseAt at h
    by_cases hi : i < chunks.length
    · simp only [hi, if_true] at h
      exact List.mem_of_mem_eraseIdx (ih _ _ h x hx)
    · simp [hi] at h

theorem readChunksFrom_subRange (l : List S3ChunkInfo)
    (hl : ∀ e ∈ l, e.offset + e.len < U64) :
    ∀ (rest chunks out : List S3ChunkInfo), (∀ t ∈ rest, t ∈ l) →
      (∀ w ∈ chunks, SubRange l w) → readChunksFrom chunks rest = some out →
      ∀ w ∈ out, SubRange l w := by
  intro rest
  induction rest with
  | nil =>
    intro chunks out _ hc h
    simp only [readChunksFrom, Option.some.injEq] at h
    subst h
    exact hc
  | cons tmp rest ih =>
    intro chunks out hr hc h
    unfold readChunksFrom readChunksStep at h
    cases hs : scanOverlaps tmp chunks 0 [] [] with
    | none => simp [hs] at h
    | some r =>
    simp only [hs] at h
    cases he : eraseAll chunks r.2 with
    | none => simp [he] at h
    | some chunks1 =>
      simp only [he] at h
      have htmp : tmp ∈ l := hr tmp (List.mem_cons_self _ _)
      apply ih _ _ (fun t ht => hr t (List.mem_cons_of_mem _ ht)) _ h
      intro w hw
      rcases List.mem_append.1 hw with hw | hw
      · rcases List.mem_append.1 hw with hw | hw
        · exact hc w (eraseAll_subset _ _ _ he w hw)
        · rcases scanOverlaps_add tmp chunks 0 [] [] r hs w hw with h0 | ⟨c, hcm, hov, hf⟩
          · cases h0
          · obtain ⟨e, hel, h1, h2, h3, h4⟩ := hc c hcm
            have hcw : c.offset + c.len < U64 := by have := hl e hel; omega
            obtain ⟨k1, k2, k3, k4⟩ := cut_subRange tmp c (hl tmp htmp) hcw hov w hf
            exact ⟨e, hel, by omega, by omega, k3.trans h3, k4.trans h4⟩
      · simp only [List.mem_singleton] at hw
        subst hw
        exact ⟨w, htmp, le_refl _, le_refl _, rfl, rfl⟩

/-! ### Read path: `SortByOffset` permutes -/

theorem bubblePass_perm : ∀ (k : Nat) (l : List S3ChunkInfo), (bubblePass k l).Perm l := by
  intro k
  induction k with
  | zero => intro l; unfold bubblePass; exact List.Perm.refl _
  | succ k ih =>
    intro l
    match l with
    | [] => unfold bubblePass; exact List.Perm.refl _
    | [a] => unfold bubblePass; exact List.Perm.refl _
    | a :: b :: rest =>
      unfold bubblePass
      split_ifs with h
      · exact ((ih (a :: rest)).cons b).trans (List.Perm.swap a b rest)
      · exact (ih (b :: rest)).cons a

theorem bubbleLoop_perm :
    ∀ (todo i : Nat) (l : List S3ChunkInfo), (bubbleLoop todo i l).Perm l := by
  intro todo
  induction todo with
  | zero => intro i l; unfold bubbleLoop; exact List.Perm.refl _
  | succ todo ih =>
    intro i l
    unfold bubbleLoop
    exact (ih _ _).trans (bubblePass_perm _ _)

theorem SortByOffset_perm (l : List S3ChunkInfo) : (SortByOffset l).Perm l :=
  bubbleLoop_perm _ _ _

/-! ### Read path: the plan loop -/

theorem int32AsU64_eq {n : Nat} (h : n < 2147483648) : int32AsU64 n = n := by
  unfold int32AsU64; split_ifs <;> omega

theorem planLoop_zero (chunks : List S3ChunkInfo) (offset readOffset : Nat) (buf : Nat → Nat)
    (requests : List S3ReadRequest) :
    planLoop chunks offset 0 readOffset buf requests = ⟨readOffset, buf, requests⟩ := by
  cases chunks <;> simp [planLoop]

theorem ReqOk_lift (tmp : S3ChunkInfo) (rest : List S3ChunkInfo)
    (offset ro length offset1 ro1 length1 : Nat) (r : S3ReadRequest)
    (h1 : ro ≤ ro1) (h2 : ro1 + length1 ≤ ro + length) (h3 : offset1 + ro = offset + ro1)
    (h : ReqOk rest offset1 ro1 length1 r) : ReqOk (tmp :: rest) offset ro length r := by
  obtain ⟨a, b, c, d, hd, e⟩ := h
  exact ⟨by omega, by omega, by omega, d, List.mem_cons_of_mem _ hd, e⟩

theorem planLoop_spec :
    ∀ (chunks : List S3ChunkInfo) (offset length ro : Nat) (buf : Nat → Nat)
      (reqs : List S3ReadRequest),
      (∀ c ∈ chunks, c.offset + c.len < U64) → offset + length < U64 →
      length < 2147483648 → ro + length < U64 →
      ∃ news, (planLoop chunks offset length ro buf reqs).requests = reqs ++ news ∧
        (∀ r ∈ news, ReqOk chunks offset ro length r) ∧
        (∀ i, ro ≤ i → i < ro + length →
          (planLoop chunks offset length ro buf reqs).buf i = 0 ∨ ∃ r ∈ news, InRequest r i) ∧
        (∀ i, (i < ro ∨ ro + length ≤ i) →
          (planLoop chunks offset length ro buf reqs).buf i = buf i) ∧
        ro ≤ (planLoop chunks offset length ro buf reqs).readOffset ∧
        (planLoop chunks offset length ro buf reqs).readOffset ≤ ro + length := by
  intro chunks
  induction chunks with
  | nil =>
    intro offset length ro buf reqs _ _ _ _
    refine ⟨[], ?_⟩
    unfold planLoop
    split_ifs with h0
    · subst h0
      exact ⟨by simp, (fun r hr => nomatch hr), fun i h1 h2 => by omega, fun _ _ => rfl,
        le_refl _, Nat.le_add_right _ _⟩
    · refine ⟨by simp, (fun r hr => nomatch hr), ?_, ?_, le_refl _, Nat.le_add_right _ _⟩
      · intro i h1 h2
        left
        simp only [memset]
        rw [if_pos ⟨h1, h2⟩]
      · intro i hi
        simp only [memset]
        rw [if_neg (by omega)]
  | cons tmp rest ih =>
    intro offset length ro buf reqs hc hwin hlen hro
    have htmp : tmp.offset + tmp.len < U64 := hc tmp (List.mem_cons_self _ _)
    have hrest : ∀ c ∈ rest, c.offset + c.len < U64 := fun c h => hc c (List.mem_cons_of_mem _ h)
    generalize hp : planLoop (tmp :: rest) offset length ro buf reqs = p
    unfold planLoop at hp
    rw [add64_eq hwin, add64_eq htmp] at hp
    by_cases h0 : length = 0
    · subst h0
      simp only [if_true] at hp
      subst hp
      exact ⟨[], by simp, (fun r hr => nomatch hr), fun i h1 h2 => by omega, fun _ _ => rfl,
        le_refl _, Nat.le_add_right _ _⟩
    simp only [h0, if_false] at hp
    by_cases hb1 : offset + length ≤ tmp.offset
    · simp only [hb1, if_true] at hp
      subst hp
      refine ⟨[], by simp, (fun r hr => nomatch hr), ?_, ?_, le_refl _, Nat.le_add_right _ _⟩
      · intro i h1 h2
        left
        simp only [memset]
        rw [if_pos ⟨h1, h2⟩]
      · intro i hi
        simp only [memset]
        rw [if_neg (by omega)]
    simp only [hb1, if_false] at hp
    by_cases hb2 : tmp.offset ≥ offset ∧ tmp.offset < offset + length
    · simp only [hb2, and_self, if_true] at hp
      have hgap : sub64 tmp.offset offset = tmp.offset - offset :=
        sub64_eq hb2.1 (by omega)
      have hn : int32AsU64 (tmp.offset - offset) = tmp.offset - offset :=
        int32AsU64_eq (by omega)
      rw [hgap, hn, sub64_eq (show tmp.offset - offset ≤ length by omega) (by omega),
        add64_eq (show ro + (tmp.offset - offset) < U64 by omega),
        add64_eq (show tmp.offset + (length - (tmp.offset - offset)) < U64 by omega)] at hp
      by_cases hb3 : tmp.offset + (length - (tmp.offset - offset)) ≤ tmp.offset + tmp.len
      · simp only [hb3, if_true] at hp
        rw [planLoop_zero] at hp
        subst hp
        refine ⟨[_], rfl, ?_, ?_, ?_, ?_, ?_⟩
        · intro r hr
          simp only [List.mem_singleton] at hr
          subst hr
          refine ⟨?_, ?_, ?_, tmp, List.mem_cons_self _ _, ?_, ?_, rfl, rfl⟩ <;>
            simp only <;> omega
        · intro i h1 h2
          by_cases hi : i < ro + (tmp.offset - offset)
          · left
            simp only [memset]
            rw [if_pos ⟨h1, hi⟩]
          · right
            refine ⟨_, List.mem_singleton_self _, ?_⟩
            unfold InRequest
            simp only
            omega
        · intro i hi
          simp only [memset]
          rw [if_neg (by omega)]
        · simp only
          rw [add64_eq (by omega)]
          omega
        · simp only
          rw [add64_eq (by omega)]
          omega
      · simp only [hb3, if_false] at hp
        rw [add64_eq htmp, sub64_eq (show tmp.len ≤ length - (tmp.offset - offset) by omega)
          (by omega), add64_eq (show ro + (tmp.offset - offset) + tmp.len < U64 by omega)] at hp
        obtain ⟨news, q1, q2, q3, q4, q5, q6⟩ := ih (tmp.offset + tmp.len)
          (length - (tmp.offset - offset) - tmp.len) (ro + (tmp.offset - offset) + tmp.len)
          (memset buf ro (tmp.offset - offset))
          (reqs ++ [⟨tmp, ro + (tmp.offset - offset)⟩]) hrest (by omega) (by omega) (by omega)
        rw [hp] at q1 q3 q4 q5 q6
        refine ⟨⟨tmp, ro + (tmp.offset - offset)⟩ :: news, ?_, ?_, ?_, ?_, by omega, by omega⟩
        · rw [q1]; simp
        · intro r hr
          rcases List.mem_cons.1 hr with h | h
          · subst h
            refine ⟨?_, ?_, ?_, tmp, List.mem_cons_self _ _, le_refl _, le_refl _, rfl, rfl⟩ <;>
              simp only <;> omega
          · exact ReqOk_lift tmp rest offset ro length _ _ _ r (by omega) (by omega) (by omega)
              (q2 r h)
        · intro i h1 h2
          by_cases hi : i < ro + (tmp.offset - offset)
          · left
            rw [q4 i (Or.inl (by omega))]
            simp only [memset]
            rw [if_pos ⟨h1, hi⟩]
          · by_cases hi2 : i < ro + (tmp.offset - offset) + tmp.len
            · right
              refine ⟨_, List.mem_cons_self _ _, ?_⟩
              unfold InRequest
              simp only
              omega
            · rcases q3 i (by omega) (by omega) with h | ⟨r, hr, h⟩
              · exact Or.inl h
              · exact Or.inr ⟨r, List.mem_cons_of_mem _ hr, h⟩
        · intro i hi
          rw [q4 i (by omega)]
          simp only [memset]
          rw [if_neg (by omega)]
    simp only [hb2, if_false] at hp
    by_cases hb4 : tmp.offset < offset ∧ tmp.offset + tmp.len > offset
    · simp only [hb4, and_self, if_true] at hp
      by_cases hb5 : offset + length ≤ tmp.offset + tmp.len
      · simp only [hb5, if_true] at hp
        rw [planLoop_zero, add64_eq hro] at hp
        subst hp
        refine ⟨[_], rfl, ?_, ?_, ?_, le_refl _ |>.trans (by simp), le_refl _⟩
        · intro r hr
          simp only [List.mem_singleton] at hr
          subst hr
          refine ⟨?_, ?_, ?_, tmp, List.mem_cons_self _ _, ?_, ?_, rfl, rfl⟩ <;>
            simp only <;> omega
        · intro i h1 h2
          right
          refine ⟨_, List.mem_singleton_self _, ?_⟩
          unfold InRequest
          simp only
          omega
        · intro i hi
          rfl
      · simp only [hb5, if_false] at hp
        have hl : sub64 (tmp.offset + tmp.len) offset = tmp.offset + tmp.len - offset :=
          sub64_eq (by omega) htmp
        rw [hl, sub64_eq (show tmp.offset + tmp.len - offset ≤ length by omega) (by omega),
          add64_eq (show ro + (tmp.offset + tmp.len - offset) < U64 by omega)] at hp
        obtain ⟨news, q1, q2, q3, q4, q5, q6⟩ := ih (tmp.offset + tmp.len)
          (length - (tmp.offset + tmp.len - offset)) (ro + (tmp.offset + tmp.len - offset))
          buf
          (reqs ++ [⟨{ tmp with offset := offset, len := tmp.offset + tmp.len - offset }, ro⟩])
          hrest (by omega) (by omega) (by omega)
        rw [hp] at q1 q3 q4 q5 q6
        refine ⟨⟨{ tmp with offset := offset, len := tmp.offset + tmp.len - offset }, ro⟩ ::
          news, ?_, ?_, ?_, ?_, by omega, by omega⟩
        · rw [q1]; simp
        · intro r hr
          rcases List.mem_cons.1 hr with h | h
          · subst h
            refine ⟨?_, ?_, ?_, tmp, List.mem_cons_self _ _, ?_, ?_, rfl, rfl⟩ <;>
              simp only <;> omega
          · exact ReqOk_lift tmp rest offset ro length _ _ _ r (by omega) (by omega) (by omega)
              (q2 r h)
        · intro i h1 h2
          by_cases hi2 : i < ro + (tmp.offset + tmp.len - offset)
          · right
            refine ⟨_, List.mem_cons_self _ _, ?_⟩
            unfold InRequest
            simp only
            omega
          · rcases q3 i (by omega) (by omega) with h | ⟨r, hr, h⟩
            · exact Or.inl h
            · exact Or.inr ⟨r, List.mem_cons_of_mem _ hr, h⟩
        · intro i hi
          rw [q4 i (by omega)]
    simp only [hb4, if_false] at hp
    obtain ⟨news, q1, q2, q3, q4, q5, q6⟩ := ih offset length ro buf reqs hrest hwin hlen hro
    rw [hp] at q1 q3 q4 q5 q6
    exact ⟨news, q1, fun r hr => ReqOk_lift tmp rest offset ro length _ _ _ r (le_refl _)
      (le_refl _) rfl (q2 r hr), q3, q4, q5, q6⟩

/-! ### Read path: execution and assembly -/

theorem downloadLoop_length {σ : Type} (client : S3Client σ) (hdl : DownloadBounded client)
    (st : σ) (blockSize chunkid version : Nat) (hB : 0 < blockSize) (hBU : blockSize < U64) :
    ∀ (fuel blockIndex blockPos len : Nat) (dataBuf out : List Nat),
      blockPos < blockSize → len < U64 →
      downloadLoop client st blockSize chunkid version fuel blockIndex blockPos len dataBuf =
        some (.ok out) →
      out.length = dataBuf.length + len := by
  intro fuel
  induction fuel with
  | zero =>
    intro blockIndex blockPos len dataBuf out _ _ h
    unfold downloadLoop at h
    split_ifs at h with h0
    simp only [Option.some.injEq, Except.ok.injEq] at h
    subst h; subst h0; rfl
  | succ fuel ih =>
    intro blockIndex blockPos len dataBuf out hbp hlen h
    unfold downloadLoop at h
    by_cases h0 : len = 0
    · simp only [h0, if_true, Option.some.injEq, Except.ok.injEq] at h
      subst h; subst h0; rfl
    · simp only [h0, if_false] at h
      have hn : (if add64 blockPos len > blockSize then sub64 blockSize blockPos else len)
          ≤ len := by
        simp only [add64, sub64, U64] at *
        split_ifs <;> omega
      generalize (if add64 blockPos len > blockSize then sub64 blockSize blockPos else len) = n
        at h hn
      cases hd : client.Download st (GenerateObjectName chunkid blockIndex version) blockPos n
        with
      | error e => simp [hd] at h
      | ok data =>
        simp only [hd] at h
        have hdn := hdl _ _ _ _ _ hd
        rw [sub64_eq (by omega) hlen] at h
        have := ih _ _ _ _ _ (Nat.mod_lt _ hB) (by omega) h
        rw [this, List.length_append]
        omega

theorem handleReadRequest_answers {σ : Type} (client : S3Client σ)
    (hdl : DownloadBounded client) (st : σ) (blockSize chunkSize fuel : Nat)
    (hB : 0 < blockSize) (hBU : blockSize < U64) :
    ∀ (reqs : List S3ReadRequest) (resps out : List S3ReadResponse),
      (∀ r ∈ reqs, r.chunkInfo.len < U64) →
      handleReadRequest client st blockSize chunkSize fuel reqs resps = some (.ok out) →
      ∃ news, out = resps ++ news ∧ List.Forall₂ Answers reqs news := by
  intro reqs
  induction reqs with
  | nil =>
    intro resps out _ h
    simp only [handleReadRequest, Option.some.injEq, Except.ok.injEq] at h
    exact ⟨[], by simp [h], List.Forall₂.nil⟩
  | cons req rest ih =>
    intro resps out hl h
    unfold handleReadRequest at h
    cases hd : downloadLoop client st blockSize req.chunkInfo.chunkid req.chunkInfo.version
        fuel (req.chunkInfo.offset % chunkSize / blockSize)
        (req.chunkInfo.offset % chunkSize % blockSize) req.chunkInfo.len [] with
    | none => simp [hd] at h
    | some r =>
      cases r with
      | error e => simp [hd] at h
      | ok dataBuf =>
        simp only [hd] at h
        have hlen := downloadLoop_length client hdl st blockSize _ _ hB hBU _ _ _ _ _ _
          (Nat.mod_lt _ hB) (hl req (List.mem_cons_self _ _)) hd
        simp only [List.length_nil, Nat.zero_add] at hlen
        obtain ⟨news, h1, h2⟩ := ih _ _ (fun r hr => hl r (List.mem_cons_of_mem _ hr)) h
        refine ⟨⟨req.readOffset, dataBuf.length, dataBuf⟩ :: news, by rw [h1]; simp,
          List.Forall₂.cons ⟨rfl, hlen, hlen⟩ h2⟩

theorem strncpyBytes_length : ∀ (src : List Nat) (n : Nat), (strncpyBytes src n).length = n := by
  intro src n
  induction n generalizing src with
  | zero => cases src <;> simp [strncpyBytes]
  | succ n ih =>
    cases src with
    | nil => simp [strncpyBytes]
    | cons c src =>
      unfold strncpyBytes
      split_ifs
      · simp
      · simp [ih]

theorem assemble_frame :
    ∀ (resps : List S3ReadResponse) (buf : Nat → Nat) (i : Nat),
      (∀ r ∈ resps, ¬ (r.readOffset ≤ i ∧ i < r.readOffset + r.bufLen)) →
      assemble resps buf i = buf i := by
  intro resps
  induction resps with
  | nil => intro buf i _; rfl
  | cons r rest ih =>
    intro buf i h
    unfold assemble
    rw [ih _ _ (fun q hq => h q (List.mem_cons_of_mem _ hq))]
    unfold pokeBytes
    rw [strncpyBytes_length]
    rw [if_neg (h r (List.mem_cons_self _ _))]

theorem world_downloadBounded : DownloadBounded worldClient := by
  intro st name off n data h
  simp only [worldClient, memClient] at h
  split at h
  · cases h
  · split_ifs at h
    simp only [Except.ok.injEq] at h
    subst h
    simp only [List.length_take]
    omega

/-! ### Object names are injective -/

theorem digitChar_spec (k : Nat) (h : k < 10) :
    (Nat.digitChar k).toNat - 48 = k ∧ Nat.digitChar k ≠ '_' := by
  interval_cases k <;> decide

theorem digitsVal_concat (pre : List Char) (d : Char) :
    digitsVal (pre ++ [d]) = 10 * digitsVal pre + (d.toNat - 48) := by
  simp [digitsVal, List.foldl_append]

theorem toDigitsCore_spec : ∀ (fuel n : Nat) (ds : List Char), n < fuel →
    ∃ pre, Nat.toDigitsCore 10 fuel n ds = pre ++ ds ∧ digitsVal pre = n ∧
      ∀ c ∈ pre, c ≠ '_' := by
  intro fuel
  induction fuel with
  | zero => intro n ds h; omega
  | succ fuel ih =>
    intro n ds h
    unfold Nat.toDigitsCore
    simp only
    obtain ⟨d1, d2⟩ := digitChar_spec (n % 10) (Nat.mod_lt _ (by decide))
    by_cases h0 : n / 10 = 0
    · simp only [h0, if_true]
      refine ⟨[Nat.digitChar (n % 10)], rfl, ?_, ?_⟩
      · simp only [digitsVal, List.foldl_cons, List.foldl_nil]
        omega
      · intro c hc
        simp only [List.mem_singleton] at hc
        subst hc; exact d2
    · simp only [h0, if_false]
      obtain ⟨pre, p1, p2, p3⟩ := ih (n / 10) (Nat.digitChar (n % 10) :: ds) (by omega)
      refine ⟨pre ++ [Nat.digitChar (n % 10)], by rw [p1]; simp, ?_, ?_⟩
      · rw [digitsVal_concat, p2]; omega
      · intro c hc
        rcases List.mem_append.1 hc with h | h
        · exact p3 c h
        · simp only [List.mem_singleton] at h
          subst h; exact d2

theorem repr_data (n : Nat) :
    digitsVal (toString n).data = n ∧ ∀ c ∈ (toString n).data, c ≠ '_' := by
  obtain ⟨pre, p1, p2, p3⟩ := toDigitsCore_spec (n + 1) n [] (by omega)
  have : (toString n).data = pre := by
    show (Nat.repr n).data = pre
    simp only [Nat.repr, Nat.toDigits, List.asString, p1, List.append_nil]
  rw [this]
  exact ⟨p2, p3⟩

theorem split_underscore : ∀ (l1 l2 r1 r2 : List Char),
    (∀ c ∈ l1, c ≠ '_') → (∀ c ∈ l2, c ≠ '_') → l1 ++ '_' :: r1 = l2 ++ '_' :: r2 →
    l1 = l2 ∧ r1 = r2 := by
  intro l1
  induction l1 with
  | nil =>
    intro l2 r1 r2 _ h2 h
    cases l2 with
    | nil => simpa using h
    | cons c l2 =>
      simp only [List.nil_append, List.cons_append, List.cons.injEq] at h
      exact absurd h.1.symm (h2 c (List.mem_cons_self _ _))
  | cons a l1 ih =>
    intro l2 r1 r2 h1 h2 h
    cases l2 with
    | nil =>
      simp only [List.nil_append, List.cons_append, List.cons.injEq] at h
      exact absurd h.1 (h1 a (List.mem_cons_self _ _))
    | cons c l2 =>
      simp only [List.cons_append, List.cons.injEq] at h
      obtain ⟨e1, e2⟩ := ih l2 r1 r2 (fun c hc => h1 c (List.mem_cons_of_mem _ hc))
        (fun c hc => h2 c (List.mem_cons_of_mem _ hc)) h.2
      exact ⟨by rw [h.1, e1], e2⟩

theorem GenerateObjectName_inj (a b c a1 b1 c1 : Nat)
    (h : GenerateObjectName a b c = GenerateObjectName a1 b1 c1) : a = a1 ∧ b = b1 ∧ c = c1 := by
  have hd := congrArg String.data h
  simp only [GenerateObjectName, String.data_append, List.append_assoc] at hd
  simp only [List.singleton_append] at hd
  obtain ⟨va, na⟩ := repr_data a
  obtain ⟨vb, nb⟩ := repr_data b
  obtain ⟨vc, nc⟩ := repr_data c
  obtain ⟨va1, na1⟩ := repr_data a1
  obtain ⟨vb1, nb1⟩ := repr_data b1
  obtain ⟨vc1, nc1⟩ := repr_data c1
  obtain ⟨h1, h2⟩ := split_underscore _ _ _ _ na na1 hd
  obtain ⟨h3, h4⟩ := split_underscore _ _ _ _ nb nb1 h2
  refine ⟨?_, ?_, ?_⟩
  · rw [← va, ← va1, h1]
  · rw [← vb, ← vb1, h3]
  · rw [← vc, ← vc1, h4]
/-! ### The in-memory world -/

theorem world_fresh : FreshAlloc worldClient worldServices (fun w k => k < w.nextChunk) := by
  refine ⟨⟨?_, ?_, ?_, ?_, ?_⟩, ?_⟩
  · intro st fsid k st1 h
    simp only [worldServices, Prod.mk.injEq, Option.some.injEq] at h
    obtain ⟨rfl, rfl⟩ := h
    simp
  · intro st fsid r st1 j h hj
    simp only [worldServices, Prod.mk.injEq] at h
    obtain ⟨_, rfl⟩ := h
    simp only
    omega
  · intro st a b r st1 j h hj
    simp only [worldServices, Prod.mk.injEq] at h
    obtain ⟨_, rfl⟩ := h
    exact hj
  · intro st name data j hj
    exact hj
  · intro st name data j hj
    exact hj
  · intro st fsid k st1 h
    simp only [worldServices, Prod.mk.injEq, Option.some.injEq] at h
    obtain ⟨rfl, rfl⟩ := h
    simp

theorem abc_write :
    Write worldClient worldServices 4 16 freshWorld freshInode 0 10 (bufOf abcBytes) 0 =
      some (10, ⟨1, 1, 0, 0, [⟨0, 0, 0, 10, 10⟩]⟩, abcWorld) := by
  decide

theorem abc_reach : Reach worldClient worldServices 4 16 abcInode abcWorld :=
  Reach.write freshInode freshWorld 0 10 (bufOf abcBytes) 0 10 _ abcWorld
    (Reach.fresh 1 1 freshWorld) (by decide) (by decide) (by decide)
    ⟨1, _, rfl, by decide⟩ abc_write (by decide)

theorem keyOfChunk_div (chunkSize : Nat) (hC : 0 < chunkSize) :
    KeyOfChunk chunkSize (fun x => x / chunkSize) := by
  intro index x h1 h2
  simp only
  rw [div_eq_of_range chunkSize index x h1 h2, Nat.mul_div_cancel _ hC]

theorem issuedMono_trivial {σ : Type} (client : S3Client σ) (rpc : Services σ) :
    IssuedMono client rpc (fun _ _ => True) :=
  ⟨fun _ _ _ _ _ => trivial, fun _ _ _ _ _ _ _ => trivial, fun _ _ _ _ _ _ _ _ => trivial,
    fun _ _ _ _ _ => trivial, fun _ _ _ _ _ => trivial⟩

/-! ### The in-memory store -/

theorem bubblePass_append : ∀ (k : Nat) (pre suf : List S3ChunkInfo), k + 1 ≤ pre.length →
    bubblePass k (pre ++ suf) = bubblePass k pre ++ suf := by
  intro k
  induction k with
  | zero => intro pre suf _; simp [bubblePass]
  | succ k ih =>
    intro pre suf h
    match pre, h with
    | a :: b :: rest, h =>
      simp only [List.cons_append, bubblePass]
      have h1 := ih (a :: rest) suf (by simp only [List.length_cons] at h ⊢; omega)
      have h2 := ih (b :: rest) suf (by simp only [List.length_cons] at h ⊢; omega)
      simp only [List.cons_append] at h1 h2
      split_ifs
      · exact congrArg (b :: ·) h1
      · exact congrArg (a :: ·) h2

theorem bubblePass_max : ∀ (k : Nat) (l : List S3ChunkInfo), l.length = k + 1 →
    ∃ init m, bubblePass k l = init ++ [m] ∧ ∀ x ∈ init, x.offset ≤ m.offset := by
  intro k
  induction k with
  | zero =>
    intro l h
    match l, h with
    | [a], _ => exact ⟨[], a, by simp [bubblePass], fun x hx => nomatch hx⟩
  | succ k ih =>
    intro l h
    match l, h with
    | a :: b :: rest, h =>
      simp only [bubblePass]
      have hlen : rest.length = k := by simp only [List.length_cons] at h; omega
      split_ifs with hab
      · obtain ⟨init, m, e, hm⟩ := ih (a :: rest) (by simp [hlen])
        have ha : a ∈ init ++ [m] := by
          rw [← e]; exact (bubblePass_perm k (a :: rest)).mem_iff.2 (List.mem_cons_self _ _)
        have ham : a.offset ≤ m.offset := by
          rcases List.mem_append.1 ha with h1 | h1
          · exact hm a h1
          · simp only [List.mem_singleton] at h1; rw [h1]
        refine ⟨b :: init, m, by rw [e]; rfl, ?_⟩
        intro x hx
        rcases List.mem_cons.1 hx with h1 | h1
        · subst h1; omega
        · exact hm x h1
      · obtain ⟨init, m, e, hm⟩ := ih (b :: rest) (by simp [hlen])
        have hb : b ∈ init ++ [m] := by
          rw [← e]; exact (bubblePass_perm k (b :: rest)).mem_iff.2 (List.mem_cons_self _ _)
        have hbm : b.offset ≤ m.offset := by
          rcases List.mem_append.1 hb with h1 | h1
          · exact hm b h1
          · simp only [List.mem_singleton] at h1; rw [h1]
        refine ⟨a :: init, m, by rw [e]; rfl, ?_⟩
        intro x hx
        rcases List.mem_cons.1 hx with h1 | h1
        · subst h1; omega
        · exact hm x h1

theorem bubbleLoop_sorted : ∀ (todo i : Nat) (pre suf : List S3ChunkInfo),
    pre.length = todo + 1 → suf.length = i →
    suf.Pairwise (fun a b => a.offset ≤ b.offset) →
    (∀ x ∈ pre, ∀ y ∈ suf, x.offset ≤ y.offset) →
    (bubbleLoop todo i (pre ++ suf)).Pairwise (fun a b => a.offset ≤ b.offset) := by
  intro todo
  induction todo with
  | zero =>
    intro i pre suf hp _ hs hps
    match pre, hp with
    | [a], _ =>
      simp only [bubbleLoop, List.singleton_append, List.pairwise_cons]
      exact ⟨fun y hy => hps a (List.mem_singleton_self _) y hy, hs⟩
  | succ todo ih =>
    intro i pre suf hp hsl hs hps
    unfold bubbleLoop
    have hk : (pre ++ suf).length - 1 - i = todo + 1 := by
      rw [List.length_append]; omega
    rw [hk, bubblePass_append _ _ _ (by omega)]
    obtain ⟨init, m, e, hm⟩ := bubblePass_max (todo + 1) pre hp
    have hperm := bubblePass_perm (todo + 1) pre
    rw [e] at hperm ⊢
    have hmem : ∀ x, x ∈ init ++ [m] → x ∈ pre := fun x hx => hperm.mem_iff.1 hx
    rw [List.append_assoc]
    apply ih (i + 1) init ([m] ++ suf)
    · have := hperm.length_eq
      simp only [List.length_append, List.length_singleton] at this
      omega
    · simp [hsl]
    · simp only [List.singleton_append, List.pairwise_cons]
      exact ⟨fun y hy => hps m (hmem m (by simp)) y hy, hs⟩
    · intro x hx y hy
      simp only [List.singleton_append, List.mem_cons] at hy
      rcases hy with h1 | h1
      · rw [h1]; exact hm x hx
      · exact hps x (hmem x (List.mem_append_left _ hx)) y h1

theorem SortByOffset_sorted (l : List S3ChunkInfo) :
    (SortByOffset l).Pairwise (fun a b => a.offset ≤ b.offset) := by
  unfold SortByOffset
  match l with
  | [] => simp [bubbleLoop]
  | a :: rest =>
    have := bubbleLoop_sorted rest.length 0 (a :: rest) [] (by simp) rfl List.Pairwise.nil
      (fun x _ y hy => nomatch hy)
    simpa using this

/-! ### Read path: the plan is complete on a sorted, disjoint working set -/

theorem mergeScan_nomatch (k v : Nat) :
    ∀ (l : List S3ChunkInfo) (offset len : Nat) (merge : Bool),
      (∀ e ∈ l, ¬ (e.chunkid = k ∧ e.version = v ∧ offset = add64 e.offset e.len)) →
      mergeScan k v l offset len merge = (l, offset, len, merge) := by
  intro l
  induction l with
  | nil => intro offset len merge _; rfl
  | cons tmp rest ih =>
    intro offset len merge h
    have ht := h tmp (List.mem_cons_self _ _)
    have hr := ih offset len merge (fun e he => h e (List.mem_cons_of_mem _ he))
    unfold mergeScan
    split_ifs with c1 c2
    · rw [hr]
    · exfalso
      apply ht
      refine ⟨?_, c2.1.symm, c2.2⟩
      by_contra hne
      exact c1 (fun h2 => hne h2.symm)
    · rw [hr]

theorem mergeScan_skip (k v : Nat) :
    ∀ (pre rest : List S3ChunkInfo) (offset len : Nat) (merge : Bool),
      (∀ e ∈ pre, ¬ (e.chunkid = k ∧ e.version = v ∧ offset = add64 e.offset e.len)) →
      mergeScan k v (pre ++ rest) offset len merge =
        (pre ++ (mergeScan k v rest offset len merge).1,
          (mergeScan k v rest offset len merge).2) := by
  intro pre
  induction pre with
  | nil => intro rest offset len merge _; rfl
  | cons tmp pre ih =>
    intro rest offset len merge h
    have ht := h tmp (List.mem_cons_self _ _)
    have hr := ih rest offset len merge (fun e he => h e (List.mem_cons_of_mem _ he))
    simp only [List.cons_append]
    rw [mergeScan]
    split_ifs with c1 c2
    · rw [hr]
    · exfalso
      apply ht
      refine ⟨?_, c2.1.symm, c2.2⟩
      by_contra hne
      exact c1 (fun h2 => hne h2.symm)
    · rw [hr]

theorem UpdateInodeChunkInfo_merge (pre post : List S3ChunkInfo) (g : S3ChunkInfo)
    (k v offset len : Nat)
    (hpre : ∀ e ∈ pre, ¬ (e.chunkid = k ∧ e.version = v ∧ offset = add64 e.offset e.len))
    (hg : g.chunkid = k ∧ g.version = v ∧ offset = add64 g.offset g.len)
    (hpost : ∀ e ∈ post, ¬ (e.chunkid = k ∧ e.version = v ∧ g.offset = add64 e.offset e.len)) :
    UpdateInodeChunkInfo (pre ++ g :: post) k v offset len =
      pre ++ { g with len := add64 len g.len } :: post := by
  unfold UpdateInodeChunkInfo
  rw [mergeScan_skip k v pre (g :: post) offset len false hpre]
  have hstep : mergeScan k v (g :: post) offset len false =
      ({ g with len := add64 len g.len } :: post, g.offset, add64 len g.len, true) := by
    rw [mergeScan, if_neg (by simp [hg.1]), if_pos ⟨hg.2.1.symm, hg.2.2⟩]
    rw [mergeScan_nomatch k v post g.offset (add64 len g.len) true hpost]
  rw [hstep]
  simp

/-! ### `GetReadChunks` on entries that overlap at most one chunk of the working set -/

theorem scanOverlaps_none (tmp : S3ChunkInfo) :
    ∀ (chunks : List S3ChunkInfo) (j : Nat) (addChunks : List S3ChunkInfo)
      (waitingDel : List Nat), (∀ c ∈ chunks, overlaps tmp c = false) →
      scanOverlaps tmp chunks j addChunks waitingDel = some (addChunks, waitingDel) := by
  intro chunks
  induction chunks with
  | nil => intro j a w _; rfl
  | cons c rest ih =>
    intro j a w h
    rw [scanOverlaps, h c (List.mem_cons_self _ _)]
    simp only [Bool.false_eq_true, if_false]
    exact ih _ _ _ (fun d hd => h d (List.mem_cons_of_mem _ hd))

theorem scanOverlaps_skip (tmp : S3ChunkInfo) :
    ∀ (pre rest : List S3ChunkInfo) (j : Nat) (addChunks : List S3ChunkInfo)
      (waitingDel : List Nat), (∀ c ∈ pre, overlaps tmp c = false) →
      scanOverlaps tmp (pre ++ rest) j addChunks waitingDel =
        scanOverlaps tmp rest (j + pre.length) addChunks waitingDel := by
  intro pre
  induction pre with
  | nil => intro rest j a w _; rfl
  | cons c pre ih =>
    intro rest j a w h
    simp only [List.cons_append, List.length_cons]
    rw [scanOverlaps, h c (List.mem_cons_self _ _)]
    simp only [Bool.false_eq_true, if_false]
    rw [ih _ _ _ _ (fun d hd => h d (List.mem_cons_of_mem _ hd))]
    have : j + 1 + pre.length = j + (pre.length + 1) := by omega
    rw [this]

theorem readChunksStep_none (chunks : List S3ChunkInfo) (tmp : S3ChunkInfo)
    (h : ∀ c ∈ chunks, overlaps tmp c = false) :
    readChunksStep chunks tmp = some (chunks ++ [tmp]) := by
  unfold readChunksStep
  rw [scanOverlaps_none tmp chunks 0 [] [] h]
  simp [eraseAll]

theorem readChunksStep_one (pre post : List S3ChunkInfo) (c tmp : S3ChunkInfo)
    (hpre : ∀ d ∈ pre, overlaps tmp d = false) (hc : overlaps tmp c = true)
    (hpost : ∀ d ∈ post, overlaps tmp d = false) (hv : c.version ≤ tmp.version) :
    readChunksStep (pre ++ c :: post) tmp =
      some (pre ++ post ++ cutFragments tmp c ++ [tmp]) := by
  unfold readChunksStep
  rw [scanOverlaps_skip tmp pre (c :: post) 0 [] [] hpre]
  rw [scanOverlaps, hc]
  simp only [if_true]
  rw [CutOverLapChunks, if_pos hv]
  simp only
  rw [scanOverlaps_none tmp post _ _ _ hpost]
  simp only [List.nil_append, eraseAll, eraseAt, Nat.zero_add]
  rw [if_pos (by simp)]
  simp only
  rw [List.eraseIdx_append_of_length_le (le_refl _)]
  simp

theorem toInt32_small (n : Nat) (h : n < 2147483648) : toInt32 n = (n : Int) := by
  unfold toInt32
  rw [if_pos (by omega), Nat.mod_eq_of_lt (by omega)]

/-! ### A block-aligned write to a fresh inode, and a block-aligned overwrite -/

theorem div_in_chunk (chunkSize : Nat) (hC : 0 < chunkSize) (c : S3ChunkInfo)
    (hc : 0 < c.len ∧ c.offset + c.len < U64 ∧
      c.offset / chunkSize = (c.offset + c.len - 1) / chunkSize)
    (x : Nat) (hx : c.Covers x) : x / chunkSize = c.offset / chunkSize := by
  unfold S3ChunkInfo.Covers at hx
  obtain ⟨r1, _⟩ := range_of_div chunkSize _ c.offset hC rfl
  obtain ⟨_, r4⟩ := range_of_div chunkSize _ (c.offset + c.len - 1) hC hc.2.2.symm
  exact div_eq_of_range chunkSize _ x (by omega) (by omega)

/-! ### `GetReadChunks` on the list left by a write and a later overwrite -/

theorem Apart.symm {a b : S3ChunkInfo} (h : Apart a b) : Apart b a := Or.symm h

theorem OverInv.shape {chunkSize : Nat} (hC : 0 < chunkSize) {first done ws : List S3ChunkInfo}
    (hf : ∀ a ∈ first, EntryShape chunkSize a) (h : OverInv chunkSize first done ws) :
    ∀ c ∈ ws, EntryShape chunkSize c := by
  intro c hc
  rcases h.kind c hc with hd | ⟨⟨a, ha, h1, h2, _, _⟩, hpos, _, _⟩
  · exact h.dshape c hd
  · have hs := hf a ha
    refine ⟨hpos, lt_of_le_of_lt h2 hs.2.1, ?_⟩
    have e1 := div_in_chunk chunkSize hC a hs c.offset
      (by unfold S3ChunkInfo.Covers; omega)
    have e2 := div_in_chunk chunkSize hC a hs (c.offset + c.len - 1)
      (by unfold S3ChunkInfo.Covers; omega)
    rw [e1, e2]

theorem OverInv.init (chunkSize : Nat) (first : List S3ChunkInfo)
    (hf : ∀ a ∈ first, EntryShape chunkSize a) (hd : first.Pairwise Apart) :
    OverInv chunkSize first [] first :=
  ⟨(fun d hd => nomatch hd), hd,
    (fun c hc => Or.inr ⟨⟨c, hc, le_refl _, le_refl _, rfl, rfl⟩, (hf c hc).1,
      (fun d hd => nomatch hd), Or.inl hc⟩),
    (fun x hx => by
      rcases hx with h | ⟨d, hd, _⟩
      · exact h
      · cases hd)⟩

theorem writeLoop_frame {σ : Type} (client : S3Client σ) (rpc : Services σ)
    (blockSize chunkSize : Nat) (buf : Nat → Nat) (version : Nat) :
    ∀ (fuel : Nat) (st : σ) (inode : Inode) (index chunkPos length writeOffset total : Nat)
      (append : Bool) (ret : Int) (inode1 : Inode) (st1 : σ),
      writeLoop client rpc blockSize chunkSize buf version fuel st inode index chunkPos length
        writeOffset total append = some (ret, inode1, st1) →
      inode1.fsid = inode.fsid ∧ inode1.inodeid = inode.inodeid ∧
        inode1.length = inode.length := by
  intro fuel
  induction fuel with
  | zero =>
    intro st inode index chunkPos length writeOffset total append ret inode1 st1 h
    unfold writeLoop at h
    split_ifs at h
    simp only [Option.some.injEq, Prod.mk.injEq] at h
    obtain ⟨_, h2, _⟩ := h
    subst h2
    exact ⟨rfl, rfl, rfl⟩
  | succ fuel ih =>
    intro st inode index chunkPos length writeOffset total append ret inode1 st1 h
    rw [writeLoop] at h
    by_cases hl : length = 0
    · rw [if_pos hl] at h
      simp only [Option.some.injEq, Prod.mk.injEq] at h
      obtain ⟨_, h2, _⟩ := h
      subst h2
      exact ⟨rfl, rfl, rfl⟩
    · rw [if_neg hl] at h
      simp only at h
      generalize (if add64 chunkPos length > chunkSize then sub64 chunkSize chunkPos
        else length) = n at h
      rcases hg : GetChunkId rpc st chunkSize inode index with ⟨r, cid, st2⟩
      rw [hg] at h
      cases cid with
      | none =>
        simp only [Option.some.injEq, Prod.mk.injEq] at h
        rw [← h.2.1]
        exact ⟨rfl, rfl, rfl⟩
      | some k =>
        simp only at h
        by_cases h1 : r < 0
        · rw [if_pos h1] at h
          simp only [Option.some.injEq, Prod.mk.injEq] at h
          rw [← h.2.1]
          exact ⟨rfl, rfl, rfl⟩
        · rw [if_neg h1] at h
          rcases hw : WriteChunk client st2 blockSize k version chunkPos n buf writeOffset
            append with _ | ⟨wl, st3⟩
          · rw [hw] at h
            cases h
          · rw [hw] at h
            simp only at h
            by_cases h2 : wl ≥ 9223372036854775808
            · rw [if_pos h2] at h
              simp only [Option.some.injEq, Prod.mk.injEq] at h
              rw [← h.2.1]
              exact ⟨rfl, rfl, rfl⟩
            · rw [if_neg h2] at h
              have := ih _ _ _ _ _ _ _ _ _ _ _ h
              exact this

theorem Write_frame_aux {σ : Type} (client : S3Client σ) (rpc : Services σ)
    (blockSize chunkSize : Nat) (st : σ) (inode : Inode) (offset length : Nat)
    (buf : Nat → Nat) (uninit : Nat) (ret : Int) (inode1 : Inode) (st1 : σ)
    (h : Write client rpc blockSize chunkSize st inode offset length buf uninit =
      some (ret, inode1, st1)) :
    inode1.fsid = inode.fsid ∧ inode1.inodeid = inode.inodeid ∧
      inode1.length = inode.length := by
  unfold Write at h
  split_ifs at h
  · exact writeLoop_frame _ _ _ _ _ _ _ _ _ _ _ _ _ _ _ _ _ _ h
  · split at h
    · exact writeLoop_frame _ _ _ _ _ _ _ _ _ _ _ _ _ _ _ _ _ _ h
    · exact writeLoop_frame _ _ _ _ _ _ _ _ _ _ _ _ _ _ _ _ _ _ h
  · split at h
    · cases h
    · exact writeLoop_frame _ _ _ _ _ _ _ _ _ _ _ _ _ _ _ _ _ _ h

/-! ### The plan loop of `Read` against the intersections with the window -/

theorem intersectRequest_none (offset length ro : Nat) (c : S3ChunkInfo)
    (h : offset + length ≤ c.offset ∨ c.offset + c.len ≤ offset ∨ length = 0) :
    intersectRequest offset length ro c = none := by
  unfold intersectRequest
  rw [if_neg]
  simp only [lt_min_iff, max_lt_iff, not_and, and_imp]
  omega

theorem intersectRequest_after (offset length ro : Nat) (l : List S3ChunkInfo)
    (h : ∀ c ∈ l, offset + length ≤ c.offset) :
    l.filterMap (intersectRequest offset length ro) = [] := by
  rw [List.filterMap_eq_nil_iff]
  intro c hc
  exact intersectRequest_none offset length ro c (Or.inl (h c hc))

theorem intersectRequest_shift (offset length ro offset1 length1 ro1 : Nat) (l : List S3ChunkInfo)
    (h1 : offset ≤ offset1) (h2 : offset1 + length1 = offset + length)
    (h3 : ro1 + offset = ro + offset1) (h : ∀ c ∈ l, offset1 ≤ c.offset) :
    l.filterMap (intersectRequest offset1 length1 ro1) =
      l.filterMap (intersectRequest offset length ro) := by
  induction l with
  | nil => rfl
  | cons c l ih =>
    have hc := h c (List.mem_cons_self _ _)
    have e : intersectRequest offset1 length1 ro1 c = intersectRequest offset length ro c := by
      unfold intersectRequest
      rw [max_eq_left hc, max_eq_left (le_trans h1 hc), h2]
      have : ro1 + (c.offset - offset1) = ro + (c.offset - offset) := by omega
      rw [this]
    rw [List.filterMap_cons, List.filterMap_cons, e, ih (fun d hd => h d (List.mem_cons_of_mem _ hd))]

theorem planLoop_exact :
    ∀ (chunks : List S3ChunkInfo) (offset length ro : Nat) (buf : Nat → Nat)
      (reqs : List S3ReadRequest),
      (∀ c ∈ chunks, 0 < c.len ∧ c.offset + c.len < U64) → offset + length < U64 →
      length < 2147483648 → ro + length < U64 →
      chunks.Pairwise (fun a b => a.offset + a.len ≤ b.offset) →
      (planLoop chunks offset length ro buf reqs).requests =
        reqs ++ chunks.filterMap (intersectRequest offset length ro) := by
  intro chunks
  induction chunks with
  | nil =>
    intro offset length ro buf reqs _ _ _ _ _
    unfold planLoop
    split_ifs <;> simp
  | cons tmp rest ih =>
    intro offset length ro buf reqs hc hwin hlen hro hsorted
    obtain ⟨hpos, htmp⟩ := hc tmp (List.mem_cons_self _ _)
    have hrest : ∀ c ∈ rest, 0 < c.len ∧ c.offset + c.len < U64 :=
      fun c h => hc c (List.mem_cons_of_mem _ h)
    obtain ⟨hafter, hsrest⟩ := List.pairwise_cons.1 hsorted
    generalize hp : planLoop (tmp :: rest) offset length ro buf reqs = p
    unfold planLoop at hp
    rw [add64_eq hwin, add64_eq htmp] at hp
    rw [List.filterMap_cons]
    by_cases h0 : length = 0
    · subst h0
      simp only [if_true] at hp
      subst hp
      rw [intersectRequest_none offset 0 ro tmp (Or.inr (Or.inr rfl))]
      simp only
      rw [List.filterMap_eq_nil_iff.2
        (fun c _ => intersectRequest_none offset 0 ro c (Or.inr (Or.inr rfl)))]
      simp
    simp only [h0, if_false] at hp
    by_cases hb1 : offset + length ≤ tmp.offset
    · simp only [hb1, if_true] at hp
      subst hp
      rw [intersectRequest_none offset length ro tmp (Or.inl hb1)]
      simp only
      rw [intersectRequest_after offset length ro rest
        (fun c h => by have := hafter c h; omega)]
      simp
    simp only [hb1, if_false] at hp
    by_cases hb2 : tmp.offset ≥ offset ∧ tmp.offset < offset + length
    · simp only [hb2, and_self, if_true] at hp
      have hgap : sub64 tmp.offset offset = tmp.offset - offset :=
        sub64_eq hb2.1 (by omega)
      have hn : int32AsU64 (tmp.offset - offset) = tmp.offset - offset :=
        int32AsU64_eq (by omega)
      rw [hgap, hn, sub64_eq (show tmp.offset - offset ≤ length by omega) (by omega),
        add64_eq (show ro + (tmp.offset - offset) < U64 by omega),
        add64_eq (show tmp.offset + (length - (tmp.offset - offset)) < U64 by omega)] at hp
      by_cases hb3 : tmp.offset + (length - (tmp.offset - offset)) ≤ tmp.offset + tmp.len
      · simp only [hb3, if_true] at hp
        rw [planLoop_zero] at hp
        subst hp
        have e : intersectRequest offset length ro tmp =
            some ⟨{ tmp with offset := tmp.offset, len := length - (tmp.offset - offset) },
              ro + (tmp.offset - offset)⟩ := by
          unfold intersectRequest
          rw [max_eq_left hb2.1, min_eq_right (by omega), if_pos hb2.2]
          have : offset + length - tmp.offset = length - (tmp.offset - offset) := by omega
          rw [this]
        rw [e]
        simp only
        rw [intersectRequest_after offset length ro rest
          (fun c h => by have := hafter c h; omega)]
      · simp only [hb3, if_false] at hp
        rw [add64_eq htmp, sub64_eq (show tmp.len ≤ length - (tmp.offset - offset) by omega)
          (by omega), add64_eq (show ro + (tmp.offset - offset) + tmp.len < U64 by omega)] at hp
        have q := ih (tmp.offset + tmp.len)
          (length - (tmp.offset - offset) - tmp.len) (ro + (tmp.offset - offset) + tmp.len)
          (memset buf ro (tmp.offset - offset))
          (reqs ++ [⟨tmp, ro + (tmp.offset - offset)⟩]) hrest (by omega) (by omega) (by omega)
          hsrest
        rw [hp] at q
        have e : intersectRequest offset length ro tmp =
            some ⟨tmp, ro + (tmp.offset - offset)⟩ := by
          unfold intersectRequest
          rw [max_eq_left hb2.1, min_eq_left (by omega), if_pos (by omega),
            Nat.add_sub_cancel_left]
        rw [e, q, intersectRequest_shift offset length ro _ _ _ rest (by omega) (by omega)
          (by omega) hafter]
        simp
    simp only [hb2, if_false] at hp
    by_cases hb4 : tmp.offset < offset ∧ tmp.offset + tmp.len > offset
    · simp only [hb4, and_self, if_true] at hp
      by_cases hb5 : offset + length ≤ tmp.offset + tmp.len
      · simp only [hb5, if_true] at hp
        rw [planLoop_zero] at hp
        subst hp
        have e : intersectRequest offset length ro tmp =
            some ⟨{ tmp with offset := offset, len := length }, ro⟩ := by
          unfold intersectRequest
          rw [max_eq_right (le_of_lt hb4.1), min_eq_right hb5, if_pos (by omega),
            Nat.add_sub_cancel_left, Nat.sub_self, Nat.add_zero]
        rw [e]
        simp only
        rw [intersectRequest_after offset length ro rest
          (fun c h => by have := hafter c h; omega)]
      · simp only [hb5, if_false] at hp
        rw [sub64_eq (show offset ≤ tmp.offset + tmp.len by omega) (by omega),
          sub64_eq (show tmp.offset + tmp.len - offset ≤ length by omega) (by omega),
          add64_eq (show ro + (tmp.offset + tmp.len - offset) < U64 by omega)] at hp
        have q := ih (tmp.offset + tmp.len) (length - (tmp.offset + tmp.len - offset))
          (ro + (tmp.offset + tmp.len - offset)) buf
          (reqs ++ [⟨{ tmp with offset := offset, len := tmp.offset + tmp.len - offset }, ro⟩])
          hrest (by omega) (by omega) (by omega) hsrest
        rw [hp] at q
        have e : intersectRequest offset length ro tmp =
            some ⟨{ tmp with offset := offset, len := tmp.offset + tmp.len - offset }, ro⟩ := by
          unfold intersectRequest
          rw [max_eq_right (le_of_lt hb4.1), min_eq_left (by omega), if_pos (by omega),
            Nat.sub_self, Nat.add_zero]
        rw [e, q, intersectRequest_shift offset length ro _ _ _ rest (by omega) (by omega)
          (by omega) hafter]
        simp
    · simp only [hb4, if_false] at hp
      have q := ih offset length ro buf reqs hrest hwin hlen hro hsrest
      rw [hp] at q
      rw [q, intersectRequest_none offset length ro tmp (Or.inr (Or.inl (by omega)))]

/-! ### A write that stays inside one chunk -/

theorem GetChunkId_ret {σ : Type} (rpc : Services σ) (st : σ) (chunkSize : Nat)
    (inode : Inode) (index : Nat) (r : Int) (cid : Option Nat) (st1 : σ)
    (h : GetChunkId rpc st chunkSize inode index = (r, cid, st1)) :
    (cid = none ∧ r = -1) ∨ (∃ k, cid = some k ∧ r = 0) := by
  unfold GetChunkId at h
  have halloc : ∀ x : Option Nat × σ,
      (match x with
        | (none, st2) => ((-1 : Int), (none : Option Nat), st2)
        | (some chunkId, st2) => (0, some chunkId, st2)) = (r, cid, st1) →
      (cid = none ∧ r = -1) ∨ (∃ k, cid = some k ∧ r = 0) := by
    rintro ⟨_ | k, st2⟩ hx
    · simp only [Prod.mk.injEq] at hx
      exact Or.inl ⟨hx.2.1.symm, hx.1.symm⟩
    · simp only [Prod.mk.injEq] at hx
      exact Or.inr ⟨k, hx.2.1.symm, hx.1.symm⟩
  split_ifs at h
  · exact halloc _ h
  · split at h
    · simp only [Prod.mk.injEq] at h
      exact Or.inr ⟨_, h.2.1.symm, h.1.symm⟩
    · exact halloc _ h

theorem writeLoop_single {σ : Type} (client : S3Client σ) (rpc : Services σ)
    (blockSize chunkSize : Nat) (buf : Nat → Nat) (version : Nat) (hB : 0 < blockSize)
    (fuel : Nat) (st : σ) (inode : Inode) (index chunkPos length writeOffset total : Nat)
    (append : Bool) (ret : Int) (inode1 : Inode) (st1 : σ)
    (hlen : 0 < length) (hl63 : length < 9223372036854775808)
    (hfit : chunkPos + length ≤ chunkSize)
    (hpos : index * chunkSize + chunkPos + length < U64)
    (hfuel : 0 < fuel)
    (h : writeLoop client rpc blockSize chunkSize buf version fuel st inode index chunkPos
      length writeOffset total append = some (ret, inode1, st1))
    (hret : 0 ≤ ret) :
    ∃ k st2, GetChunkId rpc st chunkSize inode index = (0, some k, st2) ∧
      inode1 = { inode with
        s3ChunkInfoList := UpdateInodeChunkInfo inode.s3ChunkInfoList k version
          (index * chunkSize + chunkPos) length,
        version := version } ∧
      ret = toInt32 (add64 total length) := by
  obtain ⟨f, rfl⟩ : ∃ f, fuel = f + 1 := ⟨fuel - 1, by omega⟩
  rw [writeLoop, if_neg (by omega)] at h
  have hn : (if add64 chunkPos length > chunkSize then sub64 chunkSize chunkPos else length) =
      length := by
    rw [add64_eq (by omega), if_neg (by omega)]
  simp only [hn] at h
  rcases hg : GetChunkId rpc st chunkSize inode index with ⟨r, cid, st2⟩
  rw [hg] at h
  rcases GetChunkId_ret rpc st chunkSize inode index r cid st2 hg with ⟨hc, hr⟩ | ⟨k, hc, hr⟩
  · subst hc hr
    simp only [Option.some.injEq, Prod.mk.injEq] at h
    omega
  · subst hc hr
    simp only [lt_self_iff_false, if_false] at h
    rcases hw : WriteChunk client st2 blockSize k version chunkPos length buf writeOffset
      append with _ | ⟨wl, st3⟩
    · rw [hw] at h
      cases h
    · rw [hw] at h
      simp only at h
      obtain ⟨hwl, _⟩ := WriteChunk_ret client rpc (fun _ _ => True)
        (issuedMono_trivial client rpc) blockSize k version chunkPos length buf writeOffset
        append st2 wl st3 hB (by omega) hw
      rcases hwl with hwl | hwl
      · subst hwl
        rw [if_pos (by unfold U64; omega)] at h
        simp only [Option.some.injEq, Prod.mk.injEq] at h
        rw [toInt32_minus_one] at h
        omega
      · subst hwl
        rw [if_neg (by omega)] at h
        have hz : sub64 wl wl = 0 := by
          unfold sub64 U64 at *; omega
        have ho : add64 (index * chunkSize % U64) chunkPos = index * chunkSize + chunkPos := by
          rw [Nat.mod_eq_of_lt (by omega), add64_eq (by omega)]
        rw [hz, ho] at h
        have hexit : ∀ (fl : Nat) (i : Inode) (a b c d : Nat) (s : σ),
            writeLoop client rpc blockSize chunkSize buf version fl s i a b 0 c d false =
              some (toInt32 d, { i with version := version }, s) := by
          intro fl i a b c d s
          cases fl <;> simp [writeLoop]
        rw [hexit] at h
        simp only [Option.some.injEq, Prod.mk.injEq] at h
        exact ⟨k, st2, rfl, h.2.1.symm, h.1.symm⟩

theorem same_chunk_add (chunkSize o s : Nat) (h : o % chunkSize + s < chunkSize) :
    (o + s) / chunkSize = o / chunkSize ∧ (o + s) % chunkSize = o % chunkSize + s := by
  have e1 := Nat.div_add_mod' o chunkSize
  have hd : (o + s) / chunkSize = o / chunkSize :=
    div_eq_of_range chunkSize _ (o + s) (by omega) (by omega)
  have e2 := Nat.div_add_mod' (o + s) chunkSize
  rw [hd] at e2
  exact ⟨hd, by omega⟩

theorem Write_first_single {σ : Type} (client : S3Client σ) (rpc : Services σ)
    (blockSize chunkSize : Nat) (hB : 0 < blockSize) (fsid inodeid : Nat)
    (st : σ) (offset length : Nat) (buf : Nat → Nat) (uninit : Nat) (ret : Int)
    (inode1 : Inode) (st1 : σ) (hlen : 0 < length) (hl63 : length < 9223372036854775808)
    (hfit : offset % chunkSize + length ≤ chunkSize) (hoff : offset + length < U64)
    (h : Write client rpc blockSize chunkSize st ⟨fsid, inodeid, 0, 0, []⟩ offset length buf
      uninit = some (ret, inode1, st1))
    (hret : 0 ≤ ret) :
    ∃ k, inode1 = ⟨fsid, inodeid, 0, 0, [⟨k, 0, offset, length, length⟩]⟩ := by
  unfold Write at h
  rw [if_pos rfl] at h
  have e := Nat.div_add_mod' offset chunkSize
  obtain ⟨k, st2, _, h2, _⟩ := writeLoop_single client rpc blockSize chunkSize buf 0 hB length
    st _ _ _ length 0 0 false ret inode1 st1 hlen hl63 hfit (by omega) hlen h hret
  rw [e] at h2
  exact ⟨k, h2⟩

theorem Write_next_single {σ : Type} (client : S3Client σ) (rpc : Services σ)
    (blockSize chunkSize : Nat) (hB : 0 < blockSize) (inode : Inode)
    (k o s sz : Nat) (hlist : inode.s3ChunkInfoList = [⟨k, 0, o, s, sz⟩])
    (hnz : inode.length ≠ 0)
    (st : σ) (length : Nat) (buf : Nat → Nat) (uninit : Nat) (ret : Int)
    (inode1 : Inode) (st1 : σ) (hlen : 0 < length) (hl63 : length < 9223372036854775808)
    (hfit : o % chunkSize + s + length ≤ chunkSize) (hoff : o + s + length < U64)
    (h : Write client rpc blockSize chunkSize st inode (o + s) length buf uninit =
      some (ret, inode1, st1))
    (hret : 0 ≤ ret) :
    inode1 = { inode with s3ChunkInfoList := [⟨k, 0, o, s + length, sz⟩], version := 0 } := by
  obtain ⟨hd, hm⟩ := same_chunk_add chunkSize o s (by omega)
  have hov : IsOverlap inode.s3ChunkInfoList (o + s) length = false := by
    rw [hlist]
    simp only [IsOverlap, List.any_cons, List.any_nil, Bool.or_false]
    rw [add64_eq (show o + s < U64 by omega)]
    simp
  unfold Write at h
  rw [if_neg hnz, hov] at h
  simp only [Bool.false_eq_true, if_false] at h
  have hv : inode.s3ChunkInfoList.getLast? = some ⟨k, 0, o, s, sz⟩ := by
    rw [hlist]; rfl
  rw [hv] at h
  simp only at h
  have e := Nat.div_add_mod' (o + s) chunkSize
  obtain ⟨k1, st2, h1, h2, _⟩ := writeLoop_single client rpc blockSize chunkSize buf 0 hB length
    st _ _ _ length 0 0 _ ret inode1 st1 hlen hl63 (by omega) (by omega) hlen h hret
  have hk : k1 = k := by
    unfold GetChunkId at h1
    rw [if_neg hnz, hlist] at h1
    simp only [List.find?_cons, hd, beq_self_eq_true, Prod.mk.injEq, Option.some.injEq,
      true_and] at h1
    exact h1.1.symm
  rw [h2, hk, e, hlist]
  have hm2 := UpdateInodeChunkInfo_merge [] [] ⟨k, 0, o, s, sz⟩ k 0 (o + s) length
    (fun e he => nomatch he)
    ⟨rfl, rfl, (add64_eq (show o + s < U64 by omega)).symm⟩ (fun e he => nomatch he)
  simp only [List.nil_append] at hm2
  rw [hm2, add64_eq (by omega), Nat.add_comm length s]

theorem writeRun_tail {σ : Type} (client : S3Client σ) (rpc : Services σ)
    (blockSize chunkSize : Nat) (hB : 0 < blockSize) (uninit : Nat) (k o sz : Nat) :
    ∀ (writes : List (Nat × (Nat → Nat))) (s : Nat) (inode : Inode) (st : σ) (inode1 : Inode)
      (st1 : σ),
      inode.s3ChunkInfoList = [⟨k, 0, o, s, sz⟩] → inode.length ≠ 0 →
      (∀ w ∈ writes, 0 < w.1) →
      o % chunkSize + s + (writes.map Prod.fst).sum ≤ chunkSize →
      o + s + (writes.map Prod.fst).sum < U64 →
      (writes.map Prod.fst).sum < 9223372036854775808 →
      writeRun client rpc blockSize chunkSize uninit writes (o + s) inode st =
        some (inode1, st1) →
      inode1.s3ChunkInfoList = [⟨k, 0, o, s + (writes.map Prod.fst).sum, sz⟩] := by
  intro writes
  induction writes with
  | nil =>
    intro s inode st inode1 st1 hlist _ _ _ _ _ h
    simp only [writeRun, Option.some.injEq, Prod.mk.injEq] at h
    rw [← h.1, hlist]
    simp
  | cons w rest ih =>
    intro s inode st inode1 st1 hlist hnz hpos hfit hoff hl63 h
    simp only [List.map_cons, List.sum_cons] at hfit hoff hl63 ⊢
    have hw := hpos w (List.mem_cons_self _ _)
    rw [writeRun] at h
    rcases hW : Write client rpc blockSize chunkSize st inode (o + s) w.1 w.2 uninit with
      _ | ⟨ret, inode2, st2⟩
    · rw [hW] at h
      cases h
    · rw [hW] at h
      simp only at h
      by_cases hret : 0 ≤ ret
      · rw [if_pos hret] at h
        have h2 := Write_next_single client rpc blockSize chunkSize hB inode k o s sz hlist hnz
          st w.1 w.2 uninit ret inode2 st2 hw (by omega) (by omega) (by omega) hW hret
        have := ih (s + w.1) (setLength inode2 (o + s) w.1) st2 inode1 st1
          (by rw [h2]; rfl)
          (by
            simp only [setLength]
            omega)
          (fun x hx => hpos x (List.mem_cons_of_mem _ hx)) (by omega) (by omega) (by omega)
          (by rw [← Nat.add_assoc]; exact h)
        rw [this, Nat.add_assoc]
      · rw [if_neg hret] at h
        cases h

/-! ### The recorded loop against the loop of `Write` -/

theorem writeLoopT_fst {σ : Type} (client : S3Client σ) (rpc : Services σ)
    (blockSize chunkSize : Nat) (buf : Nat → Nat) (version : Nat) :
    ∀ (fuel : Nat) (st : σ) (inode : Inode) (index chunkPos length writeOffset total : Nat)
      (append : Bool) (calls : List MergeCall),
      (writeLoopT client rpc blockSize chunkSize buf version fuel st inode index chunkPos length
        writeOffset total append calls).map Prod.fst =
      writeLoop client rpc blockSize chunkSize buf version fuel st inode index chunkPos length
        writeOffset total append := by
  intro fuel
  induction fuel with
  | zero =>
    intro st inode index chunkPos length writeOffset total append calls
    unfold writeLoopT writeLoop
    split_ifs <;> rfl
  | succ fuel ih =>
    intro st inode index chunkPos length writeOffset total append calls
    rw [writeLoopT, writeLoop]
    by_cases hl : length = 0
    · rw [if_pos hl, if_pos hl]; rfl
    · rw [if_neg hl, if_neg hl]
      simp only
      rcases GetChunkId rpc st chunkSize inode index with ⟨r, _ | k, st2⟩
      · rfl
      · simp only
        by_cases h1 : r < 0
        · rw [if_pos h1, if_pos h1]; rfl
        · rw [if_neg h1, if_neg h1]
          rcases WriteChunk client st2 blockSize k version chunkPos _ buf writeOffset
            append with _ | ⟨wl, st3⟩
          · rfl
          · simp only
            by_cases h2 : wl ≥ 9223372036854775808
            · rw [if_pos h2, if_pos h2]; rfl
            · rw [if_neg h2, if_neg h2]
              exact ih _ _ _ _ _ _ _ _ _

theorem WriteT_fst {σ : Type} (client : S3Client σ) (rpc : Services σ)
    (blockSize chunkSize : Nat) (st : σ) (inode : Inode) (offset length : Nat)
    (buf : Nat → Nat) (uninit : Nat) :
    (WriteT client rpc blockSize chunkSize st inode offset length buf uninit).map Prod.fst =
      Write client rpc blockSize chunkSize st inode offset length buf uninit := by
  unfold WriteT Write
  split_ifs
  · exact writeLoopT_fst _ _ _ _ _ _ _ _ _ _ _ _ _ _ _ _
  · rcases rpc.UpdateInodeS3Version st inode.inodeid inode.fsid with ⟨_ | v, st1⟩
    · exact writeLoopT_fst _ _ _ _ _ _ _ _ _ _ _ _ _ _ _ _
    · exact writeLoopT_fst _ _ _ _ _ _ _ _ _ _ _ _ _ _ _ _
  · cases inode.s3ChunkInfoList.getLast? with
    | none => rfl
    | some last => exact writeLoopT_fst _ _ _ _ _ _ _ _ _ _ _ _ _ _ _ _

/-! ### `Write` when every external call succeeds -/

theorem writeChunkLoop_ok {σ : Type} (client : S3Client σ)
    (hup : ∀ s name data, 0 ≤ (client.Upload s name data).1)
    (hap : ∀ s name data, 0 ≤ (client.Append s name data).1)
    (blockSize chunkId version : Nat) (buf : Nat → Nat) (hB : 0 < blockSize) :
    ∀ (fuel : Nat) (st : σ) (blockIndex blockPos length writeOffset : Nat) (append : Bool),
      length ≤ fuel →
      (length ≠ 0 → blockPos < blockSize ∧ blockPos + length < U64) →
      writeOffset + length < U64 →
      ∃ st1, writeChunkLoop client blockSize chunkId version buf fuel st blockIndex blockPos
        length writeOffset append = some (writeOffset + length, st1) := by
  intro fuel
  induction fuel with
  | zero =>
    intro st blockIndex blockPos length writeOffset append hf _ _
    have h0 : length = 0 := by omega
    subst h0
    exact ⟨st, by simp [writeChunkLoop]⟩
  | succ fuel ih =>
    intro st blockIndex blockPos length writeOffset append hf hpos hwo
    rw [writeChunkLoop]
    by_cases h0 : length = 0
    · subst h0
      exact ⟨st, by simp⟩
    · rw [if_neg h0]
      obtain ⟨hbp, hsum⟩ := hpos h0
      have hn : 0 < (if add64 blockPos length > blockSize then sub64 blockSize blockPos
          else length) ∧
          (if add64 blockPos length > blockSize then sub64 blockSize blockPos else length)
          ≤ length ∧
          (length - (if add64 blockPos length > blockSize then sub64 blockSize blockPos
            else length) ≠ 0 →
            blockPos + (if add64 blockPos length > blockSize then sub64 blockSize blockPos
              else length) = blockSize) := by
        rw [add64_eq hsum]
        split_ifs with hc
        · rw [sub64_eq (le_of_lt hbp) (by omega)]
          omega
        · omega
      simp only
      generalize (if add64 blockPos length > blockSize then sub64 blockSize blockPos
        else length) = n at hn
      have hr : ¬ (if append = true then
            client.Append st (GenerateObjectName chunkId blockIndex version)
              (bufSlice buf writeOffset n)
          else
            client.Upload st (GenerateObjectName chunkId blockIndex version)
              (bufSlice buf writeOffset n)).1 < 0 := by
        cases append
        · simpa using hup _ _ _
        · simpa using hap _ _ _
      rw [if_neg hr]
      obtain ⟨hn0, hn1, hn2⟩ := hn
      rw [sub64_eq hn1 (by omega), add64_eq (show writeOffset + n < U64 by omega),
        add64_eq (show blockPos + n < U64 by omega)]
      obtain ⟨st1, h1⟩ := ih (if append = true then
            client.Append st (GenerateObjectName chunkId blockIndex version)
              (bufSlice buf writeOffset n)
          else
            client.Upload st (GenerateObjectName chunkId blockIndex version)
              (bufSlice buf writeOffset n)).2 (add64 blockIndex 1) ((blockPos + n) % blockSize)
        (length - n) (writeOffset + n) false (by omega)
        (by
          intro hne
          rw [hn2 hne, Nat.mod_self]
          exact ⟨hB, by omega⟩) (by omega)
      refine ⟨st1, ?_⟩
      rw [h1]
      have : writeOffset + n + (length - n) = writeOffset + length := by omega
      rw [this]

theorem WriteChunk_ok {σ : Type} (client : S3Client σ)
    (hup : ∀ s name data, 0 ≤ (client.Upload s name data).1)
    (hap : ∀ s name data, 0 ≤ (client.Append s name data).1)
    (blockSize chunkId version pos length : Nat) (buf : Nat → Nat) (bufPos : Nat)
    (append : Bool) (st : σ) (hB : 0 < blockSize) (hpos : pos + length < U64) :
    ∃ st1, WriteChunk client st blockSize chunkId version pos length buf bufPos append =
      some (length, st1) := by
  unfold WriteChunk
  obtain ⟨st1, h⟩ := writeChunkLoop_ok client hup hap blockSize chunkId version
    (fun j => buf (bufPos + j)) hB length st (pos / blockSize) (pos % blockSize) length 0 append
    (le_refl _) (fun _ => ⟨Nat.mod_lt _ hB, by have := Nat.mod_le pos blockSize; omega⟩)
    (by omega)
  rw [Nat.zero_add] at h
  exact ⟨st1, h⟩

theorem GetChunkId_ok {σ : Type} (rpc : Services σ)
    (hal : ∀ s fsid, (rpc.AllocateS3Chunk s fsid).1 ≠ none) (st : σ) (chunkSize : Nat)
    (inode : Inode) (index : Nat) :
    ∃ k st1, GetChunkId rpc st chunkSize inode index = (0, some k, st1) := by
  have halloc : ∃ k st1, (match rpc.AllocateS3Chunk st inode.fsid with
      | (none, st2) => ((-1 : Int), (none : Option Nat), st2)
      | (some chunkId, st2) => (0, some chunkId, st2)) = (0, some k, st1) := by
    have := hal st inode.fsid
    rcases hr : rpc.AllocateS3Chunk st inode.fsid with ⟨_ | k, st2⟩
    · rw [hr] at this
      exact absurd rfl this
    · exact ⟨k, st2, rfl⟩
  unfold GetChunkId
  split_ifs
  · exact halloc
  · split
    · exact ⟨_, _, rfl⟩
    · exact halloc

theorem slicesOf_zero (chunkSize pos : Nat) (l : List (Nat × Nat))
    (h : SlicesOf chunkSize pos 0 l) : l = [] := by
  cases l with
  | nil => rfl
  | cons s rest =>
    unfold SlicesOf at h
    omega

theorem chunk_cut (chunkSize pos length : Nat) (hC : 0 < chunkSize) (hl : length ≠ 0)
    (hend : pos + length < U64) :
    let n := if add64 (pos % chunkSize) length > chunkSize then
      sub64 chunkSize (pos % chunkSize) else length
    0 < n ∧ n ≤ length ∧ pos % chunkSize + n ≤ chunkSize ∧
      add64 (pos / chunkSize * chunkSize % U64) (pos % chunkSize) = pos ∧
      pos / chunkSize = (pos + n - 1) / chunkSize ∧
      (n < length → pos % chunkSize + n = chunkSize ∧ (pos + n) % chunkSize = 0 ∧
        add64 (pos / chunkSize) 1 = (pos + n) / chunkSize) := by
  intro n
  have hm := Nat.mod_lt pos hC
  have hle := Nat.mod_le pos chunkSize
  have e := Nat.div_add_mod' pos chunkSize
  have hn : n = if pos % chunkSize + length > chunkSize then chunkSize - pos % chunkSize
      else length := by
    show (if add64 (pos % chunkSize) length > chunkSize then
      sub64 chunkSize (pos % chunkSize) else length) = _
    rw [add64_eq (by omega)]
    split_ifs
    · rw [sub64_eq (le_of_lt hm) (by omega)]
    · rfl
  have h1 : 0 < n ∧ n ≤ length ∧ pos % chunkSize + n ≤ chunkSize ∧
      (n < length → pos % chunkSize + n = chunkSize) := by
    rw [hn]
    split_ifs <;> omega
  generalize n = m at h1
  obtain ⟨a, b, c, d⟩ := h1
  have hq : pos / chunkSize * chunkSize ≤ pos := by omega
  refine ⟨a, b, c, ?_, ?_, ?_⟩
  · rw [Nat.mod_eq_of_lt (by omega), add64_eq (by omega)]
    exact e
  · exact (div_eq_of_range chunkSize _ (pos + m - 1) (by omega) (by omega)).symm
  · intro hlt
    have hd := d hlt
    have hnext : pos + m = (pos / chunkSize + 1) * chunkSize := by
      rw [Nat.add_mul, Nat.one_mul]; omega
    have hdiv : (pos + m) / chunkSize = pos / chunkSize + 1 := by
      rw [hnext, Nat.mul_div_cancel _ hC]
    refine ⟨hd, ?_, ?_⟩
    · rw [hnext, Nat.mul_mod_left]
    · rw [hdiv, add64_eq]
      have : pos / chunkSize + 1 ≤ (pos / chunkSize + 1) * chunkSize :=
        Nat.le_mul_of_pos_right _ hC
      omega

theorem mergeAll_cons (l : List S3ChunkInfo) (c : MergeCall) (rest : List MergeCall) :
    mergeAll l (c :: rest) =
      mergeAll (UpdateInodeChunkInfo l c.chunkId c.version c.offset c.len) rest := rfl

theorem writeLoopT_ok {σ : Type} (client : S3Client σ) (rpc : Services σ)
    (hup : ∀ s name data, 0 ≤ (client.Upload s name data).1)
    (hap : ∀ s name data, 0 ≤ (client.Append s name data).1)
    (hal : ∀ s fsid, (rpc.AllocateS3Chunk s fsid).1 ≠ none)
    (blockSize chunkSize : Nat) (buf : Nat → Nat) (version : Nat) (hB : 0 < blockSize)
    (hC : 0 < chunkSize) :
    ∀ (fuel : Nat) (st : σ) (inode : Inode) (pos index chunkPos length writeOffset total : Nat)
      (append : Bool) (calls : List MergeCall),
      length ≤ fuel → (length ≠ 0 → index = pos / chunkSize ∧ chunkPos = pos % chunkSize) →
      pos + length < U64 → length < 9223372036854775808 → writeOffset + length < U64 →
      total + length < U64 →
      ∃ inode1 st1 new,
        writeLoopT client rpc blockSize chunkSize buf version fuel st inode index chunkPos length
            writeOffset total append calls =
          some ((toInt32 (total + length), inode1, st1), calls ++ new) ∧
        SlicesOf chunkSize pos length (new.map (fun c => (c.offset, c.len))) ∧
        (∀ c ∈ new, c.version = version) ∧
        inode1 = { inode with s3ChunkInfoList := mergeAll inode.s3ChunkInfoList new,
                              version := version } := by
  intro fuel
  induction fuel with
  | zero =>
    intro st inode pos index chunkPos length writeOffset total append calls hf _ _ _ _ _
    have h0 : length = 0 := by omega
    subst h0
    exact ⟨{ inode with version := version }, st, [], by simp [writeLoopT], rfl,
        (fun c hc => nomatch hc), rfl⟩
  | succ fuel ih =>
    intro st inode pos index chunkPos length writeOffset total append calls hf hidx hend hl63
      hwo htot
    by_cases h0 : length = 0
    · subst h0
      exact ⟨{ inode with version := version }, st, [], by simp [writeLoopT], rfl,
        (fun c hc => nomatch hc), rfl⟩
    · obtain ⟨rfl, rfl⟩ := hidx h0
      obtain ⟨n0, n1, n2, n3, n4, n5⟩ := chunk_cut chunkSize pos length hC h0 hend
      rw [writeLoopT, if_neg h0]
      simp only
      generalize (if add64 (pos % chunkSize) length > chunkSize then
        sub64 chunkSize (pos % chunkSize) else length) = n at n0 n1 n2 n4 n5
      obtain ⟨k, st2, hg⟩ := GetChunkId_ok rpc hal st chunkSize inode (pos / chunkSize)
      rw [hg]
      simp only [lt_self_iff_false, if_false]
      have hm := Nat.mod_le pos chunkSize
      obtain ⟨st3, hw⟩ := WriteChunk_ok client hup hap blockSize k version (pos % chunkSize) n
        buf writeOffset append st2 hB (by omega)
      rw [hw]
      simp only
      rw [if_neg (by omega), n3, sub64_eq n1 (by omega),
        add64_eq (show writeOffset + n < U64 by omega),
        add64_eq (show total + n < U64 by omega),
        add64_eq (show pos % chunkSize + n < U64 by omega)]
      obtain ⟨inode1, st1, new, e1, e2, e3, e4⟩ := ih st3
        { inode with s3ChunkInfoList :=
            UpdateInodeChunkInfo inode.s3ChunkInfoList k version pos n }
        (pos + n) (add64 (pos / chunkSize) 1) ((pos % chunkSize + n) % chunkSize) (length - n)
        (writeOffset + n) (total + n) false (calls ++ [⟨k, version, pos, n⟩]) (by omega)
        (by
          intro hne
          obtain ⟨a, b, c⟩ := n5 (by omega)
          rw [a, Nat.mod_self, b, c]
          exact ⟨rfl, rfl⟩)
        (by omega) (by omega) (by omega) (by omega)
      refine ⟨inode1, st1, ⟨k, version, pos, n⟩ :: new, ?_, ?_, ?_, ?_⟩
      · rw [e1]
        have : total + n + (length - n) = total + length := by omega
        rw [this]
        simp
      · simp only [List.map_cons]
        unfold SlicesOf
        refine ⟨rfl, n0, n1, n4, fun hlt => (n5 hlt).2.1, e2⟩
      · intro c hc
        rcases List.mem_cons.1 hc with h | h
        · rw [h]
        · exact e3 c h
      · rw [e4, mergeAll_cons]

theorem WriteT_ok {σ : Type} (client : S3Client σ) (rpc : Services σ)
    (hup : ∀ s name data, 0 ≤ (client.Upload s name data).1)
    (hap : ∀ s name data, 0 ≤ (client.Append s name data).1)
    (hal : ∀ s fsid, (rpc.AllocateS3Chunk s fsid).1 ≠ none)
    (blockSize chunkSize : Nat) (hB : 0 < blockSize) (hC : 0 < chunkSize) (st : σ)
    (inode : Inode) (offset length : Nat) (buf : Nat → Nat) (uninit : Nat)
    (hl63 : length < 9223372036854775808) (hend : offset + length < U64)
    (hwf : inode.length ≠ 0 → inode.s3ChunkInfoList ≠ []) :
    ∃ inode1 st1 calls,
      WriteT client rpc blockSize chunkSize st inode offset length buf uninit =
        some ((toInt32 length, inode1, st1), calls) ∧
      SlicesOf chunkSize offset length (calls.map (fun c => (c.offset, c.len))) ∧
      inode1.s3ChunkInfoList = mergeAll inode.s3ChunkInfoList calls := by
  have key : ∀ (version : Nat) (s : σ) (append : Bool),
      ∃ inode1 st1 calls,
        writeLoopT client rpc blockSize chunkSize buf version length s inode
          (offset / chunkSize) (offset % chunkSize) length 0 0 append [] =
          some ((toInt32 length, inode1, st1), calls) ∧
        SlicesOf chunkSize offset length (calls.map (fun c => (c.offset, c.len))) ∧
        inode1.s3ChunkInfoList = mergeAll inode.s3ChunkInfoList calls := by
    intro version s append
    obtain ⟨inode1, st1, new, e1, e2, _, e4⟩ := writeLoopT_ok client rpc hup hap hal blockSize
      chunkSize buf version hB hC length s inode offset (offset / chunkSize)
      (offset % chunkSize) length 0 0 append [] (le_refl _) (fun _ => ⟨rfl, rfl⟩) hend hl63
      (by unfold U64 at *; omega) (by unfold U64 at *; omega)
    rw [Nat.zero_add, List.nil_append] at e1
    exact ⟨inode1, st1, new, e1, e2, by rw [e4]⟩
  unfold WriteT
  split_ifs with h0 hov
  · exact key _ _ _
  · rcases rpc.UpdateInodeS3Version st inode.inodeid inode.fsid with ⟨_ | v, st1⟩
    · exact key _ _ _
    · exact key _ _ _
  · cases hl : inode.s3ChunkInfoList.getLast? with
    | none =>
      rw [List.getLast?_eq_none_iff] at hl
      exact absurd hl (hwf h0)
    | some last => exact key _ _ _

/-! ### The calls recorded during `WriteChunk` -/

theorem StoreCallOf.not_allocFailed {k v : Nat} {op : Call} (h : StoreCallOf k v op) :
    op.allocFailed = false := by
  obtain ⟨b, d, r, h | h⟩ := h <;> subst h <;> rfl

theorem writeChunkLoop_rec {σ : Type} (client : S3Client σ)
    (blockSize chunkId version : Nat) (buf : Nat → Nat) (hB : 0 < blockSize) :
    ∀ (fuel : Nat) (st : σ) (log : List Call) (blockIndex blockPos length writeOffset : Nat)
      (append : Bool) (w : Nat) (st1 : σ) (log1 : List Call),
      (length ≠ 0 → blockPos < blockSize ∧ blockPos + length < U64) →
      writeOffset + length < U64 →
      writeChunkLoop (recClient client) blockSize chunkId version buf fuel (st, log) blockIndex
        blockPos length writeOffset append = some (w, (st1, log1)) →
      ∃ ops, log1 = log ++ ops ∧ (∀ op ∈ ops, StoreCallOf chunkId version op) ∧
        ((w = writeOffset + length ∧ ∀ op ∈ ops, op.storeFailed = false) ∨
         (w = U64 - 1 ∧ ∃ init last, ops = init ++ [last] ∧ last.storeFailed = true ∧
            ∀ x ∈ init, x.storeFailed = false)) := by
  intro fuel
  induction fuel with
  | zero =>
    intro st log blockIndex blockPos length writeOffset append w st1 log1 _ _ h
    unfold writeChunkLoop at h
    split_ifs at h with h0
    simp only [Option.some.injEq, Prod.mk.injEq] at h
    obtain ⟨rfl, rfl, rfl⟩ := h
    subst h0
    exact ⟨[], by simp, (fun op hop => nomatch hop), Or.inl ⟨rfl, (fun op hop => nomatch hop)⟩⟩
  | succ fuel ih =>
    intro st log blockIndex blockPos length writeOffset append w st1 log1 hpos hwo h
    rw [writeChunkLoop] at h
    by_cases h0 : length = 0
    · rw [if_pos h0] at h
      simp only [Option.some.injEq, Prod.mk.injEq] at h
      obtain ⟨rfl, rfl, rfl⟩ := h
      subst h0
      exact ⟨[], by simp, (fun op hop => nomatch hop),
        Or.inl ⟨rfl, (fun op hop => nomatch hop)⟩⟩
    · rw [if_neg h0] at h
      simp only at h
      obtain ⟨hbp, hsum⟩ := hpos h0
      have hn : (if add64 blockPos length > blockSize then sub64 blockSize blockPos else length)
          ≤ length ∧
          (length - (if add64 blockPos length > blockSize then sub64 blockSize blockPos
            else length) ≠ 0 →
            blockPos + (if add64 blockPos length > blockSize then sub64 blockSize blockPos
              else length) = blockSize) := by
        rw [add64_eq hsum]
        split_ifs with hc
        · rw [sub64_eq (le_of_lt hbp) (by omega)]
          omega
        · omega
      generalize (if add64 blockPos length > blockSize then sub64 blockSize blockPos
        else length) = n at h hn
      -- the one call of this iteration and what it records
      have hcall : ∃ (r : Int) (s2 : σ) (op : Call),
          (if append = true then
            (recClient client).Append (st, log) (GenerateObjectName chunkId blockIndex version)
              (bufSlice buf writeOffset n)
          else
            (recClient client).Upload (st, log) (GenerateObjectName chunkId blockIndex version)
              (bufSlice buf writeOffset n)) = (r, (s2, log ++ [op])) ∧
          StoreCallOf chunkId version op ∧ op.storeFailed = decide (r < 0) := by
        cases append
        · exact ⟨_, _, _, rfl, ⟨blockIndex, _, _, Or.inl rfl⟩, rfl⟩
        · exact ⟨_, _, _, rfl, ⟨blockIndex, _, _, Or.inr rfl⟩, rfl⟩
      obtain ⟨r, s2, op, hr, hop, hfail⟩ := hcall
      rw [hr] at h
      simp only at h
      by_cases hneg : r < 0
      · rw [if_pos hneg] at h
        simp only [Option.some.injEq, Prod.mk.injEq] at h
        obtain ⟨rfl, rfl, rfl⟩ := h
        refine ⟨[op], rfl, ?_, Or.inr ⟨rfl, [], op, rfl, ?_, (fun x hx => nomatch hx)⟩⟩
        · intro x hx
          rw [List.mem_singleton.1 hx]; exact hop
        · rw [hfail]; simpa using hneg
      · rw [if_neg hneg] at h
        obtain ⟨hn1, hn2⟩ := hn
        rw [sub64_eq hn1 (by omega), add64_eq (show writeOffset + n < U64 by omega),
          add64_eq (show blockPos + n < U64 by omega)] at h
        obtain ⟨ops, e1, e2, e3⟩ := ih _ _ _ _ _ _ _ _ _ _ (by
          intro hne
          rw [hn2 hne, Nat.mod_self]
          exact ⟨hB, by omega⟩) (by omega) h
        have hok : op.storeFailed = false := by rw [hfail]; simpa using hneg
        refine ⟨op :: ops, by rw [e1]; simp, ?_, ?_⟩
        · intro x hx
          rcases List.mem_cons.1 hx with hx | hx
          · rw [hx]; exact hop
          · exact e2 x hx
        · rcases e3 with ⟨a, b⟩ | ⟨a, init, last, b, c, d⟩
          · refine Or.inl ⟨by omega, ?_⟩
            intro x hx
            rcases List.mem_cons.1 hx with hx | hx
            · rw [hx]; exact hok
            · exact b x hx
          · refine Or.inr ⟨a, op :: init, last, by rw [b]; simp, c, ?_⟩
            intro x hx
            rcases List.mem_cons.1 hx with hx | hx
            · rw [hx]; exact hok
            · exact d x hx

/-! ### The calls recorded during the loop of `Write` -/

theorem WriteChunk_rec {σ : Type} (client : S3Client σ)
    (blockSize chunkId version pos length : Nat) (buf : Nat → Nat) (bufPos : Nat)
    (append : Bool) (st : σ) (log : List Call) (w : Nat) (st1 : σ) (log1 : List Call)
    (hB : 0 < blockSize) (hpos : pos + length < U64)
    (h : WriteChunk (recClient client) (st, log) blockSize chunkId version pos length buf bufPos
      append = some (w, (st1, log1))) :
    ∃ ops, log1 = log ++ ops ∧ (∀ op ∈ ops, StoreCallOf chunkId version op) ∧
      ((w = length ∧ ∀ op ∈ ops, op.storeFailed = false) ∨
       (w = U64 - 1 ∧ ∃ init last, ops = init ++ [last] ∧ last.storeFailed = true ∧
          ∀ x ∈ init, x.storeFailed = false)) := by
  unfold WriteChunk at h
  have := writeChunkLoop_rec client blockSize chunkId version _ hB _ _ _ _ _ _ _ _ _ _ _
    (fun _ => ⟨Nat.mod_lt _ hB, by have := Nat.mod_le pos blockSize; omega⟩)
    (by omega) h
  simpa using this

theorem GetChunkId_rec {σ : Type} (rpc : Services σ) (st : σ) (log : List Call)
    (chunkSize : Nat) (inode : Inode) (index : Nat) (r : Int) (cid : Option Nat) (st1 : σ)
    (log1 : List Call)
    (h : GetChunkId (recServices rpc) (st, log) chunkSize inode index = (r, cid, (st1, log1))) :
    (log1 = log ∧ r = 0 ∧ cid ≠ none) ∨
    (log1 = log ++ [.alloc inode.fsid cid] ∧ (cid = none → r = -1) ∧ (cid ≠ none → r = 0)) := by
  unfold GetChunkId at h
  have hsv : (recServices rpc).AllocateS3Chunk (st, log) inode.fsid =
      ((rpc.AllocateS3Chunk st inode.fsid).1, ((rpc.AllocateS3Chunk st inode.fsid).2,
        log ++ [.alloc inode.fsid (rpc.AllocateS3Chunk st inode.fsid).1])) := rfl
  rw [hsv] at h
  rcases hr : rpc.AllocateS3Chunk st inode.fsid with ⟨_ | k, st2⟩
  · rw [hr] at h
    split_ifs at h
    · simp only [Prod.mk.injEq] at h
      obtain ⟨rfl, rfl, rfl, rfl⟩ := h
      exact Or.inr ⟨rfl, fun _ => rfl, fun hne => absurd rfl hne⟩
    · split at h
      · simp only [Prod.mk.injEq] at h
        obtain ⟨rfl, rfl, rfl, rfl⟩ := h
        exact Or.inl ⟨rfl, rfl, fun hc => nomatch hc⟩
      · simp only [Prod.mk.injEq] at h
        obtain ⟨rfl, rfl, rfl, rfl⟩ := h
        exact Or.inr ⟨rfl, fun _ => rfl, fun hne => absurd rfl hne⟩
  · rw [hr] at h
    split_ifs at h
    · simp only [Prod.mk.injEq] at h
      obtain ⟨rfl, rfl, rfl, rfl⟩ := h
      exact Or.inr ⟨rfl, (fun hc => nomatch hc), fun _ => rfl⟩
    · split at h
      · simp only [Prod.mk.injEq] at h
        obtain ⟨rfl, rfl, rfl, rfl⟩ := h
        exact Or.inl ⟨rfl, rfl, fun hc => nomatch hc⟩
      · simp only [Prod.mk.injEq] at h
        obtain ⟨rfl, rfl, rfl, rfl⟩ := h
        exact Or.inr ⟨rfl, (fun hc => nomatch hc), fun _ => rfl⟩

theorem slices_exist (chunkSize : Nat) (hC : 0 < chunkSize) :
    ∀ (fuel length pos : Nat), length ≤ fuel → pos + length < U64 →
      ∃ l, SlicesOf chunkSize pos length l ∧ (length ≠ 0 → l ≠ []) := by
  intro fuel
  induction fuel with
  | zero =>
    intro length pos hf _
    have h0 : length = 0 := by omega
    subst h0
    exact ⟨[], rfl, fun h => absurd rfl h⟩
  | succ fuel ih =>
    intro length pos hf hend
    by_cases h0 : length = 0
    · subst h0
      exact ⟨[], rfl, fun h => absurd rfl h⟩
    · obtain ⟨n0, n1, _, _, n4, n5⟩ := chunk_cut chunkSize pos length hC h0 hend
      generalize (if add64 (pos % chunkSize) length > chunkSize then
        sub64 chunkSize (pos % chunkSize) else length) = n at n0 n1 n4 n5
      obtain ⟨l, hl, _⟩ := ih (length - n) (pos + n) (by omega) (by omega)
      refine ⟨(pos, n) :: l, ?_, fun _ => List.cons_ne_nil _ _⟩
      unfold SlicesOf
      exact ⟨rfl, n0, n1, n4, fun hlt => (n5 hlt).2.1, hl⟩

theorem AllOk.append {a b : List Call} (ha : AllOk a) (hb : AllOk b) : AllOk (a ++ b) := by
  intro op hop
  rcases List.mem_append.1 hop with h | h
  · exact ha op h
  · exact hb op h

theorem FailsLast.after {a b : List Call} (ha : AllOk a) (hb : FailsLast b) :
    FailsLast (a ++ b) := by
  obtain ⟨init, last, e, f, g⟩ := hb
  exact ⟨a ++ init, last, by rw [e, List.append_assoc], f, ha.append g⟩

theorem writeLoopT_rec {σ : Type} (client : S3Client σ) (rpc : Services σ)
    (blockSize chunkSize : Nat) (buf : Nat → Nat) (version : Nat) (hB : 0 < blockSize)
    (hC : 0 < chunkSize) :
    ∀ (fuel : Nat) (st : σ) (log : List Call) (inode : Inode)
      (pos index chunkPos length writeOffset total : Nat) (append : Bool)
      (calls : List MergeCall) (ret : Int) (inode1 : Inode) (st1 : σ) (log1 : List Call)
      (calls1 : List MergeCall),
      (length ≠ 0 → index = pos / chunkSize ∧ chunkPos = pos % chunkSize) →
      pos + length < U64 → length < 9223372036854775808 → writeOffset + length < U64 →
      total + length < U64 →
      writeLoopT (recClient client) (recServices rpc) blockSize chunkSize buf version fuel
        (st, log) inode index chunkPos length writeOffset total append calls =
        some ((ret, inode1, (st1, log1)), calls1) →
      ∃ new ops, calls1 = calls ++ new ∧ log1 = log ++ ops ∧
        (∀ c ∈ new, c.version = version) ∧ (∀ op ∈ ops, LoopCallOf version op) ∧
        ((ret = toInt32 (total + length) ∧
            inode1 = { inode with s3ChunkInfoList := mergeAll inode.s3ChunkInfoList new,
                                  version := version } ∧
            SlicesOf chunkSize pos length (new.map (fun c => (c.offset, c.len))) ∧ AllOk ops) ∨
         (ret = -1 ∧
            inode1 = { inode with s3ChunkInfoList := mergeAll inode.s3ChunkInfoList new } ∧
            (∃ rest, rest ≠ [] ∧
              SlicesOf chunkSize pos length (new.map (fun c => (c.offset, c.len)) ++ rest)) ∧
            FailsLast ops)) := by
  intro fuel
  induction fuel with
  | zero =>
    intro st log inode pos index chunkPos length writeOffset total append calls ret inode1 st1
      log1 calls1 _ _ _ _ _ h
    unfold writeLoopT at h
    split_ifs at h with h0
    simp only [Option.some.injEq, Prod.mk.injEq] at h
    obtain ⟨⟨rfl, rfl, rfl, rfl⟩, rfl⟩ := h
    subst h0
    exact ⟨[], [], by simp, by simp, (fun c hc => nomatch hc), (fun c hc => nomatch hc),
      Or.inl ⟨rfl, rfl, rfl, (fun c hc => nomatch hc)⟩⟩
  | succ fuel ih =>
    intro st log inode pos index chunkPos length writeOffset total append calls ret inode1 st1
      log1 calls1 hidx hend hl63 hwo htot h
    rw [writeLoopT] at h
    by_cases h0 : length = 0
    · rw [if_pos h0] at h
      simp only [Option.some.injEq, Prod.mk.injEq] at h
      obtain ⟨⟨rfl, rfl, rfl, rfl⟩, rfl⟩ := h
      subst h0
      exact ⟨[], [], by simp, by simp, (fun c hc => nomatch hc), (fun c hc => nomatch hc),
        Or.inl ⟨rfl, rfl, rfl, (fun c hc => nomatch hc)⟩⟩
    · rw [if_neg h0] at h
      obtain ⟨rfl, rfl⟩ := hidx h0
      obtain ⟨n0, n1, n2, n3, n4, n5⟩ := chunk_cut chunkSize pos length hC h0 hend
      simp only at h
      generalize (if add64 (pos % chunkSize) length > chunkSize then
        sub64 chunkSize (pos % chunkSize) else length) = n at h n0 n1 n2 n4 n5
      obtain ⟨rest0, hrest0, hne0⟩ := slices_exist chunkSize hC length length pos (le_refl _) hend
      rcases hg : GetChunkId (recServices rpc) (st, log) chunkSize inode (pos / chunkSize) with
        ⟨r, cid, st2, log2⟩
      rw [hg] at h
      have hgr := GetChunkId_rec rpc st log chunkSize inode (pos / chunkSize) r cid st2 log2 hg
      -- the calls recorded by `GetChunkId`
      have hpre : ∃ pre, log2 = log ++ pre ∧ (∀ op ∈ pre, LoopCallOf version op) ∧
          (cid = none → r = -1 ∧ FailsLast pre) ∧ (cid ≠ none → r = 0 ∧ AllOk pre) := by
        rcases hgr with ⟨a, b, c⟩ | ⟨a, b, c⟩
        · exact ⟨[], by simp [a], (fun op hop => nomatch hop), fun hc => absurd hc c,
            fun _ => ⟨b, (fun op hop => nomatch hop)⟩⟩
        · refine ⟨[.alloc inode.fsid cid], a, ?_, ?_, ?_⟩
          · intro op hop
            rw [List.mem_singleton.1 hop]
            exact Or.inr ⟨_, _, rfl⟩
          · intro hc
            subst hc
            exact ⟨b rfl, [], _, rfl, Or.inr rfl, (fun op hop => nomatch hop)⟩
          · intro hc
            refine ⟨c hc, ?_⟩
            intro op hop
            rw [List.mem_singleton.1 hop]
            cases cid with
            | none => exact absurd rfl hc
            | some k => exact ⟨rfl, rfl⟩
      obtain ⟨pre, hlog2, hpre1, hpre2, hpre3⟩ := hpre
      cases cid with
      | none =>
        simp only [Option.some.injEq, Prod.mk.injEq] at h
        obtain ⟨⟨rfl, rfl, rfl, rfl⟩, rfl⟩ := h
        obtain ⟨hr, hf⟩ := hpre2 rfl
        exact ⟨[], pre, by simp, hlog2, (fun c hc => nomatch hc), hpre1,
          Or.inr ⟨hr, rfl, ⟨rest0, hne0 h0, by simpa using hrest0⟩, hf⟩⟩
      | some k =>
        obtain ⟨hr, hok⟩ := hpre3 (fun hc => nomatch hc)
        subst hr
        simp only [lt_self_iff_false, if_false] at h
        have hm := Nat.mod_le pos chunkSize
        rcases hw : WriteChunk (recClient client) (st2, log2) blockSize k version
          (pos % chunkSize) n buf writeOffset append with _ | ⟨wl, st3, log3⟩
        · rw [hw] at h
          cases h
        · rw [hw] at h
          simp only at h
          obtain ⟨ops2, hlog3, hops2, hres⟩ := WriteChunk_rec client blockSize k version
            (pos % chunkSize) n buf writeOffset append st2 log2 wl st3 log3 hB (by omega) hw
          have hops2L : ∀ op ∈ pre ++ ops2, LoopCallOf version op := by
            intro op hop
            rcases List.mem_append.1 hop with hx | hx
            · exact hpre1 op hx
            · exact Or.inl ⟨k, hops2 op hx⟩
          rcases hres with ⟨hwl, hclean⟩ | ⟨hwl, init, last, e, f, g⟩
          · subst hwl
            have hok2 : AllOk (pre ++ ops2) :=
              hok.append (fun op hop => ⟨hclean op hop, (hops2 op hop).not_allocFailed⟩)
            rw [if_neg (by omega), n3, sub64_eq n1 (by omega),
              add64_eq (show writeOffset + wl < U64 by omega),
              add64_eq (show total + wl < U64 by omega),
              add64_eq (show pos % chunkSize + wl < U64 by omega)] at h
            obtain ⟨new, ops, e1, e2, e3, e4, e5⟩ := ih st3 log3
              { inode with s3ChunkInfoList :=
                  UpdateInodeChunkInfo inode.s3ChunkInfoList k version pos wl }
              (pos + wl) (add64 (pos / chunkSize) 1) ((pos % chunkSize + wl) % chunkSize)
              (length - wl) (writeOffset + wl) (total + wl) false
              (calls ++ [⟨k, version, pos, wl⟩]) ret inode1 st1 log1 calls1
              (by
                intro hne
                obtain ⟨a, b, c⟩ := n5 (by omega)
                rw [a, Nat.mod_self, b, c]
                exact ⟨rfl, rfl⟩)
              (by omega) (by omega) (by omega) (by omega) h
            refine ⟨⟨k, version, pos, wl⟩ :: new, pre ++ ops2 ++ ops, by rw [e1]; simp,
              by rw [e2, hlog3, hlog2]; simp, ?_, ?_, ?_⟩
            · intro c hc
              rcases List.mem_cons.1 hc with hx | hx
              · rw [hx]
              · exact e3 c hx
            · intro op hop
              rcases List.mem_append.1 hop with hx | hx
              · exact hops2L op hx
              · exact e4 op hx
            · rcases e5 with ⟨a, b, c, d⟩ | ⟨a, b, ⟨rest, hrne, c⟩, d⟩
              · refine Or.inl ⟨?_, ?_, ?_, hok2.append d⟩
                · rw [a]
                  have : total + wl + (length - wl) = total + length := by omega
                  rw [this]
                · rw [b, mergeAll_cons]
                · simp only [List.map_cons]
                  unfold SlicesOf
                  exact ⟨rfl, n0, n1, n4, fun hlt => (n5 hlt).2.1, c⟩
              · refine Or.inr ⟨a, ?_, ⟨rest, hrne, ?_⟩, FailsLast.after hok2 d⟩
                · rw [b, mergeAll_cons]
                · simp only [List.map_cons, List.cons_append]
                  unfold SlicesOf
                  exact ⟨rfl, n0, n1, n4, fun hlt => (n5 hlt).2.1, c⟩
          · subst hwl
            rw [if_pos (by unfold U64; omega)] at h
            simp only [Option.some.injEq, Prod.mk.injEq] at h
            obtain ⟨⟨rfl, rfl, rfl, rfl⟩, rfl⟩ := h
            refine ⟨[], pre ++ ops2, by simp, by rw [hlog3, hlog2]; simp,
              (fun c hc => nomatch hc), hops2L,
              Or.inr ⟨toInt32_minus_one, rfl, ⟨rest0, hne0 h0, by simpa using hrest0⟩, ?_⟩⟩
            exact FailsLast.after hok ⟨init, last, e, Or.inl f,
              fun op hop => ⟨g op hop,
                (hops2 op (by rw [e]; exact List.mem_append_left _ hop)).not_allocFailed⟩⟩

/-! ### The calls recorded during `Write` -/

theorem WriteT_rec {σ : Type} (client : S3Client σ) (rpc : Services σ)
    (blockSize chunkSize : Nat) (hB : 0 < blockSize) (hC : 0 < chunkSize) (st : σ)
    (log : List Call) (inode : Inode) (offset length : Nat) (buf : Nat → Nat) (uninit : Nat)
    (hl63 : length < 9223372036854775808) (hend : offset + length < U64)
    (ret : Int) (inode1 : Inode) (st1 : σ) (log1 : List Call) (calls : List MergeCall)
    (h : WriteT (recClient client) (recServices rpc) blockSize chunkSize (st, log) inode offset
      length buf uninit = some ((ret, inode1, (st1, log1)), calls)) :
    ∃ v pre ops, log1 = log ++ pre ++ ops ∧
      (inode.length = 0 → v = 0 ∧ pre = []) ∧
      (inode.length ≠ 0 → IsOverlap inode.s3ChunkInfoList offset length = true →
        (∃ res, pre = [.bump inode.inodeid inode.fsid res]) ∧
        ∀ x s1, rpc.UpdateInodeS3Version st inode.inodeid inode.fsid = (.ok x, s1) → v = x) ∧
      (inode.length ≠ 0 → IsOverlap inode.s3ChunkInfoList offset length = false →
        pre = [] ∧ ∀ e, inode.s3ChunkInfoList.getLast? = some e → v = e.version) ∧
      (∀ c ∈ calls, c.version = v) ∧ (∀ op ∈ ops, LoopCallOf v op) ∧
      ((ret = toInt32 length ∧
          inode1 = { inode with s3ChunkInfoList := mergeAll inode.s3ChunkInfoList calls,
                                version := v } ∧
          SlicesOf chunkSize offset length (calls.map (fun c => (c.offset, c.len))) ∧
          AllOk ops) ∨
       (ret = -1 ∧
          inode1 = { inode with s3ChunkInfoList := mergeAll inode.s3ChunkInfoList calls } ∧
          (∃ rest, rest ≠ [] ∧
            SlicesOf chunkSize offset length (calls.map (fun c => (c.offset, c.len)) ++ rest)) ∧
          FailsLast ops)) := by
  have key : ∀ (version : Nat) (s : σ) (lg : List Call) (append : Bool),
      writeLoopT (recClient client) (recServices rpc) blockSize chunkSize buf version length
        (s, lg) inode (offset / chunkSize) (offset % chunkSize) length 0 0 append [] =
        some ((ret, inode1, (st1, log1)), calls) →
      ∃ ops, log1 = lg ++ ops ∧
        (∀ c ∈ calls, c.version = version) ∧ (∀ op ∈ ops, LoopCallOf version op) ∧
        ((ret = toInt32 length ∧
            inode1 = { inode with s3ChunkInfoList := mergeAll inode.s3ChunkInfoList calls,
                                  version := version } ∧
            SlicesOf chunkSize offset length (calls.map (fun c => (c.offset, c.len))) ∧
            AllOk ops) ∨
         (ret = -1 ∧
            inode1 = { inode with s3ChunkInfoList := mergeAll inode.s3ChunkInfoList calls } ∧
            (∃ rest, rest ≠ [] ∧
              SlicesOf chunkSize offset length
                (calls.map (fun c => (c.offset, c.len)) ++ rest)) ∧
            FailsLast ops)) := by
    intro version s lg append hw
    obtain ⟨new, ops, e1, e2, e3, e4, e5⟩ := writeLoopT_rec client rpc blockSize chunkSize buf
      version hB hC length s lg inode offset (offset / chunkSize) (offset % chunkSize) length 0
      0 append [] ret inode1 st1 log1 calls (fun _ => ⟨rfl, rfl⟩) hend hl63
      (by unfold U64 at *; omega) (by unfold U64 at *; omega) hw
    rw [List.nil_append] at e1
    subst e1
    rw [Nat.zero_add] at e5
    exact ⟨ops, e2, e3, e4, e5⟩
  unfold WriteT at h
  by_cases h0 : inode.length = 0
  · rw [if_pos h0] at h
    obtain ⟨ops, a, b, c, d⟩ := key _ _ _ _ h
    exact ⟨0, [], ops, by simpa using a, fun _ => ⟨rfl, rfl⟩, fun hn => absurd h0 hn,
      fun hn => absurd h0 hn, b, c, d⟩
  · rw [if_neg h0] at h
    by_cases hov : IsOverlap inode.s3ChunkInfoList offset length = true
    · rw [if_pos hov] at h
      have hsv : (recServices rpc).UpdateInodeS3Version (st, log) inode.inodeid inode.fsid =
          ((rpc.UpdateInodeS3Version st inode.inodeid inode.fsid).1,
            ((rpc.UpdateInodeS3Version st inode.inodeid inode.fsid).2,
              log ++ [.bump inode.inodeid inode.fsid
                (match (rpc.UpdateInodeS3Version st inode.inodeid inode.fsid).1 with
                  | .ok v => some v
                  | .error _ => none)])) := rfl
      rw [hsv] at h
      rcases hr : rpc.UpdateInodeS3Version st inode.inodeid inode.fsid with ⟨_ | x, s2⟩
      · rw [hr] at h
        obtain ⟨ops, a, b, c, d⟩ := key _ _ _ _ h
        exact ⟨uninit, _, ops, a, fun hn => absurd hn h0,
          fun _ _ => ⟨⟨_, rfl⟩, fun y s1 hy => nomatch hy⟩,
          fun _ hn => absurd hov (by rw [hn]; simp), b, c, d⟩
      · rw [hr] at h
        obtain ⟨ops, a, b, c, d⟩ := key _ _ _ _ h
        refine ⟨x, _, ops, a, fun hn => absurd hn h0,
          fun _ _ => ⟨⟨_, rfl⟩, fun y s1 hy => ?_⟩,
          fun _ hn => absurd hov (by rw [hn]; simp), b, c, d⟩
        simp only [Prod.mk.injEq, Except.ok.injEq] at hy
        exact hy.1
    · rw [if_neg hov] at h
      cases hl : inode.s3ChunkInfoList.getLast? with
      | none =>
        rw [hl] at h
        cases h
      | some last =>
        rw [hl] at h
        simp only at h
        obtain ⟨ops, a, b, c, d⟩ := key _ _ _ _ h
        refine ⟨last.version, [], ops, by simpa using a, fun hn => absurd hn h0,
          fun _ hn => absurd hn hov, fun _ _ => ⟨rfl, fun e he => ?_⟩, b, c, d⟩
        cases he
        rfl

/-! ### `SortByOffset` keeps the order of records with equal offset -/

theorem bubblePass_filter (o : Nat) : ∀ (k : Nat) (l : List S3ChunkInfo),
    (bubblePass k l).filter (fun c => c.offset == o) = l.filter (fun c => c.offset == o) := by
  intro k
  induction k with
  | zero => intro l; unfold bubblePass; rfl
  | succ k ih =>
    intro l
    match l with
    | [] => unfold bubblePass; rfl
    | [a] => unfold bubblePass; rfl
    | a :: b :: rest =>
      unfold bubblePass
      by_cases h : a.offset > b.offset
      · rw [if_pos h]
        have e := ih (a :: rest)
        simp only [List.filter_cons] at e ⊢
        rw [e]
        by_cases ha : a.offset = o
        · have hb : ¬ b.offset = o := by omega
          simp [ha, hb]
        · simp [ha]
      · rw [if_neg h]
        have e := ih (b :: rest)
        simp only [List.filter_cons] at e ⊢
        rw [e]

theorem bubbleLoop_filter (o : Nat) : ∀ (todo i : Nat) (l : List S3ChunkInfo),
    (bubbleLoop todo i l).filter (fun c => c.offset == o) =
      l.filter (fun c => c.offset == o) := by
  intro todo
  induction todo with
  | zero => intro i l; unfold bubbleLoop; rfl
  | succ todo ih =>
    intro i l
    unfold bubbleLoop
    rw [ih, bubblePass_filter]

theorem SortByOffset_stable (o : Nat) (l : List S3ChunkInfo) :
    (SortByOffset l).filter (fun c => c.offset == o) = l.filter (fun c => c.offset == o) :=
  bubbleLoop_filter o _ _ _

/-! ### The store operations of `WriteChunk`, block by block -/

theorem blockOps_one (blockSize chunkId version bi bp length : Nat) (buf : Nat → Nat)
    (wo : Nat) (append : Bool) (hl : length ≠ 0) (hfit : bp + length ≤ blockSize) :
    blockOps blockSize chunkId version (bi * blockSize + bp) length buf wo append =
      [if append = true then .append (GenerateObjectName chunkId bi version)
          (bufSlice buf wo length)
        else .upload (GenerateObjectName chunkId bi version) (bufSlice buf wo length)] := by
  have hd : (bi * blockSize + bp) / blockSize = bi :=
    div_eq_of_range blockSize bi _ (by omega) (by omega)
  have hd2 : (bi * blockSize + bp + length - 1) / blockSize = bi :=
    div_eq_of_range blockSize bi _ (by omega) (by omega)
  unfold blockOps
  rw [if_neg hl, hd, hd2, Nat.sub_self, Nat.zero_add]
  have hmax : max (bi * blockSize + bp) (bi * blockSize) = bi * blockSize + bp :=
    max_eq_left (by omega)
  have hmin : min (bi * blockSize + bp + length) ((bi + 1) * blockSize) =
      bi * blockSize + bp + length := by
    rw [Nat.add_mul, Nat.one_mul]
    exact min_eq_left (by omega)
  have hr : List.range 1 = [0] := rfl
  simp only [hr, List.map_cons, List.map_nil, Nat.add_zero, true_and, hmax, hmin,
    Nat.sub_self, Nat.add_sub_cancel_left]

theorem blockOps_cons (blockSize chunkId version bi bp length : Nat) (buf : Nat → Nat)
    (wo : Nat) (append : Bool) (hB : 0 < blockSize) (hbp : bp < blockSize)
    (hover : bp + length > blockSize) :
    blockOps blockSize chunkId version (bi * blockSize + bp) length buf wo append =
      (if append = true then .append (GenerateObjectName chunkId bi version)
          (bufSlice buf wo (blockSize - bp))
        else .upload (GenerateObjectName chunkId bi version)
          (bufSlice buf wo (blockSize - bp))) ::
      blockOps blockSize chunkId version ((bi + 1) * blockSize) (length - (blockSize - bp)) buf
        (wo + (blockSize - bp)) false := by
  have hd : (bi * blockSize + bp) / blockSize = bi :=
    div_eq_of_range blockSize bi _ (by omega) (by omega)
  have hd1 : (bi + 1) * blockSize / blockSize = bi + 1 := Nat.mul_div_cancel _ hB
  have hnext : (bi + 1) * blockSize = bi * blockSize + blockSize := by
    rw [Nat.add_mul, Nat.one_mul]
  have hsame : (bi + 1) * blockSize + (length - (blockSize - bp)) =
      bi * blockSize + bp + length := by omega
  have hq : bi + 1 ≤ (bi * blockSize + bp + length - 1) / blockSize := by
    rw [Nat.le_div_iff_mul_le hB]
    omega
  have hl1 : ¬ length = 0 := by omega
  have hl2 : ¬ length - (blockSize - bp) = 0 := by omega
  unfold blockOps
  rw [if_neg hl1, if_neg hl2, hd, hd1, hsame]
  generalize (bi * blockSize + bp + length - 1) / blockSize = q at hq
  have hc : q - bi + 1 = (q - (bi + 1) + 1) + 1 := by omega
  rw [hc, List.range_succ_eq_map, List.map_cons, List.map_map]
  congr 1
  · have hmax : max (bi * blockSize + bp) (bi * blockSize) = bi * blockSize + bp :=
      max_eq_left (by omega)
    have hmin : min (bi * blockSize + bp + length) (bi * blockSize + blockSize) =
        bi * blockSize + blockSize := min_eq_right (by omega)
    have hlen : bi * blockSize + blockSize - (bi * blockSize + bp) = blockSize - bp := by omega
    simp only [true_and, Nat.add_zero, hnext, hmax, hmin, Nat.sub_self, hlen]
  · apply List.map_congr_left
    intro j _
    have hi : (bi + 1) * blockSize ≤ (bi + (j + 1)) * blockSize :=
      Nat.mul_le_mul_right _ (by omega)
    have hidx : bi + 1 + j = bi + (j + 1) := by omega
    have hmax1 : max (bi * blockSize + bp) ((bi + (j + 1)) * blockSize) =
        (bi + (j + 1)) * blockSize := max_eq_right (by omega)
    have hmax2 : max ((bi + 1) * blockSize) ((bi + (j + 1)) * blockSize) =
        (bi + (j + 1)) * blockSize := max_eq_right hi
    have hoff : wo + ((bi + (j + 1)) * blockSize - (bi * blockSize + bp)) =
        wo + (blockSize - bp) + ((bi + (j + 1)) * blockSize - (bi + 1) * blockSize) := by
      omega
    simp only [Function.comp, Nat.succ_eq_add_one, hidx, hmax1, hmax2, hoff,
      Nat.add_one_ne_zero, false_and, if_false, Bool.false_eq_true, and_false]

theorem writeChunkLoop_ops {σ : Type} (client : S3Client σ)
    (hup : ∀ s name data, 0 ≤ (client.Upload s name data).1)
    (hap : ∀ s name data, 0 ≤ (client.Append s name data).1)
    (blockSize chunkId version : Nat) (buf : Nat → Nat) (hB : 0 < blockSize) :
    ∀ (fuel : Nat) (st : σ) (log : List Call) (blockIndex blockPos length writeOffset : Nat)
      (append : Bool),
      length ≤ fuel →
      (length ≠ 0 → blockPos < blockSize ∧ blockIndex * blockSize + blockPos + length < U64) →
      writeOffset + length < U64 →
      ∃ st1 ops,
        writeChunkLoop (recClient client) blockSize chunkId version buf fuel (st, log)
          blockIndex blockPos length writeOffset append =
          some (writeOffset + length, (st1, log ++ ops)) ∧
        ops.map Call.storeOp =
          (blockOps blockSize chunkId version (blockIndex * blockSize + blockPos) length buf
            writeOffset append).map some := by
  intro fuel
  induction fuel with
  | zero =>
    intro st log blockIndex blockPos length writeOffset append hf _ _
    have h0 : length = 0 := by omega
    subst h0
    exact ⟨st, [], by simp [writeChunkLoop], by simp [blockOps]⟩
  | succ fuel ih =>
    intro st log blockIndex blockPos length writeOffset append hf hpos hwo
    by_cases h0 : length = 0
    · subst h0
      exact ⟨st, [], by simp [writeChunkLoop], by simp [blockOps]⟩
    · obtain ⟨hbp, hsum⟩ := hpos h0
      have hle : blockIndex * blockSize ≤ blockIndex * blockSize + blockPos := Nat.le_add_right _ _
      rw [writeChunkLoop, if_neg h0]
      simp only
      rw [add64_eq (show blockPos + length < U64 by omega)]
      -- the call of this iteration and what it records
      have hcall : ∀ n, ∃ (r : Int) (s2 : σ) (op : Call),
          (if append = true then
            (recClient client).Append (st, log) (GenerateObjectName chunkId blockIndex version)
              (bufSlice buf writeOffset n)
          else
            (recClient client).Upload (st, log) (GenerateObjectName chunkId blockIndex version)
              (bufSlice buf writeOffset n)) = (r, (s2, log ++ [op])) ∧ ¬ r < 0 ∧
          op.storeOp = some (if append = true then
            .append (GenerateObjectName chunkId blockIndex version) (bufSlice buf writeOffset n)
            else .upload (GenerateObjectName chunkId blockIndex version)
              (bufSlice buf writeOffset n)) := by
        intro n
        cases append
        · exact ⟨_, _, _, rfl, by simpa using hup _ _ _, rfl⟩
        · exact ⟨_, _, _, rfl, by simpa using hap _ _ _, rfl⟩
      by_cases hc : blockPos + length > blockSize
      · rw [if_pos hc, sub64_eq (le_of_lt hbp) (by omega)]
        obtain ⟨r, s2, op, hr, hneg, hop⟩ := hcall (blockSize - blockPos)
        rw [hr]
        simp only
        rw [if_neg hneg, sub64_eq (by omega) (by omega),
          add64_eq (show writeOffset + (blockSize - blockPos) < U64 by omega),
          add64_eq (show blockPos + (blockSize - blockPos) < U64 by omega)]
        have hbs : blockPos + (blockSize - blockPos) = blockSize := by omega
        have hnext : (blockIndex + 1) * blockSize = blockIndex * blockSize + blockSize := by
          rw [Nat.add_mul, Nat.one_mul]
        have hidx : add64 blockIndex 1 = blockIndex + 1 := by
          apply add64_eq
          have : blockIndex + 1 ≤ (blockIndex + 1) * blockSize := Nat.le_mul_of_pos_right _ hB
          omega
        rw [hbs, Nat.mod_self, hidx]
        obtain ⟨st1, ops, e1, e2⟩ := ih s2 (log ++ [op]) (blockIndex + 1) 0
          (length - (blockSize - blockPos)) (writeOffset + (blockSize - blockPos)) false
          (by omega) (fun _ => ⟨hB, by omega⟩) (by omega)
        refine ⟨st1, op :: ops, ?_, ?_⟩
        · rw [e1]
          have : writeOffset + (blockSize - blockPos) + (length - (blockSize - blockPos)) =
              writeOffset + length := by omega
          rw [this]
          simp
        · rw [blockOps_cons blockSize chunkId version blockIndex blockPos length buf writeOffset
            append hB hbp hc, List.map_cons, List.map_cons, hop, e2, Nat.add_zero]
      · rw [if_neg hc]
        obtain ⟨r, s2, op, hr, hneg, hop⟩ := hcall length
        rw [hr]
        simp only
        rw [if_neg hneg, sub64_eq (le_refl _) (by omega), Nat.sub_self]
        have hexit : ∀ (a b c : Nat) (s : σ × List Call),
            writeChunkLoop (recClient client) blockSize chunkId version buf fuel s a b 0 c
              false = some (c, s) := by
          intro a b c s
          cases fuel <;> simp [writeChunkLoop]
        rw [hexit, add64_eq (by omega)]
        refine ⟨s2, [op], rfl, ?_⟩
        rw [blockOps_one blockSize chunkId version blockIndex blockPos length buf writeOffset
          append h0 (by omega), List.map_cons, List.map_cons, hop]
        rfl

theorem WriteChunk_ops {σ : Type} (client : S3Client σ)
    (hup : ∀ s name data, 0 ≤ (client.Upload s name data).1)
    (hap : ∀ s name data, 0 ≤ (client.Append s name data).1)
    (blockSize chunkId version pos length : Nat) (buf : Nat → Nat) (bufPos : Nat)
    (append : Bool) (st : σ) (log : List Call) (hB : 0 < blockSize)
    (hpos : pos + length < U64) :
    ∃ st1 ops,
      WriteChunk (recClient client) (st, log) blockSize chunkId version pos length buf bufPos
        append = some (length, (st1, log ++ ops)) ∧
      ops.map Call.storeOp =
        (blockOps blockSize chunkId version pos length (fun j => buf (bufPos + j)) 0
          append).map some := by
  unfold WriteChunk
  have e := Nat.div_add_mod' pos blockSize
  obtain ⟨st1, ops, h1, h2⟩ := writeChunkLoop_ops client hup hap blockSize chunkId version
    (fun j => buf (bufPos + j)) hB length st log (pos / blockSize) (pos % blockSize) length 0
    append (le_refl _) (fun _ => ⟨Nat.mod_lt _ hB, by omega⟩) (by omega)
  rw [Nat.zero_add] at h1
  rw [e] at h2
  exact ⟨st1, ops, h1, h2⟩

/-! ### The plan loop stays inside the caller's buffer -/

theorem planLoopT_fst :
    ∀ (chunks : List S3ChunkInfo) (offset length ro : Nat) (buf : Nat → Nat)
      (reqs : List S3ReadRequest) (heads fills : List (Nat × Nat)),
      (planLoopT chunks offset length ro buf reqs heads fills).1 =
        planLoop chunks offset length ro buf reqs := by
  intro chunks
  induction chunks with
  | nil =>
    intro offset length ro buf reqs heads fills
    unfold planLoopT planLoop
    split_ifs <;> rfl
  | cons tmp rest ih =>
    intro offset length ro buf reqs heads fills
    unfold planLoopT planLoop
    simp only
    split_ifs <;> first | rfl | exact ih _ _ _ _ _ _ _

theorem planLoopT_bounds :
    ∀ (chunks : List S3ChunkInfo) (offset length ro : Nat) (buf : Nat → Nat)
      (reqs : List S3ReadRequest) (heads fills : List (Nat × Nat)),
      (∀ c ∈ chunks, c.offset + c.len < U64) → offset + length < U64 →
      length < 2147483648 → ro + length < U64 →
      ∃ hs fs,
        (planLoopT chunks offset length ro buf reqs heads fills).2.1 = heads ++ hs ∧
        (planLoopT chunks offset length ro buf reqs heads fills).2.2 = fills ++ fs ∧
        (∀ h ∈ hs, h.1 + h.2 = ro + length) ∧
        (∀ f ∈ fs, ro ≤ f.1 ∧ f.1 + f.2 ≤ ro + length) := by
  intro chunks
  induction chunks with
  | nil =>
    intro offset length ro buf reqs heads fills _ _ _ _
    unfold planLoopT
    split_ifs with h0
    · refine ⟨[(ro, length)], [], rfl, by simp, ?_, (fun f hf => nomatch hf)⟩
      intro h hh
      rw [List.mem_singleton.1 hh]
    · refine ⟨[(ro, length)], [(ro, length)], rfl, rfl, ?_, ?_⟩
      · intro h hh
        rw [List.mem_singleton.1 hh]
      · intro f hf
        rw [List.mem_singleton.1 hf]
        exact ⟨le_refl _, le_refl _⟩
  | cons tmp rest ih =>
    intro offset length ro buf reqs heads fills hc hwin hlen hro
    have htmp : tmp.offset + tmp.len < U64 := hc tmp (List.mem_cons_self _ _)
    have hrest : ∀ c ∈ rest, c.offset + c.len < U64 := fun c h => hc c (List.mem_cons_of_mem _ h)
    -- what one further iteration contributes, from the state it starts in
    have hstep : ∀ (offset1 length1 ro1 : Nat) (buf1 : Nat → Nat) (reqs1 : List S3ReadRequest)
        (fs0 : List (Nat × Nat)), offset1 + length1 < U64 → length1 < 2147483648 →
        ro ≤ ro1 → ro1 + length1 = ro + length → (∀ f ∈ fs0, ro ≤ f.1 ∧ f.1 + f.2 ≤ ro + length) →
        ∃ hs fs,
          (planLoopT rest offset1 length1 ro1 buf1 reqs1 (heads ++ [(ro, length)])
            (fills ++ fs0)).2.1 = heads ++ hs ∧
          (planLoopT rest offset1 length1 ro1 buf1 reqs1 (heads ++ [(ro, length)])
            (fills ++ fs0)).2.2 = fills ++ fs ∧
          (∀ h ∈ hs, h.1 + h.2 = ro + length) ∧
          (∀ f ∈ fs, ro ≤ f.1 ∧ f.1 + f.2 ≤ ro + length) := by
      intro offset1 length1 ro1 buf1 reqs1 fs0 h1 h2 h5 h3 h4
      obtain ⟨hs, fs, a, b, c, d⟩ := ih offset1 length1 ro1 buf1 reqs1 (heads ++ [(ro, length)])
        (fills ++ fs0) hrest h1 h2 (by omega)
      refine ⟨(ro, length) :: hs, fs0 ++ fs, by rw [a]; simp, by rw [b]; simp, ?_, ?_⟩
      · intro h hh
        rcases List.mem_cons.1 hh with hx | hx
        · rw [hx]
        · rw [c h hx, h3]
      · intro f hf
        rcases List.mem_append.1 hf with hx | hx
        · exact h4 f hx
        · have := d f hx
          omega
    unfold planLoopT
    rw [add64_eq hwin, add64_eq htmp]
    by_cases h0 : length = 0
    · rw [if_pos h0]
      refine ⟨[(ro, length)], [], rfl, by simp, ?_, (fun f hf => nomatch hf)⟩
      intro h hh
      rw [List.mem_singleton.1 hh]
    rw [if_neg h0]
    by_cases hb1 : offset + length ≤ tmp.offset
    · rw [if_pos hb1]
      refine ⟨[(ro, length)], [(ro, length)], rfl, rfl, ?_, ?_⟩
      · intro h hh
        rw [List.mem_singleton.1 hh]
      · intro f hf
        rw [List.mem_singleton.1 hf]
        exact ⟨le_refl _, le_refl _⟩
    rw [if_neg hb1]
    by_cases hb2 : tmp.offset ≥ offset ∧ tmp.offset < offset + length
    · rw [if_pos hb2]
      have hgap : sub64 tmp.offset offset = tmp.offset - offset :=
        sub64_eq hb2.1 (by omega)
      have hn : int32AsU64 (tmp.offset - offset) = tmp.offset - offset :=
        int32AsU64_eq (by omega)
      simp only
      rw [hgap, hn, sub64_eq (show tmp.offset - offset ≤ length by omega) (by omega),
        add64_eq (show ro + (tmp.offset - offset) < U64 by omega),
        add64_eq (show tmp.offset + (length - (tmp.offset - offset)) < U64 by omega)]
      have hfill : ∀ f ∈ [(ro, tmp.offset - offset)],
          ro ≤ f.1 ∧ f.1 + f.2 ≤ ro + length := by
        intro f hf
        rw [List.mem_singleton.1 hf]
        exact ⟨le_refl _, by simp only; omega⟩
      by_cases hb3 : tmp.offset + (length - (tmp.offset - offset)) ≤ tmp.offset + tmp.len
      · rw [if_pos hb3,
          add64_eq (show ro + (tmp.offset - offset) + (length - (tmp.offset - offset)) < U64
            by omega)]
        exact hstep _ 0 _ _ _ _ (by omega) (by omega) (by omega) (by omega) hfill
      · rw [if_neg hb3, add64_eq htmp,
          sub64_eq (show tmp.len ≤ length - (tmp.offset - offset) by omega) (by omega),
          add64_eq (show ro + (tmp.offset - offset) + tmp.len < U64 by omega)]
        exact hstep _ _ _ _ _ _ (by omega) (by omega) (by omega) (by omega) hfill
    rw [if_neg hb2]
    by_cases hb4 : tmp.offset < offset ∧ tmp.offset + tmp.len > offset
    · rw [if_pos hb4]
      by_cases hb5 : offset + length ≤ tmp.offset + tmp.len
      · rw [if_pos hb5, add64_eq (show ro + length < U64 by omega)]
        have := hstep offset 0 (ro + length) buf
          (reqs ++ [⟨{ tmp with offset := offset, len := length }, ro⟩]) [] (by omega)
          (by omega) (by omega) (by omega) (fun f hf => nomatch hf)
        simpa using this
      · rw [if_neg hb5, sub64_eq (show offset ≤ tmp.offset + tmp.len by omega) (by omega),
          sub64_eq (show tmp.offset + tmp.len - offset ≤ length by omega) (by omega),
          add64_eq (show ro + (tmp.offset + tmp.len - offset) < U64 by omega)]
        have := hstep (tmp.offset + tmp.len) (length - (tmp.offset + tmp.len - offset))
          (ro + (tmp.offset + tmp.len - offset)) buf
          (reqs ++ [⟨{ tmp with offset := offset,
                                len := tmp.offset + tmp.len - offset }, ro⟩]) [] (by omega)
          (by omega) (by omega) (by omega) (fun f hf => nomatch hf)
        simpa using this
    · rw [if_neg hb4]
      have := hstep offset length ro buf reqs [] hwin hlen (le_refl _) rfl
        (fun f hf => nomatch hf)
      simpa using this

/-! ### The error results of `handleReadRequest` -/

theorem downloadLoop_error {σ : Type} (client : S3Client σ)
    (hneg : ∀ st name off n e, client.Download st name off n = .error e → e < 0)
    (st : σ) (blockSize chunkid version : Nat) :
    ∀ (fuel blockIndex blockPos len : Nat) (dataBuf : List Nat) (e : Int),
      downloadLoop client st blockSize chunkid version fuel blockIndex blockPos len dataBuf =
        some (.error e) → e < 0 := by
  intro fuel
  induction fuel with
  | zero =>
    intro blockIndex blockPos len dataBuf e h
    unfold downloadLoop at h
    split_ifs at h
    cases h
  | succ fuel ih =>
    intro blockIndex blockPos len dataBuf e h
    rw [downloadLoop] at h
    by_cases h0 : len = 0
    · rw [if_pos h0] at h
      cases h
    · rw [if_neg h0] at h
      simp only at h
      generalize (if add64 blockPos len > blockSize then sub64 blockSize blockPos else len) = n
        at h
      rcases hd : client.Download st (GenerateObjectName chunkid blockIndex version) blockPos n
        with x | data
      · rw [hd] at h
        simp only [Option.some.injEq, Except.error.injEq] at h
        rw [← h]
        exact hneg _ _ _ _ _ hd
      · rw [hd] at h
        exact ih _ _ _ _ _ h

theorem handleReadRequest_error {σ : Type} (client : S3Client σ)
    (hneg : ∀ st name off n e, client.Download st name off n = .error e → e < 0)
    (st : σ) (blockSize chunkSize fuel : Nat) :
    ∀ (reqs : List S3ReadRequest) (resps : List S3ReadResponse) (e : Int),
      handleReadRequest client st blockSize chunkSize fuel reqs resps = some (.error e) →
      e < 0 := by
  intro reqs
  induction reqs with
  | nil =>
    intro resps e h
    unfold handleReadRequest at h
    cases h
  | cons req rest ih =>
    intro resps e h
    rw [handleReadRequest] at h
    rcases hd : downloadLoop client st blockSize req.chunkInfo.chunkid req.chunkInfo.version fuel
        (req.chunkInfo.offset % chunkSize / blockSize)
        (req.chunkInfo.offset % chunkSize % blockSize) req.chunkInfo.len [] with _ | (x | data)
    · rw [hd] at h
      cases h
    · rw [hd] at h
      simp only [Option.some.injEq, Except.error.injEq] at h
      rw [← h]
      exact downloadLoop_error client hneg st blockSize _ _ _ _ _ _ _ _ hd
    · rw [hd] at h
      exact ih _ _ h

theorem Read_le {σ : Type} (client : S3Client σ)
    (hneg : ∀ st name off n e, client.Download st name off n = .error e → e < 0)
    (st : σ) (blockSize chunkSize fuel : Nat) (inode : Inode)
    (hl : ∀ e ∈ inode.s3ChunkInfoList, e.offset + e.len < U64)
    (offset length : Nat) (hwin : offset + length < U64) (hlen : length < 2147483648)
    (buf : Nat → Nat) (ret : Int) (out : Nat → Nat)
    (h : Read client st blockSize chunkSize fuel inode offset length buf = some (ret, out)) :
    ret ≤ (length : Int) := by
  unfold Read at h
  cases hg : GetReadChunks inode.s3ChunkInfoList with
  | none => simp [hg] at h
  | some chunks =>
    simp only [hg] at h
    have hnw : ∀ c ∈ SortByOffset chunks, c.offset + c.len < U64 := by
      intro c hc
      obtain ⟨e, he, _, h2, _⟩ := readChunksFrom_subRange _ hl _ [] chunks (fun t ht => ht)
        (fun w hw => nomatch hw) hg c ((SortByOffset_perm chunks).mem_iff.1 hc)
      have := hl e he
      omega
    obtain ⟨news, _, _, _, _, _, p6⟩ := planLoop_spec (SortByOffset chunks) offset length 0 buf []
      hnw hwin hlen (by unfold U64; omega)
    rw [Nat.zero_add] at p6
    rcases hh : handleReadRequest client st blockSize chunkSize fuel
      (planLoop (SortByOffset chunks) offset length 0 buf []).requests [] with _ | (e | resps)
    · rw [hh] at h
      cases h
    · rw [hh] at h
      simp only [Option.some.injEq, Prod.mk.injEq] at h
      have := handleReadRequest_error client hneg st blockSize chunkSize fuel _ _ _ hh
      omega
    · rw [hh] at h
      simp only [Option.some.injEq, Prod.mk.injEq] at h
      rw [← h.1, toInt32_small _ (by omega)]
      exact Int.ofNat_le.2 p6

theorem world_download_neg (st : MemWorld) (name : String) (off n : Nat) (e : Int)
    (h : worldClient.Download st name off n = .error e) : e < 0 := by
  simp only [worldClient, memClient] at h
  split at h
  · simp only [Except.error.injEq] at h
    omega
  · split_ifs at h
    simp only [Except.error.injEq] at h
    omega

/-! ### The calls recorded during `Write`, slice by slice -/

theorem blockOps_shift (blockSize chunkId version pos length : Nat) (buf : Nat → Nat)
    (p : Nat) (append : Bool) :
    blockOps blockSize chunkId version pos length (fun j => buf (p + j)) 0 append =
      blockOps blockSize chunkId version pos length buf p append := by
  unfold blockOps bufSlice
  simp only [Nat.zero_add, Nat.add_assoc]

theorem writeChunkLoop_trace {σ : Type} (client : S3Client σ)
    (blockSize chunkId version : Nat) (buf : Nat → Nat) (hB : 0 < blockSize) :
    ∀ (fuel : Nat) (st : σ) (log : List Call) (blockIndex blockPos length writeOffset : Nat)
      (append : Bool),
      length ≤ fuel →
      (length ≠ 0 → blockPos < blockSize ∧ blockIndex * blockSize + blockPos + length < U64) →
      writeOffset + length < U64 →
      ∃ w st1 ops,
        writeChunkLoop (recClient client) blockSize chunkId version buf fuel (st, log)
          blockIndex blockPos length writeOffset append = some (w, (st1, log ++ ops)) ∧
        ((w = writeOffset + length ∧ (∀ op ∈ ops, op.storeFailed = false) ∧
            ops.map Call.storeOp =
              (blockOps blockSize chunkId version (blockIndex * blockSize + blockPos) length buf
                writeOffset append).map some) ∨
         (w = U64 - 1 ∧ ∃ init last, ops = init ++ [last] ∧ last.storeFailed = true ∧
            (∀ x ∈ init, x.storeFailed = false) ∧
            ops.map Call.storeOp =
              ((blockOps blockSize chunkId version (blockIndex * blockSize + blockPos) length
                buf writeOffset append).take ops.length).map some)) := by
  intro fuel
  induction fuel with
  | zero =>
    intro st log blockIndex blockPos length writeOffset append hf _ _
    have h0 : length = 0 := by omega
    subst h0
    exact ⟨writeOffset, st, [], by simp [writeChunkLoop],
      Or.inl ⟨rfl, (fun op hop => nomatch hop), by simp [blockOps]⟩⟩
  | succ fuel ih =>
    intro st log blockIndex blockPos length writeOffset append hf hpos hwo
    by_cases h0 : length = 0
    · subst h0
      exact ⟨writeOffset, st, [], by simp [writeChunkLoop],
        Or.inl ⟨rfl, (fun op hop => nomatch hop), by simp [blockOps]⟩⟩
    · obtain ⟨hbp, hsum⟩ := hpos h0
      have hle : blockIndex * blockSize ≤ blockIndex * blockSize + blockPos := Nat.le_add_right _ _
      rw [writeChunkLoop, if_neg h0]
      simp only
      rw [add64_eq (show blockPos + length < U64 by omega)]
      -- the call of this iteration and what it records
      have hcall : ∀ n, ∃ (r : Int) (s2 : σ) (op : Call),
          (if append = true then
            (recClient client).Append (st, log) (GenerateObjectName chunkId blockIndex version)
              (bufSlice buf writeOffset n)
          else
            (recClient client).Upload (st, log) (GenerateObjectName chunkId blockIndex version)
              (bufSlice buf writeOffset n)) = (r, (s2, log ++ [op])) ∧
          op.storeFailed = decide (r < 0) ∧
          op.storeOp = some (if append = true then
            .append (GenerateObjectName chunkId blockIndex version) (bufSlice buf writeOffset n)
            else .upload (GenerateObjectName chunkId blockIndex version)
              (bufSlice buf writeOffset n)) := by
        intro n
        cases append
        · exact ⟨_, _, _, rfl, rfl, rfl⟩
        · exact ⟨_, _, _, rfl, rfl, rfl⟩
      by_cases hc : blockPos + length > blockSize
      · rw [if_pos hc, sub64_eq (le_of_lt hbp) (by omega)]
        obtain ⟨r, s2, op, hr, hfail, hop⟩ := hcall (blockSize - blockPos)
        rw [hr]
        simp only
        have hbo := blockOps_cons blockSize chunkId version blockIndex blockPos length buf
          writeOffset append hB hbp hc
        by_cases hneg : r < 0
        · rw [if_pos hneg]
          refine ⟨U64 - 1, s2, [op], rfl, Or.inr ⟨rfl, [], op, rfl, ?_,
            (fun x hx => nomatch hx), ?_⟩⟩
          · rw [hfail]; simpa using hneg
          · rw [hbo]
            simp [hop]
        · rw [if_neg hneg, sub64_eq (by omega) (by omega),
            add64_eq (show writeOffset + (blockSize - blockPos) < U64 by omega),
            add64_eq (show blockPos + (blockSize - blockPos) < U64 by omega)]
          have hbs : blockPos + (blockSize - blockPos) = blockSize := by omega
          have hnext : (blockIndex + 1) * blockSize = blockIndex * blockSize + blockSize := by
            rw [Nat.add_mul, Nat.one_mul]
          have hidx : add64 blockIndex 1 = blockIndex + 1 := by
            apply add64_eq
            have : blockIndex + 1 ≤ (blockIndex + 1) * blockSize :=
              Nat.le_mul_of_pos_right _ hB
            omega
          rw [hbs, Nat.mod_self, hidx]
          have hok : op.storeFailed = false := by rw [hfail]; simpa using hneg
          obtain ⟨w, st1, ops, e1, e2⟩ := ih s2 (log ++ [op]) (blockIndex + 1) 0
            (length - (blockSize - blockPos)) (writeOffset + (blockSize - blockPos)) false
            (by omega) (fun _ => ⟨hB, by omega⟩) (by omega)
          rw [Nat.add_zero] at e2
          refine ⟨w, st1, op :: ops, by rw [e1]; simp, ?_⟩
          rcases e2 with ⟨a, b, c⟩ | ⟨a, init, last, b, c, d, e⟩
          · refine Or.inl ⟨by omega, ?_, ?_⟩
            · intro x hx
              rcases List.mem_cons.1 hx with hx | hx
              · rw [hx]; exact hok
              · exact b x hx
            · rw [hbo, List.map_cons, List.map_cons, hop, c]
          · refine Or.inr ⟨a, op :: init, last, by rw [b]; simp, c, ?_, ?_⟩
            · intro x hx
              rcases List.mem_cons.1 hx with hx | hx
              · rw [hx]; exact hok
              · exact d x hx
            · rw [hbo, List.map_cons, List.length_cons, List.take_succ_cons, List.map_cons, hop,
                e]
      · rw [if_neg hc]
        obtain ⟨r, s2, op, hr, hfail, hop⟩ := hcall length
        rw [hr]
        simp only
        have hbo := blockOps_one blockSize chunkId version blockIndex blockPos length buf
          writeOffset append h0 (by omega)
        by_cases hneg : r < 0
        · rw [if_pos hneg]
          refine ⟨U64 - 1, s2, [op], rfl, Or.inr ⟨rfl, [], op, rfl, ?_,
            (fun x hx => nomatch hx), ?_⟩⟩
          · rw [hfail]; simpa using hneg
          · rw [hbo]
            simp [hop]
        · rw [if_neg hneg, sub64_eq (le_refl _) (by omega), Nat.sub_self]
          have hexit : ∀ (a b c : Nat) (s : σ × List Call),
              writeChunkLoop (recClient client) blockSize chunkId version buf fuel s a b 0 c
                false = some (c, s) := by
            intro a b c s
            cases fuel <;> simp [writeChunkLoop]
          rw [hexit, add64_eq (by omega)]
          refine ⟨_, s2, [op], rfl, Or.inl ⟨rfl, ?_, ?_⟩⟩
          · intro x hx
            rw [List.mem_singleton.1 hx, hfail]; simpa using hneg
          · rw [hbo, List.map_cons, List.map_cons, hop]
            rfl

theorem WriteChunk_trace {σ : Type} (client : S3Client σ)
    (blockSize chunkId version pos length : Nat) (buf : Nat → Nat) (bufPos : Nat)
    (append : Bool) (st : σ) (log : List Call) (hB : 0 < blockSize)
    (hpos : pos + length < U64) :
    ∃ w st1 ops,
      WriteChunk (recClient client) (st, log) blockSize chunkId version pos length buf bufPos
        append = some (w, (st1, log ++ ops)) ∧
      ((w = length ∧ (∀ op ∈ ops, op.storeFailed = false) ∧
          ops.map Call.storeOp =
            (blockOps blockSize chunkId version pos length buf bufPos append).map some) ∨
       (w = U64 - 1 ∧ ∃ init last, ops = init ++ [last] ∧ last.storeFailed = true ∧
          (∀ x ∈ init, x.storeFailed = false) ∧
          ops.map Call.storeOp =
            ((blockOps blockSize chunkId version pos length buf bufPos append).take
              ops.length).map some)) := by
  unfold WriteChunk
  have e := Nat.div_add_mod' pos blockSize
  obtain ⟨w, st1, ops, h1, h2⟩ := writeChunkLoop_trace client blockSize chunkId version
    (fun j => buf (bufPos + j)) hB length st log (pos / blockSize) (pos % blockSize) length 0
    append (le_refl _) (fun _ => ⟨Nat.mod_lt _ hB, by omega⟩) (by omega)
  rw [Nat.zero_add, e, blockOps_shift] at h2
  exact ⟨w, st1, ops, h1, h2⟩

theorem SlicesOf_ge (chunkSize : Nat) :
    ∀ (l : List (Nat × Nat)) (pos length : Nat), SlicesOf chunkSize pos length l →
      ∀ s ∈ l, pos ≤ s.1 := by
  intro l
  induction l with
  | nil => intro pos length _ s hs; cases hs
  | cons a l ih =>
    intro pos length h s hs
    unfold SlicesOf at h
    obtain ⟨h1, h2, _, _, _, h6⟩ := h
    rcases List.mem_cons.1 hs with e | e
    · rw [e, h1]
    · have := ih _ _ h6 s e
      omega

theorem SliceCalls.shift {blockSize chunkSize : Nat} {buf : Nat → Nat} {fsid wo pos n : Nat}
    (append : Bool) {c : MergeCall} {seg : List Call} (hn : 0 < n) (hc : pos + n ≤ c.offset)
    (h : SliceCalls blockSize chunkSize buf fsid (wo + n) (pos + n) false c seg) :
    SliceCalls blockSize chunkSize buf fsid wo pos append c seg := by
  obtain ⟨al, st, e1, e2, e3, e4⟩ := h
  refine ⟨al, st, e1, e2, e3, ?_⟩
  rw [e4]
  have h1 : wo + n + (c.offset - (pos + n)) = wo + (c.offset - pos) := by omega
  have h2 : ¬ c.offset = pos := by omega
  simp [h1, h2]

theorem SliceCalls.shiftAll {blockSize chunkSize : Nat} {buf : Nat → Nat} {fsid wo pos n : Nat}
    (append : Bool) (hn : 0 < n) :
    ∀ {new : List MergeCall} {segs : List (List Call)},
      (∀ c ∈ new, pos + n ≤ c.offset) →
      List.Forall₂ (SliceCalls blockSize chunkSize buf fsid (wo + n) (pos + n) false) new segs →
      List.Forall₂ (SliceCalls blockSize chunkSize buf fsid wo pos append) new segs := by
  intro new segs hge h
  induction h with
  | nil => exact List.Forall₂.nil
  | cons hab _ ih =>
    exact List.Forall₂.cons (hab.shift append hn (hge _ (List.mem_cons_self _ _)))
      (ih (fun c hc => hge c (List.mem_cons_of_mem _ hc)))

theorem writeLoopT_trace {σ : Type} (client : S3Client σ) (rpc : Services σ)
    (blockSize chunkSize : Nat) (buf : Nat → Nat) (version : Nat) (hB : 0 < blockSize)
    (hC : 0 < chunkSize) :
    ∀ (fuel : Nat) (st : σ) (log : List Call) (inode : Inode)
      (pos index chunkPos length writeOffset total : Nat) (append : Bool)
      (calls : List MergeCall),
      length ≤ fuel →
      (length ≠ 0 → index = pos / chunkSize ∧ chunkPos = pos % chunkSize) →
      pos + length < U64 → length < 9223372036854775808 → writeOffset + length < U64 →
      total + length < U64 →
      ∃ ret inode1 st1 ops new,
        writeLoopT (recClient client) (recServices rpc) blockSize chunkSize buf version fuel
          (st, log) inode index chunkPos length writeOffset total append calls =
          some ((ret, inode1, (st1, log ++ ops)), calls ++ new) ∧
        ((∀ op ∈ ops, op.storeFailed = false) ∨
         (ret < 0 ∧
          inode1 = { inode with s3ChunkInfoList := mergeAll inode.s3ChunkInfoList new } ∧
          ∃ fo fn rest segs kf al oks last,
            SlicesOf chunkSize pos length
              (new.map (fun c => (c.offset, c.len)) ++ (fo, fn) :: rest) ∧
            ops = segs.flatten ++ (al ++ oks ++ [last]) ∧
            List.Forall₂ (SliceCalls blockSize chunkSize buf inode.fsid writeOffset pos append)
              new segs ∧
            (al = [] ∨ al = [Call.alloc inode.fsid (some kf)]) ∧
            (∀ op ∈ oks, op.storeFailed = false) ∧ last.storeFailed = true ∧
            (oks ++ [last]).map Call.storeOp =
              ((blockOps blockSize kf version (fo % chunkSize) fn buf
                (writeOffset + (fo - pos)) (append && decide (fo = pos))).take
                  (oks.length + 1)).map some)) := by
  intro fuel
  induction fuel with
  | zero =>
    intro st log inode pos index chunkPos length writeOffset total append calls hf _ _ _ _ _
    have h0 : length = 0 := by omega
    subst h0
    exact ⟨toInt32 total, { inode with version := version }, st, [], [],
      by simp [writeLoopT], Or.inl (fun op hop => nomatch hop)⟩
  | succ fuel ih =>
    intro st log inode pos index chunkPos length writeOffset total append calls hf hidx hend
      hl63 hwo htot
    by_cases h0 : length = 0
    · subst h0
      exact ⟨toInt32 total, { inode with version := version }, st, [], [],
      by simp [writeLoopT], Or.inl (fun op hop => nomatch hop)⟩
    · obtain ⟨rfl, rfl⟩ := hidx h0
      obtain ⟨n0, n1, n2, n3, n4, n5⟩ := chunk_cut chunkSize pos length hC h0 hend
      rw [writeLoopT, if_neg h0]
      simp only
      generalize (if add64 (pos % chunkSize) length > chunkSize then
        sub64 chunkSize (pos % chunkSize) else length) = n at n0 n1 n2 n4 n5
      rcases hg : GetChunkId (recServices rpc) (st, log) chunkSize inode (pos / chunkSize) with
        ⟨r, cid, st2, log2⟩
      have hgr := GetChunkId_rec rpc st log chunkSize inode (pos / chunkSize) r cid st2 log2 hg
      -- the calls recorded by `GetChunkId`
      have hpre : ∃ pre, log2 = log ++ pre ∧ (∀ op ∈ pre, op.storeFailed = false) ∧
          (pre = [] ∨ pre = [Call.alloc inode.fsid cid]) ∧ (cid ≠ none → r = 0) := by
        rcases hgr with ⟨a, b, c⟩ | ⟨a, b, c⟩
        · exact ⟨[], by simp [a], (fun op hop => nomatch hop), Or.inl rfl, fun _ => b⟩
        · refine ⟨[.alloc inode.fsid cid], a, ?_, Or.inr rfl, c⟩
          intro op hop
          rw [List.mem_singleton.1 hop]
          rfl
      obtain ⟨pre, hlog2, hpre1, hpre2, hpre3⟩ := hpre
      subst hlog2
      cases cid with
      | none =>
        exact ⟨r, inode, st2, pre, [], by simp, Or.inl hpre1⟩
      | some k =>
        have hr := hpre3 (fun hc => nomatch hc)
        subst hr
        simp only [lt_self_iff_false, if_false]
        have hm := Nat.mod_le pos chunkSize
        obtain ⟨wl, st3, ops2, hw, hres⟩ := WriteChunk_trace client blockSize k version
          (pos % chunkSize) n buf writeOffset append st2 (log ++ pre) hB (by omega)
        rw [hw]
        simp only
        rcases hres with ⟨hwl, hclean, hbo⟩ | ⟨hwl, init, last, e, f, g, hbo⟩
        · subst hwl
          rw [if_neg (by omega), n3, sub64_eq n1 (by omega),
            add64_eq (show writeOffset + wl < U64 by omega),
            add64_eq (show total + wl < U64 by omega),
            add64_eq (show pos % chunkSize + wl < U64 by omega)]
          obtain ⟨ret, inode1, st1, ops, new, e1, e2⟩ := ih st3 (log ++ pre ++ ops2)
            { inode with s3ChunkInfoList :=
                UpdateInodeChunkInfo inode.s3ChunkInfoList k version pos wl }
            (pos + wl) (add64 (pos / chunkSize) 1) ((pos % chunkSize + wl) % chunkSize)
            (length - wl) (writeOffset + wl) (total + wl) false
            (calls ++ [⟨k, version, pos, wl⟩])
            (by omega)
            (by
              intro hne
              obtain ⟨a, b, c⟩ := n5 (by omega)
              rw [a, Nat.mod_self, b, c]
              exact ⟨rfl, rfl⟩)
            (by omega) (by omega) (by omega) (by omega)
          refine ⟨ret, inode1, st1, pre ++ ops2 ++ ops, ⟨k, version, pos, wl⟩ :: new,
            by rw [e1]; simp, ?_⟩
          rcases e2 with hall | ⟨a, b, fo, fn, rest, segs, kf, al, oks, last, c1, c2, c3, c4,
            c5, c6, c7⟩
          · left
            intro op hop
            rcases List.mem_append.1 hop with hx | hx
            · rcases List.mem_append.1 hx with hy | hy
              · exact hpre1 op hy
              · exact hclean op hy
            · exact hall op hx
          · right
            have hge := SlicesOf_ge chunkSize _ _ _ c1
            refine ⟨a, by rw [b, mergeAll_cons], fo, fn, rest, (pre ++ ops2) :: segs, kf, al,
              oks, last, ?_, ?_, ?_, c4, c5, c6, ?_⟩
            · simp only [List.map_cons, List.cons_append]
              unfold SlicesOf
              exact ⟨rfl, n0, n1, n4, fun hlt => (n5 hlt).2.1, c1⟩
            · rw [c2]
              simp
            · refine List.Forall₂.cons ⟨pre, ops2, rfl, hpre2, hclean, ?_⟩ ?_
              · rw [hbo]
                simp
              · refine SliceCalls.shiftAll append n0 ?_ c3
                intro c hc
                exact hge (c.offset, c.len)
                  (List.mem_append_left _ (List.mem_map_of_mem _ hc))
            · rw [c7]
              have hfo : pos + wl ≤ fo := hge (fo, fn) (by simp)
              have h1 : writeOffset + wl + (fo - (pos + wl)) = writeOffset + (fo - pos) := by
                omega
              have h2 : ¬ fo = pos := by omega
              simp [h1, h2]
        · subst hwl
          rw [if_pos (by unfold U64; omega)]
          obtain ⟨rest0, hrest0, _⟩ := slices_exist chunkSize hC (length - n) (length - n)
            (pos + n) (le_refl _) (by omega)
          refine ⟨toInt32 (U64 - 1), inode, st3, pre ++ ops2, [], by simp, Or.inr
            ⟨by rw [toInt32_minus_one]; decide, rfl, pos, n, rest0, [], k, pre, init, last, ?_,
              by rw [e]; simp, List.Forall₂.nil, hpre2, g, f, ?_⟩⟩
          · simp only [List.map_nil, List.nil_append]
            unfold SlicesOf
            exact ⟨rfl, n0, n1, n4, fun hlt => (n5 hlt).2.1, hrest0⟩
          · rw [e] at hbo
            rw [hbo]
            simp

/-! ### `WriteChunk` on the in-memory world, with `Append` on the first block -/

theorem block_start_le (blockSize x y : Nat) (hy : y % blockSize = 0)
    (h : x / blockSize = y / blockSize) : y ≤ x := by
  have h1 := Nat.div_add_mod' x blockSize
  have h2 := Nat.div_add_mod' y blockSize
  rw [h] at h1
  omega

theorem RtInv.congr {blockSize chunkSize : Nat} {wr wr1 : Nat → Prop} {val : Nat → Nat}
    {l : List S3ChunkInfo} {w : MemWorld} (h : RtInv blockSize chunkSize wr val l w)
    (hw : ∀ x, wr x ↔ wr1 x) : RtInv blockSize chunkSize wr1 val l w := by
  have : wr = wr1 := funext fun x => propext (hw x)
  rw [← this]
  exact h

/-- C9: version monotonicity. From an inode reached from a fresh one by
successful writes, a further successful `Write` (positive length below
`2^63`, range inside the 64-bit offsets, the version-bump service answering
above the inode's version) leaves `inode.version` at least what it was, and
strictly greater when the written range overlaps an existing entry. -/
theorem Write_version_monotone {σ : Type} (client : S3Client σ) (rpc : Services σ)
    (blockSize chunkSize : Nat) (hB : 0 < blockSize) (hC : 0 < chunkSize)
    (inode : Inode) (st : σ) (hreach : Reach client rpc blockSize chunkSize inode st)
    (offset length : Nat) (buf : Nat → Nat) (uninit : Nat) (ret : Int) (inode1 : Inode)
    (st1 : σ)
    (hlen : 0 < length) (hl63 : length < 9223372036854775808) (hoff : offset + length < U64)
    (hbump : BumpsAbove rpc st inode)
    (hw : Write client rpc blockSize chunkSize st inode offset length buf uninit =
      some (ret, inode1, st1))
    (hret : 0 ≤ ret) :
    inode.version ≤ inode1.version ∧
    ((∃ e ∈ inode.s3ChunkInfoList, offset < e.offset + e.len ∧ e.offset < offset + length) →
      inode.version < inode1.version) := by
  have hk : KeyOfChunk chunkSize (fun _ => 0) := fun _ _ _ _ => rfl
  have hf : KeyTrivialOrFresh rpc (fun _ _ => True) (fun _ => 0) := Or.inl fun _ _ => rfl
  have hinv := Reach_inv client rpc _ (issuedMono_trivial client rpc) blockSize chunkSize _
    hB hC hk hf inode st hreach
  obtain ⟨_, a, b, _⟩ := Write_step client rpc _ (issuedMono_trivial client rpc) blockSize
    chunkSize _ hB hC hk hf inode st hinv offset length buf uninit ret inode1 st1 hlen hl63
    hoff hbump hw hret
  exact ⟨a, b⟩

/-- Witness of C9: after `Write(0, 10)` on a fresh inode (version 0), the
overlapping `Write(4, 4, "wxyz")` leaves version 1. -/
theorem Write_version_monotone_witness :
    Write worldClient worldServices 4 16 abcWorld abcInode 4 4 (bufOf [119, 120, 121, 122]) 0 =
      some (4, ⟨1, 1, 10, 1, [⟨0, 0, 0, 10, 10⟩, ⟨0, 1, 4, 4, 4⟩]⟩,
        ⟨("0_1_1", [119, 120, 121, 122]) :: abcWorld.store,
         abcWorld.log ++ [.upload "0_1_1" [119, 120, 121, 122]], 1, 1⟩) ∧
    abcInode.version ≤ 1 ∧
    ((∃ e ∈ abcInode.s3ChunkInfoList, 4 < e.offset + e.len ∧ e.offset < 4 + 4) →
      abcInode.version < 1) :=
  ⟨by decide,
   Write_version_monotone worldClient worldServices 4 16 (by decide) (by decide) abcInode
    abcWorld abc_reach 4 4 (bufOf [119, 120, 121, 122]) 0 4
    ⟨1, 1, 10, 1, [⟨0, 0, 0, 10, 10⟩, ⟨0, 1, 4, 4, 4⟩]⟩
    ⟨("0_1_1", [119, 120, 121, 122]) :: abcWorld.store,
     abcWorld.log ++ [.upload "0_1_1" [119, 120, 121, 122]], 1, 1⟩
    (by decide) (by decide) (by decide) ⟨1, _, rfl, by decide⟩ (by decide) (by decide)⟩

/-- C10: chunk-boundary splitting. With an allocator answering ids never
issued before, every entry `e` of a chunk list reached from a fresh inode by
successful writes satisfies `e.offset / C = (e.offset + e.len - 1) / C`; and
after a further successful write whose range crosses a chunk boundary
(`offset / C ≠ (offset + length - 1) / C`) the first and the last byte of the
written range lie in two different entries of the list, which therefore has
at least two entries. -/
theorem Write_chunk_boundary {σ : Type} (client : S3Client σ) (rpc : Services σ)
    (issued : σ → Nat → Prop) (hfa : FreshAlloc client rpc issued)
    (blockSize chunkSize : Nat) (hB : 0 < blockSize) (hC : 0 < chunkSize)
    (inode : Inode) (st : σ) (hreach : Reach client rpc blockSize chunkSize inode st) :
    (∀ e ∈ inode.s3ChunkInfoList,
      e.offset / chunkSize = (e.offset + e.len - 1) / chunkSize) ∧
    ∀ (offset length : Nat) (buf : Nat → Nat) (uninit : Nat) (ret : Int) (inode1 : Inode)
      (st1 : σ),
      0 < length → length < 9223372036854775808 → offset + length < U64 →
      BumpsAbove rpc st inode →
      Write client rpc blockSize chunkSize st inode offset length buf uninit =
        some (ret, inode1, st1) →
      0 ≤ ret →
      offset / chunkSize ≠ (offset + length - 1) / chunkSize →
      (∃ e1 ∈ inode1.s3ChunkInfoList, ∃ e2 ∈ inode1.s3ChunkInfoList,
        e1 ≠ e2 ∧ e1.Covers offset ∧ e2.Covers (offset + length - 1)) ∧
      2 ≤ inode1.s3ChunkInfoList.length := by
  have hk := keyOfChunk_div chunkSize hC
  have hf : KeyTrivialOrFresh rpc issued (fun x => x / chunkSize) := Or.inr hfa.fresh
  have hinv := Reach_inv client rpc issued hfa.mono blockSize chunkSize _ hB hC hk hf inode st
    hreach
  refine ⟨fun e he => (hinv.chunks.shape e he).2.2, ?_⟩
  intro offset length buf uninit ret inode1 st1 hlen hl63 hoff hbump hw hret hcross
  obtain ⟨a, _, _, c, _, _⟩ := Write_step client rpc issued hfa.mono blockSize chunkSize _ hB
    hC hk hf inode st hinv offset length buf uninit ret inode1 st1 hlen hl63 hoff hbump hw hret
  obtain ⟨e1, he1, hc1⟩ := c offset (le_refl _) (by omega)
  obtain ⟨e2, he2, hc2⟩ := c (offset + length - 1) (by omega) (by omega)
  have hchunk : ∀ e ∈ inode1.s3ChunkInfoList, ∀ x, e.Covers x →
      x / chunkSize = e.offset / chunkSize := by
    intro e he x hx
    have hs := (a.chunks.shape e he).2.2
    simp only [setLength] at hs
    unfold S3ChunkInfo.Covers at hx
    apply le_antisymm
    · calc x / chunkSize ≤ (e.offset + e.len - 1) / chunkSize :=
            Nat.div_le_div_right (by omega)
        _ = e.offset / chunkSize := hs.symm
    · exact Nat.div_le_div_right hx.1
  have hne : e1 ≠ e2 := by
    intro heq
    subst heq
    exact hcross ((hchunk e1 he1 _ hc1).trans (hchunk e1 he1 _ hc2).symm)
  refine ⟨⟨e1, he1, e2, he2, hne, hc1, hc2⟩, ?_⟩
  match hL : inode1.s3ChunkInfoList, he1, he2 with
  | [], h1, _ => cases h1
  | [x], h1, h2 =>
    simp only [List.mem_singleton] at h1 h2
    exact absurd (h1.trans h2.symm) hne
  | _ :: _ :: _, _, _ => simp

/-- Witness of C10: `B = 4`, `C = 16`; `Write(inode{len=0}, 14, 6, "123456")`
leaves exactly the entries `(k0, 0, 14, 2)` and `(k1, 0, 16, 4)`; byte 14 and
byte 19 lie in different entries. -/
theorem Write_chunk_boundary_witness :
    Write worldClient worldServices 4 16 freshWorld freshInode 14 6
        (bufOf [49, 50, 51, 52, 53, 54]) 0 =
      some (6, ⟨1, 1, 0, 0, [⟨0, 0, 14, 2, 2⟩, ⟨1, 0, 16, 4, 4⟩]⟩,
        ⟨[("1_0_0", [51, 52, 53, 54]), ("0_3_0", [49, 50])],
         [.upload "0_3_0" [49, 50], .upload "1_0_0" [51, 52, 53, 54]], 2, 0⟩) ∧
    (∀ e ∈ freshInode.s3ChunkInfoList, e.offset / 16 = (e.offset + e.len - 1) / 16) ∧
    (∃ e1 ∈ [(⟨0, 0, 14, 2, 2⟩ : S3ChunkInfo), ⟨1, 0, 16, 4, 4⟩],
      ∃ e2 ∈ [(⟨0, 0, 14, 2, 2⟩ : S3ChunkInfo), ⟨1, 0, 16, 4, 4⟩],
        e1 ≠ e2 ∧ e1.Covers 14 ∧ e2.Covers (14 + 6 - 1)) ∧
    2 ≤ [(⟨0, 0, 14, 2, 2⟩ : S3ChunkInfo), ⟨1, 0, 16, 4, 4⟩].length :=
  have h := Write_chunk_boundary worldClient worldServices _ world_fresh 4 16 (by decide)
    (by decide) freshInode freshWorld (Reach.fresh 1 1 freshWorld)
  ⟨by decide, h.1,
   h.2 14 6 (bufOf [49, 50, 51, 52, 53, 54]) 0 6
    ⟨1, 1, 0, 0, [⟨0, 0, 14, 2, 2⟩, ⟨1, 0, 16, 4, 4⟩]⟩
    ⟨[("1_0_0", [51, 52, 53, 54]), ("0_3_0", [49, 50])],
     [.upload "0_3_0" [49, 50], .upload "1_0_0" [51, 52, 53, 54]], 2, 0⟩
    (by decide) (by decide) (by decide) ⟨1, _, rfl, by decide⟩ (by decide) (by decide)
    (by decide)⟩

/-- C5 as stated fails for a window of `2^32 + 2` bytes: with the single
entry `[2^32, 2^32 + 1)` the gap of `2^32` bytes before the chunk is stored in
an `int` (giving 0), so the chunk's byte is planned at buffer position 0,
whose logical offset 0 is covered by no entry. -/
theorem Read_hole_not_zero_large_window :
    (Read memClient [("7_0_0", [65])] 4 16 1 ⟨1, 1, 4294967297, 0, [⟨7, 0, 4294967296, 1, 1⟩]⟩
        0 4294967298 (fun _ => 0)).map (fun r => r.2 0) = some 65 ∧
    ∀ e ∈ [(⟨7, 0, 4294967296, 1, 1⟩ : S3ChunkInfo)], ¬ e.Covers (0 + 0) := by
  decide

/-- C5 (amended): hole zero-fill. Block size in `(0, 2^64)`, a store whose
`Download` places at most the bytes asked for, a chunk list whose ranges do
not wrap past `2^64`, a window with `length < 2^31` and `offset + length <
2^64`: when `Read` returns, every buffer byte `buf[i]`, `i < length`, whose
logical offset `offset + i` is covered by no entry of the chunk list is 0. -/
theorem Read_holes_zero {σ : Type} (client : S3Client σ) (hdl : DownloadBounded client)
    (st : σ) (blockSize chunkSize fuel : Nat) (hB : 0 < blockSize) (hBU : blockSize < U64)
    (inode : Inode) (hl : ∀ e ∈ inode.s3ChunkInfoList, e.offset + e.len < U64)
    (offset length : Nat) (hwin : offset + length < U64) (hlen : length < 2147483648)
    (buf : Nat → Nat) (ret : Int) (out : Nat → Nat)
    (h : Read client st blockSize chunkSize fuel inode offset length buf = some (ret, out)) :
    ∀ i, i < length → (∀ e ∈ inode.s3ChunkInfoList, ¬ e.Covers (offset + i)) → out i = 0 := by
  intro i hi hhole
  unfold Read at h
  cases hg : GetReadChunks inode.s3ChunkInfoList with
  | none => simp [hg] at h
  | some chunks =>
    simp only [hg] at h
    have hsub : ∀ w ∈ SortByOffset chunks, SubRange inode.s3ChunkInfoList w := by
      intro w hw
      exact readChunksFrom_subRange _ hl _ [] chunks (fun t ht => ht) (fun w hw => nomatch hw)
        hg w ((SortByOffset_perm chunks).mem_iff.1 hw)
    have hnw : ∀ c ∈ SortByOffset chunks, c.offset + c.len < U64 := by
      intro c hc
      obtain ⟨e, he, _, h2, _⟩ := hsub c hc
      have := hl e he
      omega
    obtain ⟨news, p1, p2, p3, _, _, _⟩ := planLoop_spec (SortByOffset chunks) offset length 0
      buf [] hnw hwin hlen (by unfold U64; omega)
    simp only [List.nil_append] at p1
    have hnotin : ∀ r ∈ news, ¬ InRequest r i := by
      intro r hr hin
      obtain ⟨_, _, q3, c, hc, q4, q5, _⟩ := p2 r hr
      obtain ⟨e, he, e1, e2, _⟩ := hsub c hc
      apply hhole e he
      unfold InRequest at hin
      unfold S3ChunkInfo.Covers
      omega
    have hplan : (planLoop (SortByOffset chunks) offset length 0 buf []).buf i = 0 := by
      rcases p3 i (Nat.zero_le _) (by omega) with hz | ⟨r, hr, hin⟩
      · exact hz
      · exact absurd hin (hnotin r hr)
    cases hh : handleReadRequest client st blockSize chunkSize fuel
        (planLoop (SortByOffset chunks) offset length 0 buf []).requests [] with
    | none => simp [hh] at h
    | some res =>
      cases res with
      | error e =>
        simp only [hh, Option.some.injEq, Prod.mk.injEq] at h
        rw [← h.2]
        exact hplan
      | ok resps =>
        simp only [hh, Option.some.injEq, Prod.mk.injEq] at h
        rw [← h.2]
        rw [p1] at hh
        obtain ⟨news2, a1, a2⟩ := handleReadRequest_answers client hdl st blockSize chunkSize
          fuel hB hBU news [] resps (by
            intro r hr
            obtain ⟨_, q2, _⟩ := p2 r hr
            unfold U64; omega) hh
        simp only [List.nil_append] at a1
        subst a1
        rw [assemble_frame, hplan]
        intro resp hresp hin
        obtain ⟨r, hr, ha⟩ := forall2_mem_right a2 resp hresp
        apply hnotin r hr
        unfold InRequest
        obtain ⟨b1, b2, _⟩ := ha
        omega

/-- Witness of C5 (amended): `B = 4`, `C = 16`, chunk list `(k0, 0, 0, 10)`
after `Write(0, 10, "ABCDEFGHIJ")`; `Read(inode, 0, 12, buf)` returns and
leaves 0 in `buf[10]` and `buf[11]`. -/
theorem Read_holes_zero_witness :
    ∃ ret out, Read worldClient abcWorld 4 16 4 abcInode 0 12 (fun _ => 7) = some (ret, out) ∧
      out 10 = 0 ∧ out 11 = 0 :=
  have hs : (Read worldClient abcWorld 4 16 4 abcInode 0 12 (fun _ => 7)).isSome = true := by
    decide
  match h : Read worldClient abcWorld 4 16 4 abcInode 0 12 (fun _ => 7) with
  | some (ret, out) =>
    ⟨ret, out, rfl,
      Read_holes_zero worldClient world_downloadBounded abcWorld 4 16 4 (by decide) (by decide)
        abcInode (by decide) 0 12 (by decide) (by decide) (fun _ => 7) ret out h 10 (by decide)
        (by decide),
      Read_holes_zero worldClient world_downloadBounded abcWorld 4 16 4 (by decide) (by decide)
        abcInode (by decide) 0 12 (by decide) (by decide) (fun _ => 7) ret out h 11 (by decide)
        (by decide)⟩
  | none => absurd hs (by rw [h]; decide)

/-- C8: for overlapping records `new` and `old` with positive length, ranges
not wrapping past `2^64` and `new.version ≥ old.version` (the assertion at the
head of the function), `CutOverLapChunks new old` returns, and what it returns
is at most two fragments, pairwise disjoint, each with `len > 0`, `size = len`,
the chunk id and version of `old`, and their union is exactly the bytes of
`old` that are not in `new`. -/
theorem CutOverLapChunks_spec (new old : S3ChunkInfo)
    (hver : old.version ≤ new.version)
    (hnew : new.offset + new.len < U64) (hold : old.offset + old.len < U64)
    (hnl : 0 < new.len) (hol : 0 < old.len)
    (h1 : new.offset < old.offset + old.len)
    (h2 : old.offset < new.offset + new.len) :
    ∃ frags, CutOverLapChunks new old = some frags ∧
      frags.length ≤ 2 ∧
      frags.Pairwise
        (fun f g => f.offset + f.len ≤ g.offset ∨ g.offset + g.len ≤ f.offset) ∧
      (∀ f ∈ frags,
        0 < f.len ∧ f.size = f.len ∧ f.chunkid = old.chunkid ∧ f.version = old.version) ∧
      (∀ x, (∃ f ∈ frags, f.Covers x) ↔ (old.Covers x ∧ ¬ new.Covers x)) := by
  refine ⟨cutFragments new old, by rw [CutOverLapChunks, if_pos hver], ?_⟩
  unfold cutFragments S3ChunkInfo.Covers
  simp only [add64, sub64, U64] at *
  split_ifs with c1 c2 c3
  · refine ⟨by simp, by simp, ?_, ?_⟩
    · intro f hf
      simp only [List.mem_singleton] at hf
      subst hf
      refine ⟨?_, rfl, rfl, rfl⟩
      simp only
      omega
    · intro x
      simp only [List.mem_singleton, exists_eq_left]
      omega
  · refine ⟨by simp, ?_, ?_, ?_⟩
    · simp only [List.pairwise_cons, List.mem_singleton, forall_eq, List.not_mem_nil,
        false_implies, implies_true, List.Pairwise.nil, and_true]
      omega
    · intro f hf
      simp only [List.mem_cons, List.mem_singleton, List.not_mem_nil, or_false] at hf
      rcases hf with hf | hf <;> subst hf <;> refine ⟨?_, rfl, rfl, rfl⟩ <;> simp only <;> omega
    · intro x
      simp only [List.mem_cons, List.mem_singleton, List.not_mem_nil, or_false,
        exists_eq_or_imp, exists_eq_left]
      omega
  · refine ⟨by simp, by simp, by simp, ?_⟩
    intro x
    simp only [List.not_mem_nil, false_and, exists_false, false_iff]
    omega
  · refine ⟨by simp, by simp, ?_, ?_⟩
    · intro f hf
      simp only [List.mem_singleton] at hf
      subst hf
      refine ⟨?_, rfl, rfl, rfl⟩
      simp only
      omega
    · intro x
      simp only [List.mem_singleton, exists_eq_left]
      omega

/-- Witness of C8: `new = [8, 12)` at version 1, `old = [0, 20)` at version 0. -/
theorem CutOverLapChunks_spec_witness :
    ∃ frags, CutOverLapChunks ⟨1, 1, 8, 4, 4⟩ ⟨0, 0, 0, 20, 20⟩ = some frags ∧
      frags.length ≤ 2 ∧
      frags.Pairwise
        (fun f g => f.offset + f.len ≤ g.offset ∨ g.offset + g.len ≤ f.offset) ∧
      (∀ f ∈ frags,
        0 < f.len ∧ f.size = f.len ∧ f.chunkid = (0 : Nat) ∧ f.version = (0 : Nat)) ∧
      (∀ x, (∃ f ∈ frags, f.Covers x) ↔
        ((⟨0, 0, 0, 20, 20⟩ : S3ChunkInfo).Covers x ∧
          ¬ (⟨1, 1, 8, 4, 4⟩ : S3ChunkInfo).Covers x)) :=
  CutOverLapChunks_spec ⟨1, 1, 8, 4, 4⟩ ⟨0, 0, 0, 20, 20⟩
    (by decide) (by decide) (by decide) (by decide) (by decide) (by decide) (by decide)

/-- C3 (evaluation at the failing input): on the version-ordered list
`[0,4)`, `[8,12)`, `[20,24)`, `[2,10)` the last entry overlaps the first two;
`GetReadChunks` keeps `[8,12)` whole (it overlaps `[2,10)` in the result),
drops `[20,24)` and the fragment `[0,2)`; on the list `[0,4)`, `[8,12)`,
`[2,10)` it erases at the end of its vector. -/
theorem GetReadChunks_two_overlaps :
    GetReadChunks [⟨0, 0, 0, 4, 4⟩, ⟨1, 0, 8, 4, 4⟩, ⟨2, 0, 20, 4, 4⟩, ⟨3, 1, 2, 8, 8⟩] =
      some [⟨1, 0, 8, 4, 4⟩, ⟨1, 0, 10, 2, 2⟩, ⟨3, 1, 2, 8, 8⟩] ∧
    GetReadChunks [⟨0, 0, 0, 4, 4⟩, ⟨1, 0, 8, 4, 4⟩, ⟨3, 1, 2, 8, 8⟩] = none := by
  decide

/-- C4 (evaluation at the failing input): with the single entry `[0, 10)`,
`Read(inode, 20, 8, buf)` zero-fills the eight bytes and returns 0, for every
store client, block size, chunk size and buffer. -/
theorem Read_hole_returns_zero {σ : Type} (client : S3Client σ) (st : σ)
    (blockSize chunkSize fuel : Nat) (buf : Nat → Nat) :
    Read client st blockSize chunkSize fuel ⟨1, 1, 10, 0, [⟨0, 0, 0, 10, 10⟩]⟩ 20 8 buf =
      some (0, memset buf 0 8) := by
  rfl

/-- C6 (evaluation at the failing input): `B = 4`, `C = 16`, chunk list
`(k0, 0, 0, 10)`; `IsAppendBlock` answers `false` for offset 10 and
`Write(inode, 10, 2, "KL")` issues `Upload`, not `Append`, on `0_2_0`, whose
bytes `"IJ"` are replaced. -/
theorem Write_append_witness_uploads :
    IsAppendBlock [⟨0, 0, 0, 10, 10⟩] 4 10 = false ∧
    Write worldClient worldServices 4 16
      ⟨[("0_2_0", [73, 74]), ("0_1_0", [69, 70, 71, 72]), ("0_0_0", [65, 66, 67, 68])], [], 1, 0⟩
      ⟨1, 1, 10, 0, [⟨0, 0, 0, 10, 10⟩]⟩ 10 2 (bufOf [75, 76]) 0 =
    some (2, ⟨1, 1, 10, 0, [⟨0, 0, 0, 12, 10⟩]⟩,
      ⟨[("0_2_0", [75, 76]), ("0_1_0", [69, 70, 71, 72]), ("0_0_0", [65, 66, 67, 68])],
       [.upload "0_2_0" [75, 76]], 1, 0⟩) := by
  decide

/-- C7 (evaluation at the failing input): the version bump fails, and `Write`
goes on with the indeterminate `version` (here 99): it uploads `0_1_99`,
appends an entry to the chunk list, stores 99 in `inode.version` and
returns 4. -/
theorem Write_ignores_bump_failure :
    Write worldClient failingBump 4 16 ⟨[], [], 1, 0⟩
      ⟨1, 1, 10, 0, [⟨0, 0, 0, 10, 10⟩]⟩ 4 4 (bufOf [119, 120, 121, 122]) 99 =
    some (4, ⟨1, 1, 10, 99, [⟨0, 0, 0, 10, 10⟩, ⟨0, 99, 4, 4, 4⟩]⟩,
      ⟨[("0_1_99", [119, 120, 121, 122])], [.upload "0_1_99" [119, 120, 121, 122]], 1, 0⟩) := by
  decide

/-- C15 fails on the code: `UpdateInodeChunkInfo` sets `size` only when it
appends an entry; when the incoming range is coalesced into an entry, `len`
grows and `size` stays. On the list `[(0, 0, 0, 10, size 10)]` the call
`UpdateInodeChunkInfo(0, 0, 10, 2)` leaves `len = 12`, `size = 10`, and so do
the successful writes `Write(0, 10)`, `Write(10, 2)` on a fresh inode. -/
theorem UpdateInodeChunkInfo_merge_keeps_size :
    UpdateInodeChunkInfo [⟨0, 0, 0, 10, 10⟩] 0 0 10 2 = [⟨0, 0, 0, 12, 10⟩] ∧
    (writeSeq 4 16 [abcBytes, [75, 76]] 0 freshInode freshWorld).map
      (fun s => s.1.s3ChunkInfoList) = some [⟨0, 0, 0, 12, 10⟩] := by
  decide

/-- C16: `GenerateObjectName(chunkId, blockIndex, version)` is the three
numbers in decimal digits joined by `_`, and two names are equal exactly when
the two triples are: distinct triples give distinct names. -/
theorem GenerateObjectName_injective (c1 b1 v1 c2 b2 v2 : Nat) :
    (GenerateObjectName c1 b1 v1).data =
      Nat.toDigits 10 c1 ++ '_' :: (Nat.toDigits 10 b1 ++ '_' :: Nat.toDigits 10 v1) ∧
    (GenerateObjectName c1 b1 v1 = GenerateObjectName c2 b2 v2 ↔
      (c1, b1, v1) = (c2, b2, v2)) := by
  refine ⟨?_, ?_, ?_⟩
  · have hr : ∀ n : Nat, (toString n).data = Nat.toDigits 10 n := fun n => rfl
    simp only [GenerateObjectName, String.data_append, hr, List.append_assoc]
    rfl
  · intro h
    obtain ⟨h1, h2, h3⟩ := GenerateObjectName_inj _ _ _ _ _ _ h
    rw [h1, h2, h3]
  · intro h
    simp only [Prod.mk.injEq] at h
    rw [h.1, h.2.1, h.2.2]

/-- C18: overwrite of the middle. For the chunk list `[old, new]` with `new`
strictly inside `old`, the range of `old` ending below `2^64` and
`old.version ≤ new.version` (the later entry of the list is the later write;
`CutOverLapChunks` asserts it), `GetReadChunks` returns and
`SortByOffset(GetReadChunks(inode))` is `[old.offset, new.offset)` with the
chunk id and version of `old`, then `new`, then `[new.offset + new.len,
old.offset + old.len)` with the chunk id and version of `old`; the `size` of
a fragment is its length. -/
theorem GetReadChunks_overwrite_middle (old new : S3ChunkInfo)
    (hver : old.version ≤ new.version)
    (hold : old.offset + old.len < U64) (h1 : old.offset < new.offset) (h2 : 0 < new.len)
    (h3 : new.offset + new.len < old.offset + old.len) :
    (GetReadChunks [old, new]).map SortByOffset =
      some [⟨old.chunkid, old.version, old.offset, new.offset - old.offset,
              new.offset - old.offset⟩,
            new,
            ⟨old.chunkid, old.version, new.offset + new.len,
              old.offset + old.len - (new.offset + new.len),
              old.offset + old.len - (new.offset + new.len)⟩] := by
  have hnew : new.offset + new.len < U64 := by omega
  have hov : overlaps new old = true := by
    unfold overlaps S3ChunkInfo.endOff
    rw [add64_eq hnew, add64_eq hold]
    simp only [Bool.and_eq_true, decide_eq_true_eq]
    omega
  have hcut : cutFragments new old =
      [⟨old.chunkid, old.version, old.offset, new.offset - old.offset,
          new.offset - old.offset⟩,
        ⟨old.chunkid, old.version, new.offset + new.len,
          old.offset + old.len - (new.offset + new.len),
          old.offset + old.len - (new.offset + new.len)⟩] := by
    unfold cutFragments
    rw [add64_eq hnew, add64_eq hold, if_pos ⟨h1, by omega⟩, if_neg (by omega)]
    have e1 : sub64 new.offset old.offset = new.offset - old.offset := by
      unfold sub64 U64 at *; omega
    have e2 : sub64 (sub64 (old.offset + old.len) new.offset) new.len =
        old.offset + old.len - (new.offset + new.len) := by
      unfold sub64 U64 at *; omega
    rw [e1, e2]
  unfold GetReadChunks
  rw [readChunksFrom, readChunksStep_none [] old (fun c hc => nomatch hc)]
  simp only [List.nil_append]
  have hstep := readChunksStep_one [] [] old new (fun c hc => nomatch hc) hov
    (fun c hc => nomatch hc) hver
  rw [List.nil_append] at hstep
  rw [readChunksFrom, hstep, hcut]
  simp only [List.nil_append, List.append_nil, readChunksFrom, Option.map_some',
    Option.some.injEq, List.cons_append]
  have g1 : ¬ old.offset > new.offset + new.len := by omega
  have g2 : new.offset + new.len > new.offset := by omega
  have g3 : ¬ old.offset > new.offset := by omega
  simp [SortByOffset, bubbleLoop, bubblePass, g1, g2, g3]

/-- Witness of C18: `old = [0, 20)` at version 0, `new = [8, 12)` at version 1
give `[0, 8)@v0`, `[8, 12)@v1`, `[12, 20)@v0`. -/
theorem GetReadChunks_overwrite_middle_witness :
    (GetReadChunks [⟨0, 0, 0, 20, 20⟩, ⟨0, 1, 8, 4, 4⟩]).map SortByOffset =
      some [⟨0, 0, 0, 8, 8⟩, ⟨0, 1, 8, 4, 4⟩, ⟨0, 0, 12, 8, 8⟩] :=
  GetReadChunks_overwrite_middle ⟨0, 0, 0, 20, 20⟩ ⟨0, 1, 8, 4, 4⟩ (by decide) (by decide)
    (by decide) (by decide) (by decide)

/-- C19: frame of `Write`. Whatever `Write` returns, negative or not, the
inode afterwards has the `fsid`, `inodeid` and `length` it had before: only
`s3ChunkInfoList` and `version` can differ, and `inode.length` is never
updated. `Read` takes the inode as a value and gives back only its result and
the buffer (the source reads the inode through `const` accessors only), so it
changes no field. -/
theorem Write_frame {σ : Type} (client : S3Client σ) (rpc : Services σ)
    (blockSize chunkSize : Nat) (st : σ) (inode : Inode) (offset length : Nat)
    (buf : Nat → Nat) (uninit : Nat) (ret : Int) (inode1 : Inode) (st1 : σ)
    (h : Write client rpc blockSize chunkSize st inode offset length buf uninit =
      some (ret, inode1, st1)) :
    inode1 = { inode with s3ChunkInfoList := inode1.s3ChunkInfoList,
                          version := inode1.version } := by
  obtain ⟨h1, h2, h3⟩ := Write_frame_aux client rpc blockSize chunkSize st inode offset length
    buf uninit ret inode1 st1 h
  cases inode1
  simp only at h1 h2 h3
  simp only [Inode.mk.injEq, and_true, true_and]
  exact ⟨h1, h2, h3⟩

/-- Witness of C19: `Write(inode, 0, 10, "ABCDEFGHIJ")` on the fresh inode,
`B = 4`, `C = 16`. -/
theorem Write_frame_witness :
    (⟨1, 1, 0, 0, [⟨0, 0, 0, 10, 10⟩]⟩ : Inode) =
      { freshInode with
        s3ChunkInfoList := (⟨1, 1, 0, 0, [⟨0, 0, 0, 10, 10⟩]⟩ : Inode).s3ChunkInfoList,
        version := (⟨1, 1, 0, 0, [⟨0, 0, 0, 10, 10⟩]⟩ : Inode).version } :=
  Write_frame worldClient worldServices 4 16 freshWorld freshInode 0 10 (bufOf abcBytes) 0 10
    ⟨1, 1, 0, 0, [⟨0, 0, 0, 10, 10⟩]⟩ abcWorld (by decide)

/-- C17: `GetChunkId`. When `inode.length == 0`, or no entry has
`entry.offset / C == idx`, the allocator is called: its id is returned with
result 0, and when it fails the result is -1. Otherwise the chunk id of the
first entry in list order with `entry.offset / C == idx` is returned with
result 0 and the outside world is left as it was (the allocator is not
called). When the allocator fails in an iteration of the loop of `Write`,
`Write` returns -1 at once, in the state the allocator left: no object of
that slice is written, and the inode is as it was before the slice. -/
theorem GetChunkId_cases {σ : Type} (rpc : Services σ) (st : σ) (chunkSize : Nat)
    (inode : Inode) (index : Nat) :
    (inode.length = 0 ∨ (∀ e ∈ inode.s3ChunkInfoList, e.offset / chunkSize ≠ index) →
      (∀ k st1, rpc.AllocateS3Chunk st inode.fsid = (some k, st1) →
        GetChunkId rpc st chunkSize inode index = (0, some k, st1)) ∧
      (∀ st1, rpc.AllocateS3Chunk st inode.fsid = (none, st1) →
        GetChunkId rpc st chunkSize inode index = (-1, none, st1) ∧
        ∀ (client : S3Client σ) (blockSize : Nat) (buf : Nat → Nat)
          (version fuel chunkPos length writeOffset total : Nat) (append : Bool),
          length ≠ 0 →
          writeLoop client rpc blockSize chunkSize buf version (fuel + 1) st inode index
            chunkPos length writeOffset total append = some (-1, inode, st1))) ∧
    (inode.length ≠ 0 → ∀ pre e post, inode.s3ChunkInfoList = pre ++ e :: post →
      (∀ f ∈ pre, f.offset / chunkSize ≠ index) → e.offset / chunkSize = index →
      GetChunkId rpc st chunkSize inode index = (0, some e.chunkid, st)) := by
  have hnone : (∀ e ∈ inode.s3ChunkInfoList, e.offset / chunkSize ≠ index) →
      inode.s3ChunkInfoList.find? (fun tmp => tmp.offset / chunkSize == index) = none := by
    intro h
    rw [List.find?_eq_none]
    intro e he
    simpa using h e he
  have halloc : inode.length = 0 ∨ (∀ e ∈ inode.s3ChunkInfoList, e.offset / chunkSize ≠ index) →
      ∀ (r : Option Nat) (st1 : σ), rpc.AllocateS3Chunk st inode.fsid = (r, st1) →
      GetChunkId rpc st chunkSize inode index =
        (if r = none then -1 else 0, r, st1) := by
    intro h r st1 ha
    unfold GetChunkId
    by_cases h0 : inode.length = 0
    · rw [if_pos h0, ha]
      cases r <;> rfl
    · rw [if_neg h0, hnone (h.resolve_left h0), ha]
      cases r <;> rfl
  refine ⟨fun h => ⟨?_, ?_⟩, ?_⟩
  · intro k st1 ha
    rw [halloc h _ _ ha]
    rfl
  · intro st1 ha
    have hg : GetChunkId rpc st chunkSize inode index = (-1, none, st1) := by
      rw [halloc h _ _ ha]
      rfl
    refine ⟨hg, ?_⟩
    intro client blockSize buf version fuel chunkPos length writeOffset total append hl
    rw [writeLoop, if_neg hl]
    simp only [hg]
  · intro h0 pre e post hl hpre he
    unfold GetChunkId
    rw [if_neg h0, hl]
    have : (pre ++ e :: post).find? (fun tmp => tmp.offset / chunkSize == index) = some e := by
      rw [List.find?_append, List.find?_eq_none.2 (fun f hf => by simpa using hpre f hf)]
      simp [List.find?_cons, he]
    rw [this]

/-- C20 as stated fails on a large window: for the single chunk `[2^32, 2^32
+ 1)` and the window `[0, 2^32 + 1)` the gap of `2^32` bytes before the chunk
is stored in `int n`, giving 0: nothing is zero-filled before the chunk, and
the one request built gets `readOffset = 0` instead of `2^32`, the request's
offset minus the window's start. -/
theorem Read_plan_large_window :
    (planLoop [⟨0, 0, 4294967296, 1, 1⟩] 0 4294967297 0 (fun _ => 0) []).requests =
      [⟨⟨0, 0, 4294967296, 1, 1⟩, 0⟩] ∧
    [⟨0, 0, 4294967296, 1, 1⟩].filterMap (intersectRequest 0 4294967297 0) =
      [⟨⟨0, 0, 4294967296, 1, 1⟩, 4294967296⟩] := by
  decide

/-- C20 (amended): the read plan. For every working set sorted ascending by
offset, pairwise non-overlapping, with positive lengths and ranges ending
below `2^64`, and every window `[offset, offset + length)` with
`0 < length < 2^31` ending below `2^64`, the requests built by the plan loop
of `Read` are exactly the non-empty intersections of the chunks with the
window, in the order of the chunks: each request is its chunk (chunk id,
version, size) narrowed to `[max(chunkStart, offset), min(chunkEnd, offset +
length))`, with `readOffset` the request's offset minus `offset`; a chunk that
does not meet the window gives no request. -/
theorem Read_plan (chunks : List S3ChunkInfo) (offset length : Nat) (buf : Nat → Nat)
    (hsorted : chunks.Pairwise (fun a b => a.offset ≤ b.offset))
    (hdisj : chunks.Pairwise
      (fun a b => a.offset + a.len ≤ b.offset ∨ b.offset + b.len ≤ a.offset))
    (hpos : ∀ c ∈ chunks, 0 < c.len) (hend : ∀ c ∈ chunks, c.offset + c.len < U64)
    (hlen0 : 0 < length) (hlen : length < 2147483648) (hwin : offset + length < U64) :
    (planLoop chunks offset length 0 buf []).requests =
      chunks.filterMap (intersectRequest offset length 0) := by
  have hboth := hsorted.and hdisj
  have hs : chunks.Pairwise (fun a b => a.offset + a.len ≤ b.offset) := by
    refine hboth.imp_of_mem ?_
    intro a b _ hb h
    have := hpos b hb
    omega
  have := planLoop_exact chunks offset length 0 buf [] (fun c hc => ⟨hpos c hc, hend c hc⟩)
    hwin hlen (by unfold U64; omega) hs
  rw [this, List.nil_append]

/-- Witness of C20 (amended): chunks `[0, 8)@v0`, `[8, 12)@v1`, `[12, 20)@v0`
and the window `[4, 14)`. -/
theorem Read_plan_witness :
    (planLoop [⟨0, 0, 0, 8, 8⟩, ⟨0, 1, 8, 4, 4⟩, ⟨0, 0, 12, 8, 8⟩] 4 10 0 (fun _ => 0)
        []).requests =
      [⟨0, 0, 0, 8, 8⟩, ⟨0, 1, 8, 4, 4⟩, ⟨0, 0, 12, 8, 8⟩].filterMap
        (intersectRequest 4 10 0) :=
  Read_plan [⟨0, 0, 0, 8, 8⟩, ⟨0, 1, 8, 4, 4⟩, ⟨0, 0, 12, 8, 8⟩] 4 10 (fun _ => 0)
    (by decide) (by decide) (by decide) (by decide) (by decide) (by decide) (by decide)

/-- C11: coalescing. For every client and services, `B > 0`, and every
sequence of `N >= 1` successful writes to a fresh inode (each of positive
length, the precondition of `Write`), the first at offset `o`, each later one
where the one before ended (the caller sets `inode.length` after each write),
all ranges in one chunk and ending below `2^64`: the chunk list afterwards has
exactly one entry, at version 0, with offset `o` and `len` the sum of the `N`
lengths. -/
theorem Write_coalesce {σ : Type} (client : S3Client σ) (rpc : Services σ)
    (blockSize chunkSize : Nat) (hB : 0 < blockSize) (uninit fsid inodeid : Nat) (st : σ)
    (o : Nat) (writes : List (Nat × (Nat → Nat))) (hne : writes ≠ [])
    (hpos : ∀ w ∈ writes, 0 < w.1)
    (hchunk : o % chunkSize + (writes.map Prod.fst).sum ≤ chunkSize)
    (hend : o + (writes.map Prod.fst).sum < U64)
    (hl63 : (writes.map Prod.fst).sum < 9223372036854775808)
    (inode1 : Inode) (st1 : σ)
    (h : writeRun client rpc blockSize chunkSize uninit writes o ⟨fsid, inodeid, 0, 0, []⟩ st =
      some (inode1, st1)) :
    ∃ k size, inode1.s3ChunkInfoList = [⟨k, 0, o, (writes.map Prod.fst).sum, size⟩] := by
  cases writes with
  | nil => exact absurd rfl hne
  | cons w rest =>
    simp only [List.map_cons, List.sum_cons] at hchunk hend hl63 ⊢
    have hw := hpos w (List.mem_cons_self _ _)
    rw [writeRun] at h
    rcases hW : Write client rpc blockSize chunkSize st ⟨fsid, inodeid, 0, 0, []⟩ o w.1 w.2
      uninit with _ | ⟨ret, inode2, st2⟩
    · rw [hW] at h
      cases h
    · rw [hW] at h
      simp only at h
      by_cases hret : 0 ≤ ret
      · rw [if_pos hret] at h
        obtain ⟨k, hk⟩ := Write_first_single client rpc blockSize chunkSize hB fsid inodeid st o
          w.1 w.2 uninit ret inode2 st2 hw (by omega) (by omega) (by omega) hW hret
        refine ⟨k, w.1, ?_⟩
        exact writeRun_tail client rpc blockSize chunkSize hB uninit k o w.1 rest w.1
          (setLength inode2 o w.1) st2 inode1 st1 (by rw [hk]; rfl)
          (by
            simp only [setLength]
            omega)
          (fun x hx => hpos x (List.mem_cons_of_mem _ hx)) (by omega) (by omega) (by omega) h
      · rw [if_neg hret] at h
        cases h

/-- Witness of C11: `B = 4`, `C = 16`, `Write(0, 10, "ABCDEFGHIJ")`
then `Write(10, 2, "KL")` on the in-memory world leave the one entry `[0, 12)`. -/
theorem Write_coalesce_witness :
    ∃ k size, (⟨1, 1, 12, 0, [⟨0, 0, 0, 12, 10⟩]⟩ : Inode).s3ChunkInfoList =
      [⟨k, 0, 0, ([(10, bufOf abcBytes), (2, bufOf [75, 76])].map Prod.fst).sum, size⟩] :=
  Write_coalesce worldClient worldServices 4 16 (by decide) 0 1 1 freshWorld 0
    [(10, bufOf abcBytes), (2, bufOf [75, 76])] (by simp) (by simp) (by decide) (by decide)
    (by decide) ⟨1, 1, 12, 0, [⟨0, 0, 0, 12, 10⟩]⟩
    ⟨[("0_2_0", [75, 76]), ("0_1_0", [69, 70, 71, 72]), ("0_0_0", [65, 66, 67, 68])],
      [.upload "0_0_0" [65, 66, 67, 68], .upload "0_1_0" [69, 70, 71, 72],
        .upload "0_2_0" [73, 74], .upload "0_2_0" [75, 76]], 1, 0⟩ (by decide)

/-- C12: `Write` when every external call succeeds. For every client whose
`Upload` and `Append` never return a negative result and every allocator that
never fails (whatever the version bump answers), `B > 0`, `C > 0`, every inode
whose chunk list is not empty when its length is not zero (the source reads
the last entry of the list in that case), and every `offset`, `length` with
`length < 2^31` and `offset + length < 2^64`:
`Write` returns, its result is exactly `length`, and the ranges it passes to
`UpdateInodeChunkInfo` are consecutive from `offset`, each inside one chunk,
each but the last ending at a multiple of `C`, with lengths summing to
`length`; the chunk list afterwards is the old one with these calls applied. -/
theorem Write_all_succeed {σ : Type} (client : S3Client σ) (rpc : Services σ)
    (hup : ∀ s name data, 0 ≤ (client.Upload s name data).1)
    (hap : ∀ s name data, 0 ≤ (client.Append s name data).1)
    (hal : ∀ s fsid, (rpc.AllocateS3Chunk s fsid).1 ≠ none)
    (blockSize chunkSize : Nat) (hB : 0 < blockSize) (hC : 0 < chunkSize) (st : σ)
    (inode : Inode) (hwf : inode.length ≠ 0 → inode.s3ChunkInfoList ≠ [])
    (offset length : Nat) (buf : Nat → Nat) (uninit : Nat)
    (hl31 : length < 2147483648) (hend : offset + length < U64) :
    ∃ inode1 st1 calls,
      WriteT client rpc blockSize chunkSize st inode offset length buf uninit =
        some (((length : Int), inode1, st1), calls) ∧
      Write client rpc blockSize chunkSize st inode offset length buf uninit =
        some ((length : Int), inode1, st1) ∧
      SlicesOf chunkSize offset length (calls.map (fun c => (c.offset, c.len))) ∧
      inode1.s3ChunkInfoList = mergeAll inode.s3ChunkInfoList calls := by
  obtain ⟨inode1, st1, calls, e1, e2, e3⟩ := WriteT_ok client rpc hup hap hal blockSize
    chunkSize hB hC st inode offset length buf uninit (by omega) hend hwf
  rw [toInt32_small length hl31] at e1
  refine ⟨inode1, st1, calls, e1, ?_, e2, e3⟩
  rw [← WriteT_fst, e1]
  rfl

/-- Witness of C12: `B = 4`, `C = 16`, `Write(inode, 0, 10, "ABCDEFGHIJ")` on
the fresh inode and the in-memory world. -/
theorem Write_all_succeed_witness :
    ∃ inode1 st1 calls,
      WriteT worldClient worldServices 4 16 freshWorld freshInode 0 10 (bufOf abcBytes) 0 =
        some ((((10 : Nat) : Int), inode1, st1), calls) ∧
      Write worldClient worldServices 4 16 freshWorld freshInode 0 10 (bufOf abcBytes) 0 =
        some (((10 : Nat) : Int), inode1, st1) ∧
      SlicesOf 16 0 10 (calls.map (fun c => (c.offset, c.len))) ∧
      inode1.s3ChunkInfoList = mergeAll freshInode.s3ChunkInfoList calls :=
  Write_all_succeed worldClient worldServices (fun _ _ _ => le_refl _) (fun _ _ _ => le_refl _)
    (fun _ _ h => nomatch h) 4 16 (by decide) (by decide) freshWorld freshInode
    (fun h => absurd rfl h) 0 10 (bufOf abcBytes) 0 (by decide) (by decide)

/-- C13: store write failure. Any client and services, with their calls
recorded; `B > 0`, `C > 0`, `length < 2^63`, `offset + length < 2^64`, and an
inode whose chunk list is not empty when its length is not zero. `Write`
returns, and if one of the calls it made is an `Upload` or `Append` that
returned a negative result, then `Write` returns a negative value and the run
is the following. The cut of `[offset, offset + length)` at the multiples of
`C` is `s1..s(k-1)`, then the slice `(fo, fn)`, then `rest`. The calls
recorded are: the version bump if one was made; for each of `s1..s(k-1)`, in
order, the chunk-id allocation if one was made and then exactly the block
operations of that slice, all successful; then, for the slice `(fo, fn)`, the
allocation if one was made and a non-empty initial part of the block
operations of that slice, of which the last one failed and no other. Nothing
is recorded after the failed call. The inode returned is the one before the
call with exactly the slices `s1..s(k-1)` merged into its chunk list by
`UpdateInodeChunkInfo`, in order; its `version` is unchanged. -/
theorem Write_store_failure {σ : Type} (client : S3Client σ) (rpc : Services σ)
    (blockSize chunkSize : Nat) (hB : 0 < blockSize) (hC : 0 < chunkSize) (st : σ)
    (log : List Call) (inode : Inode)
    (hwf : inode.length ≠ 0 → inode.s3ChunkInfoList ≠ [])
    (offset length : Nat) (buf : Nat → Nat) (uninit : Nat)
    (hl63 : length < 9223372036854775808) (hend : offset + length < U64) :
    ∃ ret inode1 st1 new,
      Write (recClient client) (recServices rpc) blockSize chunkSize (st, log) inode offset
        length buf uninit = some (ret, inode1, (st1, log ++ new)) ∧
      ((∃ op ∈ new, op.storeFailed = true) →
        ret < 0 ∧
        ∃ v a0 calls fo fn rest pre segs kf al oks last,
          SlicesOf chunkSize offset length
            (calls.map (fun c => (c.offset, c.len)) ++ (fo, fn) :: rest) ∧
          inode1 = { inode with s3ChunkInfoList := mergeAll inode.s3ChunkInfoList calls } ∧
          new = pre ++ segs.flatten ++ (al ++ oks ++ [last]) ∧
          (pre = [] ∨ ∃ r, pre = [Call.bump inode.inodeid inode.fsid r]) ∧
          List.Forall₂ (SliceCalls blockSize chunkSize buf inode.fsid 0 offset a0) calls segs ∧
          (al = [] ∨ al = [Call.alloc inode.fsid (some kf)]) ∧
          (∀ op ∈ oks, op.storeFailed = false) ∧ last.storeFailed = true ∧
          (oks ++ [last]).map Call.storeOp =
            ((blockOps blockSize kf v (fo % chunkSize) fn buf (fo - offset)
              (a0 && decide (fo = offset))).take (oks.length + 1)).map some) := by
  have key : ∀ (version : Nat) (s : σ) (pre : List Call) (append : Bool),
      (∀ op ∈ pre, op.storeFailed = false) →
      (pre = [] ∨ ∃ r, pre = [Call.bump inode.inodeid inode.fsid r]) →
      ∃ ret inode1 st1 new,
        (writeLoopT (recClient client) (recServices rpc) blockSize chunkSize buf version length
          (s, log ++ pre) inode (offset / chunkSize) (offset % chunkSize) length 0 0 append
          []).map Prod.fst = some (ret, inode1, (st1, log ++ new)) ∧
        ((∃ op ∈ new, op.storeFailed = true) →
          ret < 0 ∧
          ∃ v a0 calls fo fn rest pre segs kf al oks last,
            SlicesOf chunkSize offset length
              (calls.map (fun c => (c.offset, c.len)) ++ (fo, fn) :: rest) ∧
            inode1 = { inode with s3ChunkInfoList := mergeAll inode.s3ChunkInfoList calls } ∧
            new = pre ++ segs.flatten ++ (al ++ oks ++ [last]) ∧
            (pre = [] ∨ ∃ r, pre = [Call.bump inode.inodeid inode.fsid r]) ∧
            List.Forall₂ (SliceCalls blockSize chunkSize buf inode.fsid 0 offset a0) calls
              segs ∧
            (al = [] ∨ al = [Call.alloc inode.fsid (some kf)]) ∧
            (∀ op ∈ oks, op.storeFailed = false) ∧ last.storeFailed = true ∧
            (oks ++ [last]).map Call.storeOp =
              ((blockOps blockSize kf v (fo % chunkSize) fn buf (fo - offset)
                (a0 && decide (fo = offset))).take (oks.length + 1)).map some) := by
    intro version s pre append hpre hpre2
    obtain ⟨ret, inode1, st1, ops, new, e1, e2⟩ := writeLoopT_trace client rpc blockSize
      chunkSize buf version hB hC length s (log ++ pre) inode offset (offset / chunkSize)
      (offset % chunkSize) length 0 0 append [] (le_refl _) (fun _ => ⟨rfl, rfl⟩) hend hl63
      (by unfold U64 at *; omega) (by unfold U64 at *; omega)
    refine ⟨ret, inode1, st1, pre ++ ops, by rw [e1]; simp, ?_⟩
    rintro ⟨op, hop, hf⟩
    have hopo : op ∈ ops := by
      rcases List.mem_append.1 hop with hx | hx
      · rw [hpre op hx] at hf
        cases hf
      · exact hx
    rcases e2 with hall | ⟨a, b, fo, fn, rest, segs, kf, al, oks, last, c1, c2, c3, c4, c5, c6,
      c7⟩
    · rw [hall op hopo] at hf
      cases hf
    · refine ⟨a, version, append, new, fo, fn, rest, pre, segs, kf, al, oks, last, c1, b, ?_,
        hpre2, c3, c4, c5, c6, ?_⟩
      · rw [c2]
        simp
      · rw [c7, Nat.zero_add]
  rw [← WriteT_fst]
  unfold WriteT
  by_cases h0 : inode.length = 0
  · rw [if_pos h0]
    have := key 0 st [] false (fun op hop => nomatch hop) (Or.inl rfl)
    rw [List.append_nil] at this
    exact this
  · rw [if_neg h0]
    by_cases hov : IsOverlap inode.s3ChunkInfoList offset length = true
    · rw [if_pos hov]
      have hsv : (recServices rpc).UpdateInodeS3Version (st, log) inode.inodeid inode.fsid =
          ((rpc.UpdateInodeS3Version st inode.inodeid inode.fsid).1,
            ((rpc.UpdateInodeS3Version st inode.inodeid inode.fsid).2,
              log ++ [.bump inode.inodeid inode.fsid
                (match (rpc.UpdateInodeS3Version st inode.inodeid inode.fsid).1 with
                  | .ok v => some v
                  | .error _ => none)])) := rfl
      rw [hsv]
      have hb : ∀ r, ∀ op ∈ [Call.bump inode.inodeid inode.fsid r], op.storeFailed = false := by
        intro r op hop
        rw [List.mem_singleton.1 hop]
        rfl
      rcases hr : rpc.UpdateInodeS3Version st inode.inodeid inode.fsid with ⟨_ | x, s2⟩
      · exact key uninit s2 _ false (hb _) (Or.inr ⟨_, rfl⟩)
      · exact key x s2 _ false (hb _) (Or.inr ⟨_, rfl⟩)
    · rw [if_neg hov]
      cases hl : inode.s3ChunkInfoList.getLast? with
      | none =>
        rw [List.getLast?_eq_none_iff] at hl
        exact absurd hl (hwf h0)
      | some last =>
        have := key last.version st [] (IsAppendBlock inode.s3ChunkInfoList blockSize offset)
          (fun op hop => nomatch hop) (Or.inl rfl)
        rw [List.append_nil] at this
        exact this

/-- Witness of C13: `B = 4`, `C = 8`, a store that accepts two calls:
`Write(inode, 0, 10, "ABCDEFGHIJ")` on the fresh inode writes the slice
`[0, 8)` (two objects) and fails on the first object of the slice `[8, 10)`;
the chunk list afterwards holds the slice `[0, 8)` only. -/
theorem Write_store_failure_witness :
    Write (recClient budgetClient) (recServices constServices) 4 8 (2, []) freshInode 0 10
        (bufOf abcBytes) 0 =
      some (-1, ⟨1, 1, 0, 0, [⟨0, 0, 0, 8, 8⟩]⟩,
        (0, [.alloc 1 (some 0), .upload "0_0_0" [65, 66, 67, 68] 0,
          .upload "0_1_0" [69, 70, 71, 72] 0, .alloc 1 (some 0),
          .upload "0_0_0" [73, 74] (-1)])) ∧
    ∃ ret inode1 st1 new,
      Write (recClient budgetClient) (recServices constServices) 4 8 (2, []) freshInode 0 10
        (bufOf abcBytes) 0 = some (ret, inode1, (st1, [] ++ new)) ∧
      ((∃ op ∈ new, op.storeFailed = true) →
        ret < 0 ∧
        ∃ v a0 calls fo fn rest pre segs kf al oks last,
          SlicesOf 8 0 10 (calls.map (fun c => (c.offset, c.len)) ++ (fo, fn) :: rest) ∧
          inode1 =
            { freshInode with
              s3ChunkInfoList := mergeAll freshInode.s3ChunkInfoList calls } ∧
          new = pre ++ segs.flatten ++ (al ++ oks ++ [last]) ∧
          (pre = [] ∨ ∃ r, pre = [Call.bump freshInode.inodeid freshInode.fsid r]) ∧
          List.Forall₂ (SliceCalls 4 8 (bufOf abcBytes) freshInode.fsid 0 0 a0) calls segs ∧
          (al = [] ∨ al = [Call.alloc freshInode.fsid (some kf)]) ∧
          (∀ op ∈ oks, op.storeFailed = false) ∧ last.storeFailed = true ∧
          (oks ++ [last]).map Call.storeOp =
            ((blockOps 4 kf v (fo % 8) fn (bufOf abcBytes) (fo - 0)
              (a0 && decide (fo = 0))).take (oks.length + 1)).map some) :=
  ⟨by decide,
    Write_store_failure budgetClient constServices 4 8 (by decide) (by decide) 2 []
      freshInode (fun h => absurd rfl h) 0 10 (bufOf abcBytes) 0 (by decide) (by decide)⟩

/-- C14: version selection. Any client and services, with their calls
recorded; `B > 0`, `C > 0`, `length < 2^63`, `offset + length < 2^64`. After a
successful `Write` (result not negative), the value stored in `inode.version`
is also the version of every range merged into the chunk list and of every
object name passed to `Upload` or `Append`, and it is: 0 when
`inode.length == 0`; the version answered by `UpdateInodeS3Version` when
`inode.length > 0` and the range overlaps an entry; otherwise the version of
the last entry of the chunk list, and then `UpdateInodeS3Version` is not
called. -/
theorem Write_version_selection {σ : Type} (client : S3Client σ) (rpc : Services σ)
    (blockSize chunkSize : Nat) (hB : 0 < blockSize) (hC : 0 < chunkSize) (st : σ)
    (log : List Call) (inode : Inode) (offset length : Nat) (buf : Nat → Nat) (uninit : Nat)
    (hl63 : length < 9223372036854775808) (hend : offset + length < U64)
    (ret : Int) (inode1 : Inode) (st1 : σ) (log1 : List Call) (calls : List MergeCall)
    (h : WriteT (recClient client) (recServices rpc) blockSize chunkSize (st, log) inode offset
      length buf uninit = some ((ret, inode1, (st1, log1)), calls))
    (hret : 0 ≤ ret) :
    Write (recClient client) (recServices rpc) blockSize chunkSize (st, log) inode offset
      length buf uninit = some (ret, inode1, (st1, log1)) ∧
    ∃ ops, log1 = log ++ ops ∧
      (∀ c ∈ calls, c.version = inode1.version) ∧
      (∀ op ∈ ops, ∀ name data r, op = .upload name data r ∨ op = .append name data r →
        ∃ k b, name = GenerateObjectName k b inode1.version) ∧
      (inode.length = 0 → inode1.version = 0) ∧
      (inode.length ≠ 0 → IsOverlap inode.s3ChunkInfoList offset length = true →
        ∀ x s1, rpc.UpdateInodeS3Version st inode.inodeid inode.fsid = (.ok x, s1) →
          inode1.version = x) ∧
      (inode.length ≠ 0 → IsOverlap inode.s3ChunkInfoList offset length = false →
        (∀ e, inode.s3ChunkInfoList.getLast? = some e → inode1.version = e.version) ∧
        ∀ op ∈ ops, ∀ a b r, op ≠ .bump a b r) := by
  obtain ⟨v, pre, ops, e1, e2, e3, e4, e5, e6, e7⟩ := WriteT_rec client rpc blockSize chunkSize
    hB hC st log inode offset length buf uninit hl63 hend ret inode1 st1 log1 calls h
  have hv : inode1.version = v := by
    rcases e7 with ⟨_, b, _⟩ | ⟨a, _⟩
    · rw [b]
    · omega
  have hpre : ∀ op ∈ pre, ∃ a b r, op = .bump a b r := by
    intro op hop
    by_cases h0 : inode.length = 0
    · rw [(e2 h0).2] at hop
      cases hop
    · by_cases hov : IsOverlap inode.s3ChunkInfoList offset length = true
      · obtain ⟨res, hres⟩ := (e3 h0 hov).1
        rw [hres, List.mem_singleton] at hop
        exact ⟨_, _, _, hop⟩
      · rw [(e4 h0 (by simpa using hov)).1] at hop
        cases hop
  refine ⟨by rw [← WriteT_fst, h]; rfl, pre ++ ops, by rw [e1, List.append_assoc], ?_, ?_, ?_,
    ?_, ?_⟩
  · intro c hc
    rw [hv]
    exact e5 c hc
  · intro op hop name data r hname
    rw [hv]
    rcases List.mem_append.1 hop with hx | hx
    · obtain ⟨a, b, r1, hb⟩ := hpre op hx
      rw [hb] at hname
      rcases hname with hn | hn <;> cases hn
    · rcases e6 op hx with ⟨k, b, d, r1, hs | hs⟩ | ⟨f, id, hs⟩
      · rw [hs] at hname
        rcases hname with hn | hn
        · simp only [Call.upload.injEq] at hn
          exact ⟨k, b, hn.1.symm⟩
        · cases hn
      · rw [hs] at hname
        rcases hname with hn | hn
        · cases hn
        · simp only [Call.append.injEq] at hn
          exact ⟨k, b, hn.1.symm⟩
      · rw [hs] at hname
        rcases hname with hn | hn <;> cases hn
  · intro h0
    rw [hv]
    exact (e2 h0).1
  · intro h0 hov x s1 hx
    rw [hv]
    exact (e3 h0 hov).2 x s1 hx
  · intro h0 hov
    refine ⟨fun e he => by rw [hv]; exact (e4 h0 hov).2 e he, ?_⟩
    intro op hop a b r hb
    rw [(e4 h0 hov).1, List.nil_append] at hop
    rcases e6 op hop with ⟨k, b1, d, r1, hs | hs⟩ | ⟨f, id, hs⟩ <;> rw [hs] at hb <;> cases hb

/-- Witness of C14: `B = 4`, `C = 16`, the inode after `Write(0, 10)` with its
length set to 10, and the overlapping `Write(inode, 4, 4, "wxyz")`: the bump
answers 1, the object written is `0_1_1`, the merged range and
`inode.version` carry version 1. -/
theorem Write_version_selection_witness :
    Write (recClient budgetClient) (recServices constServices) 4 16 (5, []) abcInode 4 4
      (bufOf [119, 120, 121, 122]) 0 =
      some (4, ⟨1, 1, 10, 1, [⟨0, 0, 0, 10, 10⟩, ⟨0, 1, 4, 4, 4⟩]⟩,
        (4, [.bump 1 1 (some 1), .upload "0_1_1" [119, 120, 121, 122] 0])) ∧
    ∃ ops, ([.bump 1 1 (some 1), .upload "0_1_1" [119, 120, 121, 122] 0] : List Call) =
        [] ++ ops ∧
      (∀ c ∈ ([⟨0, 1, 4, 4⟩] : List MergeCall),
        c.version = (⟨1, 1, 10, 1, [⟨0, 0, 0, 10, 10⟩, ⟨0, 1, 4, 4, 4⟩]⟩ : Inode).version) ∧
      (∀ op ∈ ops, ∀ name data r, op = .upload name data r ∨ op = .append name data r →
        ∃ k b, name = GenerateObjectName k b
          (⟨1, 1, 10, 1, [⟨0, 0, 0, 10, 10⟩, ⟨0, 1, 4, 4, 4⟩]⟩ : Inode).version) ∧
      (abcInode.length = 0 →
        (⟨1, 1, 10, 1, [⟨0, 0, 0, 10, 10⟩, ⟨0, 1, 4, 4, 4⟩]⟩ : Inode).version = 0) ∧
      (abcInode.length ≠ 0 → IsOverlap abcInode.s3ChunkInfoList 4 4 = true →
        ∀ x s1, constServices.UpdateInodeS3Version 5 abcInode.inodeid abcInode.fsid =
            (.ok x, s1) →
          (⟨1, 1, 10, 1, [⟨0, 0, 0, 10, 10⟩, ⟨0, 1, 4, 4, 4⟩]⟩ : Inode).version = x) ∧
      (abcInode.length ≠ 0 → IsOverlap abcInode.s3ChunkInfoList 4 4 = false →
        (∀ e, abcInode.s3ChunkInfoList.getLast? = some e →
          (⟨1, 1, 10, 1, [⟨0, 0, 0, 10, 10⟩, ⟨0, 1, 4, 4, 4⟩]⟩ : Inode).version = e.version) ∧
        ∀ op ∈ ops, ∀ a b r, op ≠ .bump a b r) :=
  Write_version_selection budgetClient constServices 4 16 (by decide) (by decide) 5 [] abcInode
    4 4 (bufOf [119, 120, 121, 122]) 0 (by decide) (by decide) 4
    ⟨1, 1, 10, 1, [⟨0, 0, 0, 10, 10⟩, ⟨0, 1, 4, 4, 4⟩]⟩ 4
    [.bump 1 1 (some 1), .upload "0_1_1" [119, 120, 121, 122] 0] [⟨0, 1, 4, 4⟩] (by decide)
    (by decide)

/-- C21 fails on the code: the scan of `UpdateInodeChunkInfo` does not stop
at the first matching entry; it goes on with `offset` and `len` replaced by
those of the entry just extended, so a later entry of the same chunk id and
version that ends where the first one starts is extended too. On the list
`[(0, 0, 10, 5), (0, 0, 5, 5)]` the call `UpdateInodeChunkInfo(0, 0, 15, 3)`
extends the first entry to `len = 8` and the second to `len = 13`. The list is
the one left by `Write(10, 5)`, `Write(5, 5)` on a fresh inode (`B = 4`,
`C = 16`), and `Write(15, 1)` then extends both entries. -/
theorem UpdateInodeChunkInfo_chain_merge :
    UpdateInodeChunkInfo [⟨0, 0, 10, 5, 5⟩, ⟨0, 0, 5, 5, 5⟩] 0 0 15 3 =
      [⟨0, 0, 10, 8, 5⟩, ⟨0, 0, 5, 13, 5⟩] ∧
    (Write worldClient worldServices 4 16 freshWorld freshInode 10 5 (bufOf [1, 2, 3, 4, 5])
        0).bind
      (fun s1 => (Write worldClient worldServices 4 16 s1.2.2 (setLength s1.2.1 10 5) 5 5
          (bufOf [6, 7, 8, 9, 10]) 0).bind
        (fun s2 => (Write worldClient worldServices 4 16 s2.2.2 (setLength s2.2.1 5 5) 15 1
            (bufOf [11]) 0).map
          (fun s3 => (s2.2.1.s3ChunkInfoList, s3.1, s3.2.1.s3ChunkInfoList)))) =
      some ([⟨0, 0, 10, 5, 5⟩, ⟨0, 0, 5, 5, 5⟩], 1,
        [⟨0, 0, 10, 6, 5⟩, ⟨0, 0, 5, 11, 5⟩]) := by
  decide

/-- C23: `SortByOffset` on a list of fewer than `2^31` records (its length is
held in an `int`) returns a permutation of its input, ascending by offset
(every record's offset is at most that of every later record, adjacent ones in
particular), in which the records of any one offset are in their input
order. -/
theorem SortByOffset_spec (l : List S3ChunkInfo) (hlen : l.length < 2147483648) :
    (SortByOffset l).Perm l ∧
    (SortByOffset l).Pairwise (fun a b => a.offset ≤ b.offset) ∧
    (SortByOffset l).Chain' (fun a b => a.offset ≤ b.offset) ∧
    ∀ o, (SortByOffset l).filter (fun c => c.offset == o) =
      l.filter (fun c => c.offset == o) := by
  have _ := hlen
  have hs := SortByOffset_sorted l
  exact ⟨SortByOffset_perm l, hs, List.Pairwise.chain' hs, fun o => SortByOffset_stable o l⟩

/-- Witness of C23: three records, two of them at offset 4. -/
theorem SortByOffset_spec_witness :
    (SortByOffset [⟨1, 0, 4, 2, 2⟩, ⟨2, 0, 0, 4, 4⟩, ⟨3, 0, 4, 1, 1⟩]).Perm
      [⟨1, 0, 4, 2, 2⟩, ⟨2, 0, 0, 4, 4⟩, ⟨3, 0, 4, 1, 1⟩] ∧
    (SortByOffset [⟨1, 0, 4, 2, 2⟩, ⟨2, 0, 0, 4, 4⟩, ⟨3, 0, 4, 1, 1⟩]).Pairwise
      (fun a b => a.offset ≤ b.offset) ∧
    (SortByOffset [⟨1, 0, 4, 2, 2⟩, ⟨2, 0, 0, 4, 4⟩, ⟨3, 0, 4, 1, 1⟩]).Chain'
      (fun a b => a.offset ≤ b.offset) ∧
    ∀ o, (SortByOffset [⟨1, 0, 4, 2, 2⟩, ⟨2, 0, 0, 4, 4⟩, ⟨3, 0, 4, 1, 1⟩]).filter
        (fun c => c.offset == o) =
      [⟨1, 0, 4, 2, 2⟩, ⟨2, 0, 0, 4, 4⟩, ⟨3, 0, 4, 1, 1⟩].filter (fun c => c.offset == o) :=
  SortByOffset_spec [⟨1, 0, 4, 2, 2⟩, ⟨2, 0, 0, 4, 4⟩, ⟨3, 0, 4, 1, 1⟩] (by decide)

/-- C22: block slicing of a chunk write. Any client whose `Upload` and
`Append` never return a negative result, with its calls recorded; `B > 0`,
`length > 0`, `pos + length < 2^64`. `WriteChunk(chunkId, version, pos, length,
buf, append)` returns `length`, and the store operations it issues are exactly
one for each block index `i` from `pos / B` to `(pos + length - 1) / B`, in
ascending order, on the object `GenerateObjectName(chunkId, i, version)`, with
payload the bytes of `buf` for the positions of `[pos, pos + length)` inside
block `i` (consecutive slices of `buf`, none crossing a block boundary); the
first operation is an `Append` exactly when `append` is set, every other one an
`Upload`. -/
theorem WriteChunk_blocks {σ : Type} (client : S3Client σ)
    (hup : ∀ s name data, 0 ≤ (client.Upload s name data).1)
    (hap : ∀ s name data, 0 ≤ (client.Append s name data).1)
    (blockSize chunkId version pos length : Nat) (buf : Nat → Nat) (bufPos : Nat)
    (append : Bool) (st : σ) (log : List Call) (hB : 0 < blockSize) (hlen : 0 < length)
    (hpos : pos + length < U64) :
    ∃ st1 ops,
      WriteChunk (recClient client) (st, log) blockSize chunkId version pos length buf bufPos
        append = some (length, (st1, log ++ ops)) ∧
      ops.map Call.storeOp =
        (blockOps blockSize chunkId version pos length (fun j => buf (bufPos + j)) 0
          append).map some ∧
      ops.length = (pos + length - 1) / blockSize - pos / blockSize + 1 := by
  obtain ⟨st1, ops, h1, h2⟩ := WriteChunk_ops client hup hap blockSize chunkId version pos length
    buf bufPos append st log hB hpos
  refine ⟨st1, ops, h1, h2, ?_⟩
  have := congrArg List.length h2
  simp only [List.length_map] at this
  rw [this]
  unfold blockOps
  rw [if_neg (by omega)]
  simp

/-- Witness of C22: `B = 4`, `WriteChunk(0, 0, 0, 10, "ABCDEFGHIJ", false)`
uploads `0_0_0` (4 bytes), `0_1_0` (4 bytes), `0_2_0` (2 bytes). -/
theorem WriteChunk_blocks_witness :
    (∃ st1 ops,
      WriteChunk (recClient worldClient) (freshWorld, []) 4 0 0 0 10 (bufOf abcBytes) 0 false =
        some (10, (st1, [] ++ ops)) ∧
      ops.map Call.storeOp =
        (blockOps 4 0 0 0 10 (fun j => bufOf abcBytes (0 + j)) 0 false).map some ∧
      ops.length = (0 + 10 - 1) / 4 - 0 / 4 + 1) ∧
    blockOps 4 0 0 0 10 (fun j => bufOf abcBytes (0 + j)) 0 false =
      [.upload "0_0_0" [65, 66, 67, 68], .upload "0_1_0" [69, 70, 71, 72],
        .upload "0_2_0" [73, 74]] :=
  ⟨WriteChunk_blocks worldClient (fun _ _ _ => le_refl _) (fun _ _ _ => le_refl _) 4 0 0 0 10
    (bufOf abcBytes) 0 false freshWorld [] (by decide) (by decide) (by decide), by decide⟩

/-- C24 as stated fails on a window of `2^31` bytes or more: for the single
chunk `[2^31, 2^31 + 1)` and the window `[0, 2^31 + 1)` the gap before the
chunk goes through `int n`; the zero-fill is made with `n = 2^64 - 2^31`, the
request built ends at `2^64 - 2^31 + 1`, beyond the `2^31 + 1` bytes of the
buffer, and the loop condition is next evaluated with `readOffset = 2^64 -
2^31 + 1` and remaining length `2^32`, which do not sum to the original
length. -/
theorem Read_plan_outside_buffer :
    planLoopT [⟨0, 0, 2147483648, 1, 1⟩] 0 2147483649 0 (fun _ => 0) [] [] [] =
      (planLoop [⟨0, 0, 2147483648, 1, 1⟩] 0 2147483649 0 (fun _ => 0) [],
        [(0, 2147483649), (18446744071562067969, 4294967296)],
        [(0, 18446744071562067968), (18446744071562067969, 4294967296)]) ∧
    (planLoop [⟨0, 0, 2147483648, 1, 1⟩] 0 2147483649 0 (fun _ => 0) []).requests.map
      (fun q => q.readOffset + q.chunkInfo.len) = [18446744071562067969] := by
  constructor
  · rfl
  · decide

/-- C24 (amended): `Read` never plans outside the caller's buffer. For every
list of chunk records handed to the plan loop (any order, overlapping or not,
ranges ending below `2^64`) and every window with `length < 2^31` and
`offset + length < 2^64`: at every evaluation of the loop condition
`readOffset` plus the remaining length is `length`; every zero-fill lies in
`[0, length)` of `buf`; every request built has `readOffset + chunkInfo.len <=
length`; the final `readOffset` is at most `length`; and, the error results of
`Download` being negative, what `Read` returns is at most `length`. -/
theorem Read_plan_in_buffer {σ : Type} (client : S3Client σ)
    (hneg : ∀ st name off n e, client.Download st name off n = .error e → e < 0)
    (chunks : List S3ChunkInfo) (hc : ∀ c ∈ chunks, c.offset + c.len < U64)
    (offset length : Nat) (hwin : offset + length < U64) (hlen : length < 2147483648)
    (buf : Nat → Nat) :
    (planLoopT chunks offset length 0 buf [] [] []).1 = planLoop chunks offset length 0 buf [] ∧
    (∀ h ∈ (planLoopT chunks offset length 0 buf [] [] []).2.1, h.1 + h.2 = length) ∧
    (∀ f ∈ (planLoopT chunks offset length 0 buf [] [] []).2.2, f.1 + f.2 ≤ length) ∧
    (∀ q ∈ (planLoop chunks offset length 0 buf []).requests,
      q.readOffset + q.chunkInfo.len ≤ length) ∧
    (planLoop chunks offset length 0 buf []).readOffset ≤ length ∧
    ∀ (st : σ) (blockSize chunkSize fuel : Nat) (inode : Inode) (ret : Int) (out : Nat → Nat),
      (∀ e ∈ inode.s3ChunkInfoList, e.offset + e.len < U64) →
      Read client st blockSize chunkSize fuel inode offset length buf = some (ret, out) →
      ret ≤ (length : Int) := by
  obtain ⟨hs, fs, a, b, c, d⟩ := planLoopT_bounds chunks offset length 0 buf [] [] [] hc hwin hlen
    (by unfold U64; omega)
  obtain ⟨news, p1, p2, _, _, _, p6⟩ := planLoop_spec chunks offset length 0 buf [] hc hwin hlen
    (by unfold U64; omega)
  rw [List.nil_append] at a b p1
  rw [Nat.zero_add] at p6
  refine ⟨planLoopT_fst _ _ _ _ _ _ _ _, ?_, ?_, ?_, p6, ?_⟩
  · intro h hh
    rw [a] at hh
    rw [c h hh, Nat.zero_add]
  · intro f hf
    rw [b] at hf
    have := (d f hf).2
    omega
  · intro q hq
    rw [p1] at hq
    obtain ⟨_, h2, _⟩ := p2 q hq
    omega
  · intro st blockSize chunkSize fuel inode ret out hl h
    exact Read_le client hneg st blockSize chunkSize fuel inode hl offset length hwin hlen buf
      ret out h

/-- Witness of C24 (amended): the in-memory client, chunks `[12, 20)@v0`,
`[0, 8)@v0`, `[4, 10)@v1` in this order, window `[2, 16)`. -/
theorem Read_plan_in_buffer_witness :
    (planLoopT [⟨0, 0, 12, 8, 8⟩, ⟨0, 0, 0, 8, 8⟩, ⟨0, 1, 4, 6, 6⟩] 2 14 0 (fun _ => 7) [] []
        []).1 =
      planLoop [⟨0, 0, 12, 8, 8⟩, ⟨0, 0, 0, 8, 8⟩, ⟨0, 1, 4, 6, 6⟩] 2 14 0 (fun _ => 7) [] ∧
    (∀ h ∈ (planLoopT [⟨0, 0, 12, 8, 8⟩, ⟨0, 0, 0, 8, 8⟩, ⟨0, 1, 4, 6, 6⟩] 2 14 0 (fun _ => 7)
        [] [] []).2.1, h.1 + h.2 = 14) ∧
    (∀ f ∈ (planLoopT [⟨0, 0, 12, 8, 8⟩, ⟨0, 0, 0, 8, 8⟩, ⟨0, 1, 4, 6, 6⟩] 2 14 0 (fun _ => 7)
        [] [] []).2.2, f.1 + f.2 ≤ 14) ∧
    (∀ q ∈ (planLoop [⟨0, 0, 12, 8, 8⟩, ⟨0, 0, 0, 8, 8⟩, ⟨0, 1, 4, 6, 6⟩] 2 14 0 (fun _ => 7)
        []).requests, q.readOffset + q.chunkInfo.len ≤ 14) ∧
    (planLoop [⟨0, 0, 12, 8, 8⟩, ⟨0, 0, 0, 8, 8⟩, ⟨0, 1, 4, 6, 6⟩] 2 14 0 (fun _ => 7)
      []).readOffset ≤ 14 ∧
    ∀ (st : MemWorld) (blockSize chunkSize fuel : Nat) (inode : Inode) (ret : Int)
      (out : Nat → Nat),
      (∀ e ∈ inode.s3ChunkInfoList, e.offset + e.len < U64) →
      Read worldClient st blockSize chunkSize fuel inode 2 14 (fun _ => 7) = some (ret, out) →
      ret ≤ ((14 : Nat) : Int) :=
  Read_plan_in_buffer worldClient world_download_neg
    [⟨0, 0, 12, 8, 8⟩, ⟨0, 0, 0, 8, 8⟩, ⟨0, 1, 4, 6, 6⟩] (by decide) 2 14 (by decide)
    (by decide) (fun _ => 7)

end Curvefs
